import Mathlib

/-!
Verification development for the `haven` typed-configuration codec.

The Python sources under `src/haven/` are shallowly embedded below:

* `Haven.Ty`, `Haven.Fld`, `Haven.ChoiceM`, `Haven.CVal` — the universe of
  declared field types (dataclass schemas, containers, unions, enums,
  `Component[...]` annotations, choice metadata with its provider mapping).
* `Haven.PyVal` — the single runtime-value universe (raw pytree values and
  decoded instances alike, mirroring Python's untyped object world).
* `Haven.decodeTy` / `Haven.encode` — embeddings of
  `haven.decoding.get_decoding_fn` (and the concrete decoders it returns)
  and `haven.encoding.encode`.

Errors are modelled by `Haven.Err`: `parsing` is `haven.utils.ParsingError`,
`exc kind msg` is any other Python exception of class `kind`.
-/

namespace Haven

/-- Scalar default values attachable to a dataclass field
(`dataclasses.field(default=...)` / the result of a default factory). -/
inductive Scalar where
  | snone : Scalar
  | sbool (b : Bool) : Scalar
  | sint (n : Int) : Scalar
  | sstr (s : String) : Scalar
deriving DecidableEq, Repr

mutual

/-- Declared field types: the type annotations `get_decoding_fn` dispatches on. -/
inductive Ty where
  | tint : Ty
  | tbool : Ty
  | tstr : Ty
  | tnone : Ty
  | tany : Ty
  | tlist (item : Ty) : Ty
  | tset (item : Ty) : Ty
  | ttuple (items : List Ty) : Ty
  | ttupleEll (item : Ty) : Ty
  | tdict (key value : Ty) : Ty
  | tenum (ename : String) (members : List String) : Ty
  | tunion (members : List Ty) : Ty
  | trec (rname : String) (flds : List Fld) : Ty
  | tcomp (conf : Ty) : Ty

/-- One dataclass field: name, annotation, optional default, `init` flag and
optional `_haven_choices` metadata. -/
inductive Fld where
  | mk (fname : String) (fty : Ty) (fdefault : Option Scalar) (finit : Bool)
      (fmeta : Option ChoiceM) : Fld

/-- `haven.choice.ChoiceMeta`: a resolved provider mapping, the discriminator
("key") field name, and the `outer` flag. -/
inductive ChoiceM where
  | mk (choices : List (String × CVal)) (keyField : String) (outer : Bool) : ChoiceM

/-- A value stored in a choice provider: either a dataclass schema or a
callable whose first parameter is annotated with a dataclass schema. -/
inductive CVal where
  | dcTy (t : Ty) : CVal
  | func (fid : Nat) (argTy : Ty) : CVal

end

/-- Runtime Python values: raw pytree nodes and decoded instances share this
single universe, as in Python. `vdict` is insertion ordered with unique keys,
`vset` is the insertion-ordered duplicate-free representation of a set,
`vobj` is a dataclass instance (its set attributes in field order), and
`vcomp` is a `haven.component.Component`. -/
inductive PyVal where
  | vnone : PyVal
  | vbool (b : Bool) : PyVal
  | vint (n : Int) : PyVal
  | vstr (s : String) : PyVal
  | vlist (xs : List PyVal) : PyVal
  | vtuple (xs : List PyVal) : PyVal
  | vset (xs : List PyVal) : PyVal
  | vdict (kvs : List (PyVal × PyVal)) : PyVal
  | venum (ename : String) (member : String) : PyVal
  | vobj (cls : String) (fields : List (String × PyVal)) : PyVal
  | vcomp (config : PyVal) (fn : CVal) : PyVal

/-- Embedded Python exceptions: `parsing` is `haven.utils.ParsingError`, and
`exc kind msg` is any other exception class (`Exception`, `TypeError`, ...). -/
inductive Err where
  | parsing (msg : String) : Err
  | exc (kind : String) (msg : String) : Err
deriving DecidableEq, Repr

/-- Whether an embedded exception is the structured `ParsingError` kind. -/
def Err.isParsing : Err → Bool
  | .parsing _ => true
  | .exc _ _ => false

mutual

/-- Structural equality on declared types. -/
def tyEq : Ty → Ty → Bool
  | .tint, .tint => true
  | .tbool, .tbool => true
  | .tstr, .tstr => true
  | .tnone, .tnone => true
  | .tany, .tany => true
  | .tlist a, .tlist b => tyEq a b
  | .tset a, .tset b => tyEq a b
  | .ttuple a, .ttuple b => tyEqL a b
  | .ttupleEll a, .ttupleEll b => tyEq a b
  | .tdict k v, .tdict k' v' => tyEq k k' && tyEq v v'
  | .tenum n ms, .tenum n' ms' => n == n' && ms == ms'
  | .tunion a, .tunion b => tyEqL a b
  | .trec n fs, .trec n' fs' => n == n' && fldEqL fs fs'
  | .tcomp a, .tcomp b => tyEq a b
  | _, _ => false

def tyEqL : List Ty → List Ty → Bool
  | [], [] => true
  | a :: as, b :: bs => tyEq a b && tyEqL as bs
  | _, _ => false

def fldEq : Fld → Fld → Bool
  | .mk n t d i m, .mk n' t' d' i' m' =>
    n == n' && tyEq t t' && decide (d = d') && i == i' && optMetaEq m m'

def fldEqL : List Fld → List Fld → Bool
  | [], [] => true
  | a :: as, b :: bs => fldEq a b && fldEqL as bs
  | _, _ => false

def optMetaEq : Option ChoiceM → Option ChoiceM → Bool
  | none, none => true
  | some a, some b => chmEq a b
  | _, _ => false

def chmEq : ChoiceM → ChoiceM → Bool
  | .mk cs k o, .mk cs' k' o' => cvalEqL cs cs' && k == k' && o == o'

def cvalEq : CVal → CVal → Bool
  | .dcTy a, .dcTy b => tyEq a b
  | .func f a, .func f' a' => f == f' && tyEq a a'
  | _, _ => false

def cvalEqL : List (String × CVal) → List (String × CVal) → Bool
  | [], [] => true
  | (n, a) :: as, (n', b) :: bs => n == n' && cvalEq a b && cvalEqL as bs
  | _, _ => false

end

mutual

/-- Python `==` on runtime values: structural on scalars, sequences and
dataclass instances (whose generated `__eq__` compares the ordered field
tuples), order-insensitive on sets and dicts. `Component` has no `__eq__` in
the source (identity comparison); we use structural comparison as its
stand-in, which no claim depends on. -/
def pyEq : PyVal → PyVal → Bool
  | .vnone, .vnone => true
  | .vbool a, .vbool b => a == b
  | .vint a, .vint b => a == b
  | .vstr a, .vstr b => a == b
  | .vlist a, .vlist b => pyEqL a b
  | .vtuple a, .vtuple b => pyEqL a b
  | .vset a, .vset b => pySubset a b && pySubset b a
  | .vdict a, .vdict b => a.length == b.length && pairsSub a b
  | .venum e m, .venum e' m' => e == e' && m == m'
  | .vobj c fs, .vobj c' fs' => c == c' && pyEqFs fs fs'
  | .vcomp cf fn, .vcomp cf' fn' => pyEq cf cf' && cvalEq fn fn'
  | _, _ => false
termination_by x y => sizeOf x + sizeOf y
decreasing_by all_goals (simp_wf <;> omega)

def pyEqL : List PyVal → List PyVal → Bool
  | [], [] => true
  | a :: as, b :: bs => pyEq a b && pyEqL as bs
  | _, _ => false
termination_by xs ys => sizeOf xs + sizeOf ys
decreasing_by all_goals (simp_wf <;> omega)

def pyEqFs : List (String × PyVal) → List (String × PyVal) → Bool
  | [], [] => true
  | (n, a) :: as, (n', b) :: bs => n == n' && pyEq a b && pyEqFs as bs
  | _, _ => false
termination_by xs ys => sizeOf xs + sizeOf ys
decreasing_by all_goals (simp_wf <;> omega)

def pyMemB : PyVal → List PyVal → Bool
  | _, [] => false
  | a, b :: bs => pyEq a b || pyMemB a bs
termination_by a bs => sizeOf a + sizeOf bs
decreasing_by all_goals (simp_wf <;> omega)

def pySubset : List PyVal → List PyVal → Bool
  | [], _ => true
  | a :: as, bs => pyMemB a bs && pySubset as bs
termination_by as bs => sizeOf as + sizeOf bs
decreasing_by all_goals (simp_wf <;> omega)

def pairMemB : PyVal → PyVal → List (PyVal × PyVal) → Bool
  | _, _, [] => false
  | k, v, (k', v') :: bs => (pyEq k k' && pyEq v v') || pairMemB k v bs
termination_by k v bs => sizeOf k + sizeOf v + sizeOf bs
decreasing_by all_goals (simp_wf <;> omega)

def pairsSub : List (PyVal × PyVal) → List (PyVal × PyVal) → Bool
  | [], _ => true
  | (k, v) :: as, bs => pairMemB k v bs && pairsSub as bs
termination_by as bs => sizeOf as + sizeOf bs
decreasing_by all_goals (simp_wf <;> omega)

end

/-- Accessor: a field's name. -/
def Fld.fname : Fld → String
  | .mk n _ _ _ _ => n

/-- Accessor: a field's declared type annotation. -/
def Fld.fty : Fld → Ty
  | .mk _ t _ _ _ => t

/-- Accessor: a field's default (`MISSING` is `none`). -/
def Fld.fdefault : Fld → Option Scalar
  | .mk _ _ d _ _ => d

/-- Accessor: whether the field participates in `__init__`. -/
def Fld.finit : Fld → Bool
  | .mk _ _ _ i _ => i

/-- Accessor: the field's `_haven_choices` metadata, if any. -/
def Fld.fmeta : Fld → Option ChoiceM
  | .mk _ _ _ _ m => m

/-- Lift a stored default onto the runtime value universe. -/
def scalarToPy : Scalar → PyVal
  | .snone => .vnone
  | .sbool b => .vbool b
  | .sint n => .vint n
  | .sstr s => .vstr s

/-- Python `dict.__getitem__`-style lookup (key comparison is Python `==`). -/
def dLookup : List (PyVal × PyVal) → PyVal → Option PyVal
  | [], _ => none
  | (k', v) :: rest, k => if pyEq k' k then some v else dLookup rest k

/-- Python `dict.pop`: drop the entry whose key compares equal. -/
def dRemove (kvs : List (PyVal × PyVal)) (k : PyVal) : List (PyVal × PyVal) :=
  kvs.filter (fun kv => !(pyEq kv.1 k))

/-- Python `dict.__setitem__`: update in place (keeping the original key
object) or append at the end in insertion order. -/
def dSet : List (PyVal × PyVal) → PyVal → PyVal → List (PyVal × PyVal)
  | [], k, v => [(k, v)]
  | (k', v') :: rest, k, v =>
    if pyEq k' k then (k', v) :: rest else (k', v') :: dSet rest k v

/-- Lookup in a string-keyed argument map. -/
def sLookup : List (String × PyVal) → String → Option PyVal
  | [], _ => none
  | (n, v) :: rest, s => if n == s then some v else sLookup rest s

/-- The runtime type name of a value, as in Python error messages. -/
def pyTypeName : PyVal → String
  | .vnone => "NoneType"
  | .vbool _ => "bool"
  | .vint _ => "int"
  | .vstr _ => "str"
  | .vlist _ => "list"
  | .vtuple _ => "tuple"
  | .vset _ => "set"
  | .vdict _ => "dict"
  | .venum e _ => e
  | .vobj c _ => c
  | .vcomp _ _ => "Component"

mutual

/-- Python `repr`. Only its existence matters to the claims (it feeds error
messages and `str()` of non-strings); the exact formatting is best effort. -/
def pyRepr : PyVal → String
  | .vnone => "None"
  | .vbool b => if b then "True" else "False"
  | .vint n => toString n
  | .vstr s => "'" ++ s ++ "'"
  | .vlist xs => "[" ++ pyReprL xs ++ "]"
  | .vtuple [x] => "(" ++ pyRepr x ++ ",)"
  | .vtuple xs => "(" ++ pyReprL xs ++ ")"
  | .vset [] => "set()"
  | .vset xs => "\x7b" ++ pyReprL xs ++ "\x7d"
  | .vdict kvs => "\x7b" ++ pyReprKV kvs ++ "\x7d"
  | .venum e m => "<" ++ e ++ "." ++ m ++ ">"
  | .vobj c fs => c ++ "(" ++ pyReprFs fs ++ ")"
  | .vcomp _ _ => "<haven.component.Component object>"
termination_by v => sizeOf v
decreasing_by all_goals (simp_wf <;> omega)

def pyReprL : List PyVal → String
  | [] => ""
  | [x] => pyRepr x
  | x :: xs => pyRepr x ++ ", " ++ pyReprL xs
termination_by xs => sizeOf xs
decreasing_by all_goals (simp_wf <;> omega)

def pyReprKV : List (PyVal × PyVal) → String
  | [] => ""
  | [(k, v)] => pyRepr k ++ ": " ++ pyRepr v
  | (k, v) :: kvs => pyRepr k ++ ": " ++ pyRepr v ++ ", " ++ pyReprKV kvs
termination_by kvs => sizeOf kvs
decreasing_by all_goals (simp_wf <;> omega)

def pyReprFs : List (String × PyVal) → String
  | [] => ""
  | [(n, v)] => n ++ "=" ++ pyRepr v
  | (n, v) :: fs => n ++ "=" ++ pyRepr v ++ ", " ++ pyReprFs fs
termination_by fs => sizeOf fs
decreasing_by all_goals (simp_wf <;> omega)

end

/-- Python `str()`: identity on strings, `repr` on everything the engine
prints (enum members stringify as `EnumName.member`, close enough to repr). -/
def pyStr : PyVal → String
  | .vstr s => s
  | v => pyRepr v

/-- `haven.utils.format_error`: `"{type(e).__name__}: {e}"`. -/
def formatErr : Err → String
  | .parsing m => "ParsingError: " ++ m
  | .exc k m => k ++ ": " ++ m

/-- Digit-string value, `none` unless nonempty and all digits. -/
def digitsVal : List Char → Option Nat
  | [] => none
  | cs =>
    if cs.all Char.isDigit then
      some (cs.foldl (fun acc c => acc * 10 + (c.toNat - 48)) 0)
    else none

/-- Strip surrounding whitespace from a character list. -/
def stripChars (cs : List Char) : List Char :=
  ((cs.dropWhile Char.isWhitespace).reverse.dropWhile Char.isWhitespace).reverse

/-- The integer accepted by Python `int(str)`: surrounding whitespace
stripped, an optional sign, then decimal digits. -/
def parseIntStr (s : String) : Option Int :=
  match stripChars s.toList with
  | '+' :: rest => (digitsVal rest).map Int.ofNat
  | '-' :: rest => (digitsVal rest).map (fun n => -(n : Int))
  | rest => (digitsVal rest).map Int.ofNat

/-- The `int` constructor, registered as the decoder for `int` in
`type_decoders` (`for t in [str, float, int, bool, bytes]: register(t, t)`). -/
def pyIntFn : PyVal → Except Err PyVal
  | .vint n => .ok (.vint n)
  | .vbool b => .ok (.vint (if b then 1 else 0))
  | .vstr s =>
    match parseIntStr s with
    | some n => .ok (.vint n)
    | none =>
      .error (.exc "ValueError" ("invalid literal for int() with base 10: " ++ pyRepr (.vstr s)))
  | v =>
    .error (.exc "TypeError" ("int() argument must be a string or a number, not " ++ pyTypeName v))

/-- Python truthiness: the `bool` constructor registered as the decoder for
`bool`. Total: empty containers/strings and zero are falsy, objects truthy. -/
def pyTruth : PyVal → Bool
  | .vnone => false
  | .vbool b => b
  | .vint n => n != 0
  | .vstr s => s != ""
  | .vlist xs => !xs.isEmpty
  | .vtuple xs => !xs.isEmpty
  | .vset xs => !xs.isEmpty
  | .vdict kvs => !kvs.isEmpty
  | .venum _ _ => true
  | .vobj _ _ => true
  | .vcomp _ _ => true

/-- Python iteration (`for v in val`), used by `_decode_tuple`: sequences,
sets, dict keys and the characters of a string are iterable. -/
def pyIterate : PyVal → Except Err (List PyVal)
  | .vlist xs => .ok xs
  | .vtuple xs => .ok xs
  | .vset xs => .ok xs
  | .vdict kvs => .ok (kvs.map (·.1))
  | .vstr s => .ok (s.toList.map (fun c => .vstr (String.mk [c])))
  | v => .error (.exc "TypeError" ("argument of type " ++ pyTypeName v ++ " is not iterable"))

/-- Sequence unpacking `for k, v in items`: a 2-tuple or 2-list. -/
def pyUnpack2 : PyVal → Except Err (PyVal × PyVal)
  | .vtuple [a, b] => .ok (a, b)
  | .vlist [a, b] => .ok (a, b)
  | v => .error (.exc "ValueError" ("cannot unpack " ++ pyRepr v ++ " into a key-value pair"))

/-- Unpack every item of a purported sequence of pairs. -/
def pyUnpackAll : List PyVal → Except Err (List (PyVal × PyVal))
  | [] => .ok []
  | x :: xs =>
    match pyUnpack2 x with
    | .error e => .error e
    | .ok p =>
      match pyUnpackAll xs with
      | .error e => .error e
      | .ok ps => .ok (p :: ps)

/-- Python `set(...)`: deduplicate under `==`, keeping first occurrences. -/
def pyDedup : List PyVal → List PyVal
  | [] => []
  | x :: xs => x :: pyDedup (xs.filter (fun y => !(pyEq y x)))
termination_by xs => xs.length
decreasing_by simp_wf <;> exact Nat.lt_succ_of_le (List.length_filter_le _ _)

/-- Python `isinstance(x, Hashable)`: a type-level test (tuples pass even
when their elements would not hash; dataclass instances with `eq=True` have
`__hash__ = None` and fail). -/
def pyHashable : PyVal → Bool
  | .vlist _ => false
  | .vset _ => false
  | .vdict _ => false
  | .vobj _ _ => false
  | _ => true

/-- Is the declared type `NoneType` (the `type(None)` member of a union)? -/
def isTNone : Ty → Bool
  | .tnone => true
  | _ => false

/-- `cls[key]` for an enum class: member lookup by name, `KeyError` if the
name is unknown or not a string. -/
def decodeEnumTy (en : String) (ms : List String) : PyVal → Except Err PyVal
  | .vstr s => if ms.contains s then .ok (.venum en s) else .error (.exc "KeyError" s)
  | v => .error (.exc "KeyError" (pyStr v))

/-- The provider mapping produced by `parse_choices`: name → choice value
(`ChoiceProvider.get_choices` with all imports already resolved). -/
def lookupCVal : List (String × CVal) → String → Option CVal
  | [], _ => none
  | (n, c) :: rest, s => if n == s then some c else lookupCVal rest s

/-- `get_component_dataclass`: a dataclass is returned as itself; a callable
must have its first parameter annotated with a dataclass type. -/
def getComponentDataclass : CVal → Except Err (String × List Fld)
  | .dcTy (.trec rn fs) => .ok (rn, fs)
  | .dcTy _ => .error (.exc "ValueError" "")
  | .func _ (.trec rn fs) => .ok (rn, fs)
  | .func _ _ =>
    .error (.parsing "Choice function first argument's type is not a dataclass")

/-- The scan of `fields(targ_cls)` in `decode_choice_field`: the default (or
default-factory result) of the field named `key`; no `break`, so a later
match overwrites an earlier one, and a match without default keeps the
previous value. -/
def scanKeyDefault : List Fld → String → Option Scalar → Option Scalar
  | [], _, acc => acc
  | .mk n _ d _ _ :: rest, key, acc =>
    scanKeyDefault rest key (if n == key then (match d with | some s => some s | none => acc) else acc)

theorem lookupCVal_sizeOf {cs : List (String × CVal)} {s : String} {c : CVal}
    (h : lookupCVal cs s = some c) : sizeOf c < sizeOf cs := by
  induction cs with
  | nil => simp [lookupCVal] at h
  | cons hd tl ih =>
    obtain ⟨n, c'⟩ := hd
    simp only [lookupCVal] at h
    split at h
    · cases h
      simp only [List.cons.sizeOf_spec, Prod.mk.sizeOf_spec]
      omega
    · have := ih h
      simp only [List.cons.sizeOf_spec, Prod.mk.sizeOf_spec]
      omega

theorem getComponentDataclass_sizeOf {c : CVal} {rn : String} {fs : List Fld}
    (h : getComponentDataclass c = .ok (rn, fs)) : sizeOf fs < sizeOf c := by
  match c with
  | .dcTy (.trec rn' fs') =>
    simp only [getComponentDataclass, Except.ok.injEq, Prod.mk.injEq] at h
    obtain ⟨h1, h2⟩ := h
    subst h2
    simp only [CVal.dcTy.sizeOf_spec, Ty.trec.sizeOf_spec]
    omega
  | .dcTy .tint => simp [getComponentDataclass] at h
  | .dcTy .tbool => simp [getComponentDataclass] at h
  | .dcTy .tstr => simp [getComponentDataclass] at h
  | .dcTy .tnone => simp [getComponentDataclass] at h
  | .dcTy .tany => simp [getComponentDataclass] at h
  | .dcTy (.tlist _) => simp [getComponentDataclass] at h
  | .dcTy (.tset _) => simp [getComponentDataclass] at h
  | .dcTy (.ttuple _) => simp [getComponentDataclass] at h
  | .dcTy (.ttupleEll _) => simp [getComponentDataclass] at h
  | .dcTy (.tdict _ _) => simp [getComponentDataclass] at h
  | .dcTy (.tenum _ _) => simp [getComponentDataclass] at h
  | .dcTy (.tunion _) => simp [getComponentDataclass] at h
  | .dcTy (.tcomp _) => simp [getComponentDataclass] at h
  | .func fid (.trec rn' fs') =>
    simp only [getComponentDataclass, Except.ok.injEq, Prod.mk.injEq] at h
    obtain ⟨h1, h2⟩ := h
    subst h2
    simp only [CVal.func.sizeOf_spec, Ty.trec.sizeOf_spec]
    omega
  | .func fid .tint => simp [getComponentDataclass] at h
  | .func fid .tbool => simp [getComponentDataclass] at h
  | .func fid .tstr => simp [getComponentDataclass] at h
  | .func fid .tnone => simp [getComponentDataclass] at h
  | .func fid .tany => simp [getComponentDataclass] at h
  | .func fid (.tlist _) => simp [getComponentDataclass] at h
  | .func fid (.tset _) => simp [getComponentDataclass] at h
  | .func fid (.ttuple _) => simp [getComponentDataclass] at h
  | .func fid (.ttupleEll _) => simp [getComponentDataclass] at h
  | .func fid (.tdict _ _) => simp [getComponentDataclass] at h
  | .func fid (.tenum _ _) => simp [getComponentDataclass] at h
  | .func fid (.tunion _) => simp [getComponentDataclass] at h
  | .func fid (.tcomp _) => simp [getComponentDataclass] at h

/-- The one-layer unwrap at the top of the key-default branch of
`decode_choice_field`: `if is_component_type(targ_cls): targ_cls =
get_component_type_dataclass(targ_cls)`. -/
def choiceTarg : Ty → Ty
  | .tcomp c => c
  | t => t

/-- `cls(**init_args)` followed by the `setattr` loop of `decode_dataclass`:
constructor fields come from `init_args`, falling back to the field default;
a missing required argument is the `TypeError` that `decode_dataclass`
converts into a `ParsingError`. Non-init fields come from `non_init_args`,
else their default, else the attribute stays unset. -/
def constructFlds (rn : String) :
    List Fld → List (String × PyVal) → List (String × PyVal) →
    Except Err (List (String × PyVal))
  | [], _, _ => .ok []
  | .mk name _ fdef finit _ :: rest, initArgs, nonInitArgs =>
    match constructFlds rn rest initArgs nonInitArgs with
    | .error e => .error e
    | .ok tailFs =>
      if finit then
        match sLookup initArgs name with
        | some v => .ok ((name, v) :: tailFs)
        | none =>
          match fdef with
          | some sc => .ok ((name, scalarToPy sc) :: tailFs)
          | none =>
            .error (.parsing ("Couldn't instantiate class " ++ rn ++
              " using the given arguments.\n\t Underlying error: __init__ missing required argument: '" ++
              name ++ "'"))
      else
        match sLookup nonInitArgs name with
        | some v => .ok ((name, v) :: tailFs)
        | none =>
          match fdef with
          | some sc => .ok ((name, scalarToPy sc) :: tailFs)
          | none => .ok tailFs

mutual

/-- `haven.decoding.decode` / `get_decoding_fn`: type-directed dispatch. The
branches are the registry entries installed at module load
(`str`, `int`, `bool` — `float`, `bytes`, `Path` fall outside the embedded
universe) followed by the dataclass / `Any` / dict / set / tuple / list /
union / enum branches; `NoneType` and a bare `Component[...]` annotation
reach no branch and raise the final `ParsingError`. -/
def decodeTy : Ty → PyVal → Except Err PyVal
  | .tstr, v => .ok (.vstr (pyStr v))
  | .tint, v => pyIntFn v
  | .tbool, v => .ok (.vbool (pyTruth v))
  | .trec rn fs, v => decodeRec rn fs v
  | .tany, v => .ok v
  | .tdict kt vt, v => decodeDictTy kt vt v
  | .tset t, v => decodeSetTy t v
  | .ttuple ts, v => decodeTupleFixed ts v
  | .ttupleEll t, v => decodeTupleVariadic t v
  | .tlist t, v =>
    match decodeListTy t v with
    | .error e => .error e
    | .ok xs => .ok (.vlist xs)
  | .tunion ms, v => decodeUnionGo (ms.any isTNone) ms v
  | .tenum en ms, v => decodeEnumTy en ms v
  | .tnone, _ =>
    .error (.parsing "No decoding function for type NoneType, consider using haven.decode.register")
  | .tcomp _, _ =>
    .error (.parsing "No decoding function for type Component, consider using haven.decode.register")
termination_by t v => (sizeOf t, 0, 0)
decreasing_by all_goals (simp_wf; (try simp [Prod.lex_iff]); (try omega))

/-- `decode_dataclass`: work on a (shallow) copy of the input dict, run the
field loop, reject leftover keys with a bare `Exception`, then construct. -/
def decodeRec (rn : String) (fs : List Fld) (d : PyVal) : Except Err PyVal :=
  match d with
  | .vdict kvs =>
    match decodeFldsGo rn fs kvs [] [] with
    | .error e => .error e
    | .ok (initArgs, nonInitArgs, extra) =>
      if extra.isEmpty then
        match constructFlds rn fs initArgs nonInitArgs with
        | .error e => .error e
        | .ok outFs => .ok (.vobj rn outFs)
      else
        .error (.exc "Exception" ("The fields " ++ pyRepr (.vdict extra) ++
          " do not belong to the class"))
  | _ =>
    .error (.exc "TypeError" ("cannot decode a dataclass from the non-dict value " ++ pyRepr d))
termination_by (sizeOf fs, 5, 0)
decreasing_by all_goals (simp_wf; (try simp [Prod.lex_iff]); (try omega))

/-- The `for field in fields(cls)` loop of `decode_dataclass`, carrying the
remaining input map and the accumulated `init_args` / `non_init_args`.
A nested error from an ordinary field decode is re-raised as is when it is
already a `ParsingError` and otherwise wrapped with the record and field
name; choice fields are resolved outside that `try` block. -/
def decodeFldsGo (rn : String) :
    List Fld → List (PyVal × PyVal) → List (String × PyVal) → List (String × PyVal) →
    Except Err (List (String × PyVal) × List (String × PyVal) × List (PyVal × PyVal))
  | [], objDict, initArgs, nonInitArgs => .ok (initArgs, nonInitArgs, objDict)
  | .mk name fty fdef finit fmeta :: rest, objDict, initArgs, nonInitArgs =>
    match fmeta with
    | some meta =>
      match decodeChoiceF name fty meta ((dLookup objDict (.vstr name)).getD (.vdict [])) with
      | .error e => .error e
      | .ok fv =>
        if finit then
          decodeFldsGo rn rest (dRemove objDict (.vstr name)) (initArgs ++ [(name, fv)]) nonInitArgs
        else
          decodeFldsGo rn rest (dRemove objDict (.vstr name)) initArgs (nonInitArgs ++ [(name, fv)])
    | none =>
      match dLookup objDict (.vstr name) with
      | none => decodeFldsGo rn rest objDict initArgs nonInitArgs
      | some raw =>
        match decodeTy fty raw with
        | .ok fv =>
          if finit then
            decodeFldsGo rn rest (dRemove objDict (.vstr name)) (initArgs ++ [(name, fv)]) nonInitArgs
          else
            decodeFldsGo rn rest (dRemove objDict (.vstr name)) initArgs (nonInitArgs ++ [(name, fv)])
        | .error e =>
          if e.isParsing then .error e
          else
            .error (.parsing ("Failed when parsing value='" ++ pyStr raw ++
              "' into field \"" ++ rn ++ "." ++ name ++
              "\".\n\tUnderlying error is \"" ++ formatErr e ++ "\""))
termination_by fs objDict initArgs nonInitArgs => (sizeOf fs, 4, 0)
decreasing_by all_goals (simp_wf; (try simp [Prod.lex_iff]); (try omega))

/-- `decode_choice_field`, part one: require a dict and determine the
variant name — from the discriminator key when present (a non-string value
is a hard error), otherwise from the default of the declared target
schema's field of that name — then hand over to `resolveAndDecode`. -/
def decodeChoiceF (fldName : String) (declTy : Ty) (meta : ChoiceM) (raw : PyVal) :
    Except Err PyVal :=
  match meta with
  | .mk choices keyField _outer =>
    match raw with
    | .vdict kvs =>
      match
        ((match dLookup kvs (.vstr keyField) with
         | some v =>
           match v with
           | .vstr s => Except.ok (PyVal.vstr s)
           | _ => Except.error (Err.parsing ("Choice field '" ++ fldName ++ "' has '" ++ keyField))
         | none =>
           match choiceTarg declTy with
           | .trec _ tfs =>
             match scanKeyDefault tfs keyField none with
             | some sc =>
               if sc = .snone then
                 Except.error (Err.parsing ("Choice field '" ++ fldName ++ "' cannot find key field '" ++
                   keyField ++ "' for determining which choice to use, and no default value was found."))
               else Except.ok (scalarToPy sc)
             | none =>
               Except.error (Err.parsing ("Choice field '" ++ fldName ++ "' cannot find key field '" ++
                 keyField ++ "' for determining which choice to use, and no default value was found."))
           | _ => Except.error (Err.parsing "The choice field type is not a dataclass.")) :
          Except Err PyVal) with
      | .error e => .error e
      | .ok nameV => resolveAndDecode fldName declTy choices nameV raw
    | _ =>
      .error (.parsing ("Choice field '" ++ fldName ++
        "' only works for dataclasses, expected dict when decoding"))
termination_by (sizeOf declTy + sizeOf meta, 2, 0)
decreasing_by all_goals (simp_wf; (try simp [Prod.lex_iff]); (try omega))

/-- `decode_choice_field`, part two: `meta.choices.get_value(choice_name)`
(an unknown or non-string name is a hard error listing the valid names),
`get_component_dataclass`, the structural decode of the target schema
against the *original* dict, and the final wrap: a `Component[...]`-typed
field wraps config and callable into a `Component`, a plain dataclass-typed
field returns the instance, anything else raises. -/
def resolveAndDecode (fldName : String) (declTy : Ty) (choices : List (String × CVal))
    (nameV : PyVal) (raw : PyVal) : Except Err PyVal :=
  match nameV with
  | .vstr cn =>
    match h : lookupCVal choices cn with
    | none =>
      .error (.parsing ("Invalid choice '" ++ cn ++ "' for field '" ++ fldName ++
        "'. Valid choices are: " ++ String.intercalate "," (choices.map Prod.fst)))
    | some choice =>
      match h2 : getComponentDataclass choice with
      | .error e => .error e
      | .ok (rn2, fs2) =>
        match decodeRec rn2 fs2 raw with
        | .error e => .error e
        | .ok conf =>
          match declTy with
          | .tcomp _ => .ok (.vcomp conf choice)
          | .trec _ _ => .ok conf
          | _ => .error (.parsing "")
  | _ =>
    .error (.parsing ("Invalid choice '" ++ pyStr nameV ++ "' for field '" ++ fldName ++
      "'. Valid choices are: " ++ String.intercalate "," (choices.map Prod.fst)))
termination_by (sizeOf declTy + sizeOf choices, 1, 0)
decreasing_by
all_goals simp_wf
all_goals
  have hc := lookupCVal_sizeOf (by assumption)
  have hf := getComponentDataclass_sizeOf (by assumption)
  simp only [Prod.lex_iff]
  omega

/-- `decode_list`: strict `isinstance(val, list)` check, then element-wise
decode into a fresh list. -/
def decodeListTy (t : Ty) (v : PyVal) : Except Err (List PyVal) :=
  match v with
  | .vlist xs => decodeEach t xs
  | _ => .error (.parsing ("The given value='" ++ pyStr v ++ "' is not of a valid input"))
termination_by (sizeOf t, 2, 0)
decreasing_by all_goals (simp_wf; (try simp [Prod.lex_iff]); (try omega))

/-- Element-wise decode with one item type. -/
def decodeEach (t : Ty) (xs : List PyVal) : Except Err (List PyVal) :=
  match xs with
  | [] => .ok []
  | x :: rest =>
    match decodeTy t x with
    | .error e => .error e
    | .ok y =>
      match decodeEach t rest with
      | .error e => .error e
      | .ok ys => .ok (y :: ys)
termination_by (sizeOf t, 1, sizeOf xs)
decreasing_by all_goals (simp_wf; (try simp [Prod.lex_iff]); (try omega))

/-- `decode_set`: decode as a list, then collapse into a set. -/
def decodeSetTy (t : Ty) (v : PyVal) : Except Err PyVal :=
  match decodeListTy t v with
  | .error e => .error e
  | .ok xs => .ok (.vset (pyDedup xs))
termination_by (sizeOf t, 3, 0)
decreasing_by all_goals (simp_wf; (try simp [Prod.lex_iff]); (try omega))

/-- `_decode_dict`: a list input is read as a sequence of key/value pairs
(preserving order), a dict input by its items; anything else has no
`.items()`. Decoded keys are inserted with Python dict semantics. -/
def decodeDictTy (kt vt : Ty) (v : PyVal) : Except Err PyVal :=
  match v with
  | .vlist items =>
    match pyUnpackAll items with
    | .error e => .error e
    | .ok prs => decodeDictGo kt vt prs []
  | .vdict kvs => decodeDictGo kt vt kvs []
  | _ =>
    .error (.exc "AttributeError" ("'" ++ pyTypeName v ++ "' object has no attribute 'items'"))
termination_by (sizeOf kt + sizeOf vt, 2, 0)
decreasing_by all_goals (simp_wf; (try simp [Prod.lex_iff]); (try omega))

/-- The `for k, v in items` loop of `_decode_dict`. -/
def decodeDictGo (kt vt : Ty) (prs : List (PyVal × PyVal)) (acc : List (PyVal × PyVal)) :
    Except Err PyVal :=
  match prs with
  | [] => .ok (.vdict acc)
  | (k, v) :: rest =>
    match decodeTy kt k with
    | .error e => .error e
    | .ok k2 =>
      match decodeTy vt v with
      | .error e => .error e
      | .ok v2 => decodeDictGo kt vt rest (dSet acc k2 v2)
termination_by (sizeOf kt + sizeOf vt, 1, sizeOf prs)
decreasing_by all_goals (simp_wf; (try simp [Prod.lex_iff]); (try omega))

/-- `decode_tuple` with explicit item types (no ellipsis): `None` is
rejected, the arity must match exactly, then each position decodes with its
own type. An empty item-type list behaves like `Tuple[Any, ...]`. -/
def decodeTupleFixed (ts : List Ty) (v : PyVal) : Except Err PyVal :=
  match v with
  | .vnone => .error (.exc "TypeError" "Value must not be None for conversion to a tuple")
  | _ =>
    match ts with
    | [] =>
      match pyIterate v with
      | .error e => .error e
      | .ok items => .ok (.vtuple items)
    | t0 :: tsRest =>
      match pyIterate v with
      | .error e => .error e
      | .ok items =>
        if items.length ≠ (t0 :: tsRest).length then
          .error (.parsing ("Trying to decode " ++ toString items.length ++
            " values for a predfined " ++ toString (t0 :: tsRest).length ++ "-Tuple"))
        else
          match decodeTupleZip (t0 :: tsRest) items with
          | .error e => .error e
          | .ok ys => .ok (.vtuple ys)
termination_by (sizeOf ts, 2, 0)
decreasing_by all_goals (simp_wf; (try simp [Prod.lex_iff]); (try omega))

/-- Positional decode for a fixed-arity tuple. -/
def decodeTupleZip : List Ty → List PyVal → Except Err (List PyVal)
  | [], _ => .ok []
  | _ :: _, [] => .ok []
  | t :: ts, x :: xs =>
    match decodeTy t x with
    | .error e => .error e
    | .ok y =>
      match decodeTupleZip ts xs with
      | .error e => .error e
      | .ok ys => .ok (y :: ys)
termination_by ts xs => (sizeOf ts, 1, 0)
decreasing_by all_goals (simp_wf; (try simp [Prod.lex_iff]); (try omega))

/-- `decode_tuple` for `tuple[t, ...]`: every element decodes with `t`,
arity unchecked. -/
def decodeTupleVariadic (t : Ty) (v : PyVal) : Except Err PyVal :=
  match v with
  | .vnone => .error (.exc "TypeError" "Value must not be None for conversion to a tuple")
  | _ =>
    match pyIterate v with
    | .error e => .error e
    | .ok items =>
      match decodeEach t items with
      | .error e => .error e
      | .ok ys => .ok (.vtuple ys)
termination_by (sizeOf t, 2, 0)
decreasing_by all_goals (simp_wf; (try simp [Prod.lex_iff]); (try omega))

/-- `decode_optional`: a `None` input is returned immediately, anything
else is decoded with the wrapped type. -/
def decodeOptionalTy (t : Ty) (v : PyVal) : Except Err PyVal :=
  match v with
  | .vnone => .ok .vnone
  | _ => decodeTy t v
termination_by (sizeOf t, 1, 0)
decreasing_by all_goals (simp_wf; (try simp [Prod.lex_iff]); (try omega))

/-- `decode_union` + `try_functions`: `NoneType` members are removed; when
the union is optional each remaining decoder is `decode_optional`-wrapped;
decoders run in declared order, the first success wins, and exhausting them
raises `ParsingError`. -/
def decodeUnionGo (optional : Bool) (ts : List Ty) (v : PyVal) : Except Err PyVal :=
  match ts with
  | [] => .error (.parsing ("No valid parsing for value " ++ pyStr v))
  | t :: rest =>
    if isTNone t then decodeUnionGo optional rest v
    else
      match (if optional then decodeOptionalTy t v else decodeTy t v) with
      | .ok r => .ok r
      | .error _ => decodeUnionGo optional rest v
termination_by (sizeOf ts, 2, 0)
decreasing_by all_goals (simp_wf; (try simp [Prod.lex_iff]); (try omega))

end

mutual

/-- `haven.encoding.encode`: `singledispatch` on the runtime type.
Scalars are identity, enums encode as their member name, a `Component`
encodes only its held config, sequences/sets encode element-wise into a
list, mappings re-encode as a list of pairs when an encoded key is
unhashable, and a dataclass instance encodes its fields into a dict. -/
def encode : PyVal → Except Err PyVal
  | .vnone => .ok .vnone
  | .vbool b => .ok (.vbool b)
  | .vint n => .ok (.vint n)
  | .vstr s => .ok (.vstr s)
  | .venum _ m => .ok (.vstr m)
  | .vcomp cfg _ => encode cfg
  | .vlist xs =>
    match encodeL xs with
    | .error e => .error e
    | .ok ys => .ok (.vlist ys)
  | .vtuple xs =>
    match encodeL xs with
    | .error e => .error e
    | .ok ys => .ok (.vlist ys)
  | .vset xs =>
    match encodeL xs with
    | .error e => .error e
    | .ok ys => .ok (.vlist ys)
  | .vdict kvs =>
    match encodePairs kvs with
    | .error e => .error e
    | .ok prs =>
      if prs.all (fun p => pyHashable p.1) then
        .ok (.vdict (prs.foldl (fun acc p => dSet acc p.1 p.2) []))
      else
        .ok (.vlist (prs.map (fun p => .vtuple [p.1, p.2])))
  | .vobj _ fs =>
    match encodeFs fs with
    | .error e => .error e
    | .ok prs => .ok (.vdict prs)
termination_by v => sizeOf v
decreasing_by all_goals (simp_wf <;> omega)

def encodeL : List PyVal → Except Err (List PyVal)
  | [] => .ok []
  | x :: xs =>
    match encode x with
    | .error e => .error e
    | .ok y =>
      match encodeL xs with
      | .error e => .error e
      | .ok ys => .ok (y :: ys)
termination_by xs => sizeOf xs
decreasing_by all_goals (simp_wf <;> omega)

def encodePairs : List (PyVal × PyVal) → Except Err (List (PyVal × PyVal))
  | [] => .ok []
  | (k, v) :: rest =>
    match encode k with
    | .error e => .error e
    | .ok k2 =>
      match encode v with
      | .error e => .error e
      | .ok v2 =>
        match encodePairs rest with
        | .error e => .error e
        | .ok ps => .ok ((k2, v2) :: ps)
termination_by kvs => sizeOf kvs
decreasing_by all_goals (simp_wf <;> omega)

def encodeFs : List (String × PyVal) → Except Err (List (PyVal × PyVal))
  | [] => .ok []
  | (n, v) :: rest =>
    match encode v with
    | .error e => .error e
    | .ok v2 =>
      match encodeFs rest with
      | .error e => .error e
      | .ok ps => .ok ((.vstr n, v2) :: ps)
termination_by fs => sizeOf fs
decreasing_by all_goals (simp_wf <;> omega)

end

/-- The first successful result among a list of attempted decodes, in order
(the loop inside `try_functions`). -/
def firstOk : List (Except Err PyVal) → Option PyVal
  | [] => none
  | .ok r :: _ => some r
  | .error _ :: rest => firstOk rest

/-- Whether an attempt failed (`try_functions` catches every exception). -/
def isErr : Except Err PyVal → Bool
  | .error _ => true
  | .ok _ => false

theorem isErr_iff {r : Except Err PyVal} : isErr r = true ↔ ∃ e, r = .error e := by
  cases r <;> simp [isErr]

theorem decodeOptionalTy_ne {t : Ty} {v : PyVal} (h : v ≠ .vnone) :
    decodeOptionalTy t v = decodeTy t v := by
  cases v <;> simp_all [decodeOptionalTy]

theorem decodeUnionGo_first (v : PyVal) :
    ∀ ms : List Ty, (∀ t ∈ ms, isTNone t = false) →
    decodeUnionGo false ms v =
      (match firstOk (ms.map (fun t => decodeTy t v)) with
       | some r => .ok r
       | none => .error (.parsing ("No valid parsing for value " ++ pyStr v))) := by
  intro ms
  induction ms with
  | nil => intro _; simp [decodeUnionGo, firstOk]
  | cons t rest ih =>
    intro h
    have ht : isTNone t = false := h t (by simp)
    rw [decodeUnionGo]
    simp only [ht, Bool.false_eq_true, if_false, List.map_cons]
    cases hd : decodeTy t v with
    | ok r => simp [firstOk, hd]
    | error e =>
      simp only [hd, firstOk]
      exact ih (fun t' h' => h t' (List.mem_cons_of_mem _ h'))

theorem decodeUnionGo_null :
    ∀ ms : List Ty, (∃ t ∈ ms, isTNone t = false) →
    decodeUnionGo true ms .vnone = .ok .vnone := by
  intro ms
  induction ms with
  | nil => intro h; simp at h
  | cons t rest ih =>
    intro h
    rw [decodeUnionGo]
    cases ht : isTNone t with
    | true =>
      simp only [ht, if_true]
      apply ih
      rcases h with ⟨t', ht', hnn⟩
      rcases List.mem_cons.mp ht' with rfl | hmem
      · rw [ht] at hnn; exact absurd hnn (by simp)
      · exact ⟨t', hmem, hnn⟩
    | false => simp [ht, decodeOptionalTy]

theorem decodeUnionGo_allFail (v : PyVal) (opt : Bool) (hv : opt = true → v ≠ .vnone) :
    ∀ ms : List Ty, (∀ t ∈ ms, isTNone t = false → ∃ e, decodeTy t v = .error e) →
    ∃ m, decodeUnionGo opt ms v = .error (.parsing m) := by
  intro ms
  induction ms with
  | nil => intro _; exact ⟨_, by rw [decodeUnionGo]⟩
  | cons t rest ih =>
    intro h
    rw [decodeUnionGo]
    cases ht : isTNone t with
    | true =>
      simp only [ht, if_true]
      exact ih (fun t' h' => h t' (List.mem_cons_of_mem _ h'))
    | false =>
      obtain ⟨e, he⟩ := h t (by simp) ht
      have hw : (if opt = true then decodeOptionalTy t v else decodeTy t v) = decodeTy t v := by
        cases opt with
        | false => rfl
        | true => simp [decodeOptionalTy_ne (hv rfl)]
      simp only [ht, Bool.false_eq_true, if_false]
      rw [hw, he]
      exact ih (fun t' h' => h t' (List.mem_cons_of_mem _ h'))

/-- C2: union decode — when `NoneType` is a member, a null input
short-circuits to a null result; when it is not, the members' decoders run
in declared order and the first success is returned; when every (non-null)
member decoder fails the result is a hard `ParsingError` (never the raw
value); and for members `[int, str]` on input `"5"` the `int` decode wins. -/
theorem claim_C2_union_order (ms : List Ty) (v : PyVal) :
    (ms.any isTNone = true → ms.all isTNone = false →
      decodeTy (.tunion ms) .vnone = .ok .vnone)
    ∧ (ms.any isTNone = false →
      decodeTy (.tunion ms) v =
        (match firstOk (ms.map (fun t => decodeTy t v)) with
         | some r => .ok r
         | none => .error (.parsing ("No valid parsing for value " ++ pyStr v))))
    ∧ ((ms.any isTNone = true → v ≠ .vnone) →
      (∀ t ∈ ms, isTNone t = false → ∃ e, decodeTy t v = .error e) →
      ∃ m, decodeTy (.tunion ms) v = .error (.parsing m))
    ∧ decodeTy (.tunion [.tint, .tstr]) (.vstr "5") = .ok (.vint 5) := by
  refine ⟨?_, ?_, ?_, ?_⟩
  · intro hany hall
    rw [decodeTy, hany]
    apply decodeUnionGo_null
    rcases List.all_eq_false.mp hall with ⟨t, ht, hnn⟩
    exact ⟨t, ht, by simpa using hnn⟩
  · intro hany
    rw [decodeTy, hany]
    apply decodeUnionGo_first
    intro t ht
    rcases List.any_eq_false.mp (by simpa using hany) t ht with h'
    simpa using h'
  · intro hv h
    rw [decodeTy]
    exact decodeUnionGo_allFail v _ (fun ho => hv ho) ms h
  · simp [decodeTy, decodeUnionGo, isTNone, pyIntFn, parseIntStr, stripChars, digitsVal]

/-- C2 witness: concrete instances of the three conditional parts — null
short-circuit for `int | None`, declared-order decode for `[int, str]`, and
the all-fail hard error for `[int, SomeEnum]` on a list input. -/
theorem claim_C2_union_order_witness :
    (decodeTy (.tunion [.tint, .tnone]) .vnone = .ok .vnone)
    ∧ (decodeTy (.tunion [.tint, .tstr]) (.vstr "5") =
        (match firstOk ([Ty.tint, Ty.tstr].map (fun t => decodeTy t (.vstr "5"))) with
         | some r => .ok r
         | none => .error (.parsing ("No valid parsing for value " ++ pyStr (.vstr "5")))))
    ∧ (∃ m, decodeTy (.tunion [.tint, .tenum "E" ["a"]]) (.vlist []) = .error (.parsing m)) := by
  refine ⟨?_, ?_, ?_⟩
  · exact (claim_C2_union_order [.tint, .tnone] .vnone).1 (by decide) (by decide)
  · exact (claim_C2_union_order [.tint, .tstr] (.vstr "5")).2.1 (by decide)
  · apply (claim_C2_union_order [.tint, .tenum "E" ["a"]] (.vlist [])).2.2.1
    · intro h; exact absurd h (by decide)
    · intro t ht _
      rcases List.mem_cons.mp ht with rfl | ht'
      · exact isErr_iff.mp (by simp [decodeTy, pyIntFn, isErr])
      · rcases List.mem_cons.mp ht' with rfl | h0
        · exact isErr_iff.mp (by simp [decodeTy, decodeEnumTy, isErr])
        · exact absurd h0 (by simp)

/-- Whether a result failed with the structured `ParsingError` kind. -/
def isParseErr : Except Err PyVal → Bool
  | .error (.parsing _) => true
  | _ => false

theorem isParseErr_iff {r : Except Err PyVal} :
    isParseErr r = true ↔ ∃ m, r = .error (.parsing m) := by
  match r with
  | .ok _ => simp [isParseErr]
  | .error (.parsing m) => simp [isParseErr]
  | .error (.exc k m) => simp [isParseErr]

/-- C3 (code bug): decoding `{a: 1, extra: 2}` against a schema whose only
field is `a` fails — no instance is produced — but the error raised for the
leftover keys is a bare `Exception` (`decoding.py` line 167,
`raise Exception(...)`), not the structured parsing-error kind used by every
other decode failure, contradicting the module's uniform use of
`ParsingError` and §7 of the spec. -/
theorem claim_C3_extra_keys_error_kind :
    (∃ m, decodeTy (.trec "A" [.mk "a" .tint none true none])
        (.vdict [(.vstr "a", .vint 1), (.vstr "extra", .vint 2)]) =
        .error (.exc "Exception" m))
    ∧ ∀ e, decodeTy (.trec "A" [.mk "a" .tint none true none])
        (.vdict [(.vstr "a", .vint 1), (.vstr "extra", .vint 2)]) = .error e →
        e.isParsing = false := by
  have hEval : decodeTy (.trec "A" [.mk "a" .tint none true none])
      (.vdict [(.vstr "a", .vint 1), (.vstr "extra", .vint 2)]) =
      .error (.exc "Exception" ("The fields " ++ pyRepr (.vdict [(.vstr "extra", .vint 2)]) ++
        " do not belong to the class")) := by
    simp [decodeTy, decodeRec, decodeFldsGo, dLookup, dRemove, pyEq, pyIntFn,
      constructFlds, sLookup]
  constructor
  · exact ⟨_, hEval⟩
  · intro e he
    rw [hEval] at he
    cases he
    rfl

/-- C6 counterexample: two different enclosing records (different record
names and field names) decoding the same failing nested value produce the
very same error, and that error is the nested record's own `ParsingError`,
re-raised verbatim (`except ParsingError as e: raise e`). Were the claim
true, each enclosing frame would have annotated it with its own record type
and field name, and the three results below could not coincide. -/
theorem claim_C6_counterexample :
    decodeTy (.trec "A1" [.mk "b" (.trec "B" [.mk "x" .tint none true none]) none true none])
        (.vdict [(.vstr "b", .vdict [(.vstr "x", .vlist [.vint 1])])]) =
      decodeTy (.trec "A2" [.mk "c" (.trec "B" [.mk "x" .tint none true none]) none true none])
        (.vdict [(.vstr "c", .vdict [(.vstr "x", .vlist [.vint 1])])])
    ∧ decodeTy (.trec "A1" [.mk "b" (.trec "B" [.mk "x" .tint none true none]) none true none])
        (.vdict [(.vstr "b", .vdict [(.vstr "x", .vlist [.vint 1])])]) =
      decodeTy (.trec "B" [.mk "x" .tint none true none])
        (.vdict [(.vstr "x", .vlist [.vint 1])])
    ∧ ∃ m, decodeTy (.trec "B" [.mk "x" .tint none true none])
        (.vdict [(.vstr "x", .vlist [.vint 1])]) = .error (.parsing m) := by
  refine ⟨?_, ?_, ?_⟩
  · simp [decodeTy, decodeRec, decodeFldsGo, dLookup, dRemove, pyEq, pyIntFn,
      constructFlds, sLookup, Err.isParsing]
  · simp [decodeTy, decodeRec, decodeFldsGo, dLookup, dRemove, pyEq, pyIntFn,
      constructFlds, sLookup, Err.isParsing]
  · apply isParseErr_iff.mp
    simp [decodeTy, decodeRec, decodeFldsGo, dLookup, dRemove, pyEq, pyIntFn,
      constructFlds, sLookup, Err.isParsing, isParseErr]

/-- C6 amended: an error raised while decoding a non-choice field is caught
at the enclosing record-decode frame and aborts the decode; an error that is
not already the structured kind is annotated there with the enclosing record
type and field name and re-raised as a `ParsingError`; an error that is
already a `ParsingError` is re-raised unchanged, so context is attached only
by the innermost record frame and does not accumulate outward. -/
theorem claim_C6_wrap_once :
    (∀ rn name fty fdef fi rest objDict ia na raw e,
      dLookup objDict (.vstr name) = some raw →
      decodeTy fty raw = .error e →
      decodeFldsGo rn (.mk name fty fdef fi none :: rest) objDict ia na =
        .error (if e.isParsing then e
          else .parsing ("Failed when parsing value='" ++ pyStr raw ++ "' into field \"" ++
            rn ++ "." ++ name ++ "\".\n\tUnderlying error is \"" ++ formatErr e ++ "\"")))
    ∧ ∀ rn fs kvs e, decodeFldsGo rn fs kvs [] [] = .error e →
        decodeRec rn fs (.vdict kvs) = .error e := by
  constructor
  · intro rn name fty fdef fi rest objDict ia na raw e hl hd
    simp only [decodeFldsGo, hl, hd]
    cases e <;> simp [Err.isParsing]
  · intro rn fs kvs e h
    simp only [decodeRec, h]

/-- C6 witness: the wrap-once behavior at a concrete frame — a `TypeError`
from `int()` on a list is wrapped with the record and field name. -/
theorem claim_C6_wrap_once_witness :
    decodeFldsGo "B" [.mk "x" .tint none true none] [(.vstr "x", .vlist [])] [] [] =
      .error (if (Err.exc "TypeError"
          ("int() argument must be a string or a number, not " ++ pyTypeName (.vlist []))).isParsing
        then (Err.exc "TypeError"
          ("int() argument must be a string or a number, not " ++ pyTypeName (.vlist [])))
        else .parsing ("Failed when parsing value='" ++ pyStr (.vlist []) ++ "' into field \"" ++
          "B" ++ "." ++ "x" ++ "\".\n\tUnderlying error is \"" ++
          formatErr (Err.exc "TypeError"
            ("int() argument must be a string or a number, not " ++ pyTypeName (.vlist []))) ++ "\"")) := by
  apply claim_C6_wrap_once.1
  · simp [dLookup, pyEq]
  · simp [decodeTy, pyIntFn]

/-- C4: variant-name determination for a choice field decoded from a map.
If the discriminator key is present its string value is the variant name
(and the resolution continues with exactly that name); a present non-string
value is a hard error. If the key is absent, the declared target schema
(after unwrapping one `Component[...]` layer) is inspected for a field of
the discriminator's name: a (non-`None`) default becomes the variant name;
no usable default — or a non-dataclass target — is a hard error. -/
theorem claim_C4_discriminator (fldName : String) (declTy : Ty)
    (choices : List (String × CVal)) (keyField : String) (o : Bool)
    (kvs : List (PyVal × PyVal)) :
    (∀ s, dLookup kvs (.vstr keyField) = some (.vstr s) →
      decodeChoiceF fldName declTy (.mk choices keyField o) (.vdict kvs) =
        resolveAndDecode fldName declTy choices (.vstr s) (.vdict kvs))
    ∧ (∀ v, dLookup kvs (.vstr keyField) = some v → (∀ s, v ≠ .vstr s) →
      ∃ m, decodeChoiceF fldName declTy (.mk choices keyField o) (.vdict kvs) =
        .error (.parsing m))
    ∧ (∀ trn tfs sc, dLookup kvs (.vstr keyField) = none →
      choiceTarg declTy = .trec trn tfs →
      scanKeyDefault tfs keyField none = some sc → sc ≠ .snone →
      decodeChoiceF fldName declTy (.mk choices keyField o) (.vdict kvs) =
        resolveAndDecode fldName declTy choices (scalarToPy sc) (.vdict kvs))
    ∧ (∀ trn tfs, dLookup kvs (.vstr keyField) = none →
      choiceTarg declTy = .trec trn tfs →
      (scanKeyDefault tfs keyField none = none ∨
        scanKeyDefault tfs keyField none = some .snone) →
      ∃ m, decodeChoiceF fldName declTy (.mk choices keyField o) (.vdict kvs) =
        .error (.parsing m))
    ∧ (dLookup kvs (.vstr keyField) = none →
      (∀ trn tfs, choiceTarg declTy ≠ .trec trn tfs) →
      ∃ m, decodeChoiceF fldName declTy (.mk choices keyField o) (.vdict kvs) =
        .error (.parsing m)) := by
  refine ⟨?_, ?_, ?_, ?_, ?_⟩
  · intro s hl
    simp only [decodeChoiceF, hl]
  · intro v hl hns
    match v with
    | .vstr s => exact absurd rfl (hns s)
    | .vnone => exact ⟨_, by simp only [decodeChoiceF, hl]; rfl⟩
    | .vbool b => exact ⟨_, by simp only [decodeChoiceF, hl]; rfl⟩
    | .vint n => exact ⟨_, by simp only [decodeChoiceF, hl]; rfl⟩
    | .vlist xs => exact ⟨_, by simp only [decodeChoiceF, hl]; rfl⟩
    | .vtuple xs => exact ⟨_, by simp only [decodeChoiceF, hl]; rfl⟩
    | .vset xs => exact ⟨_, by simp only [decodeChoiceF, hl]; rfl⟩
    | .vdict kvs2 => exact ⟨_, by simp only [decodeChoiceF, hl]; rfl⟩
    | .venum e m => exact ⟨_, by simp only [decodeChoiceF, hl]; rfl⟩
    | .vobj c fs => exact ⟨_, by simp only [decodeChoiceF, hl]; rfl⟩
    | .vcomp cfg fn => exact ⟨_, by simp only [decodeChoiceF, hl]; rfl⟩
  · intro trn tfs sc hl ht hscan hne
    simp only [decodeChoiceF, hl, ht, hscan]
    simp [hne]
  · intro trn tfs hl ht hscan
    rcases hscan with hscan | hscan
    · exact ⟨_, by simp only [decodeChoiceF, hl, ht, hscan]; rfl⟩
    · exact ⟨_, by simp only [decodeChoiceF, hl, ht, hscan]; simp; rfl⟩
  · intro hl ht
    match hT : choiceTarg declTy with
    | .trec trn tfs => exact absurd hT (ht trn tfs)
    | .tint => exact ⟨_, by simp only [decodeChoiceF, hl, hT]; rfl⟩
    | .tbool => exact ⟨_, by simp only [decodeChoiceF, hl, hT]; rfl⟩
    | .tstr => exact ⟨_, by simp only [decodeChoiceF, hl, hT]; rfl⟩
    | .tnone => exact ⟨_, by simp only [decodeChoiceF, hl, hT]; rfl⟩
    | .tany => exact ⟨_, by simp only [decodeChoiceF, hl, hT]; rfl⟩
    | .tlist t => exact ⟨_, by simp only [decodeChoiceF, hl, hT]; rfl⟩
    | .tset t => exact ⟨_, by simp only [decodeChoiceF, hl, hT]; rfl⟩
    | .ttuple ts => exact ⟨_, by simp only [decodeChoiceF, hl, hT]; rfl⟩
    | .ttupleEll t => exact ⟨_, by simp only [decodeChoiceF, hl, hT]; rfl⟩
    | .tdict kt vt => exact ⟨_, by simp only [decodeChoiceF, hl, hT]; rfl⟩
    | .tenum en ms => exact ⟨_, by simp only [decodeChoiceF, hl, hT]; rfl⟩
    | .tunion ms => exact ⟨_, by simp only [decodeChoiceF, hl, hT]; rfl⟩
    | .tcomp c => exact ⟨_, by simp only [decodeChoiceF, hl, hT]; rfl⟩

/-- C4 witness: a present string discriminator is used as the name, and an
absent discriminator falls back to the target schema's field default. -/
theorem claim_C4_discriminator_witness :
    (decodeChoiceF "kind" (.tcomp (.trec "AConf" [.mk "kind" .tstr (some (.sstr "A")) true none]))
        (.mk [("A", .dcTy (.trec "AConf" [.mk "kind" .tstr (some (.sstr "A")) true none]))] "kind" false)
        (.vdict [(.vstr "kind", .vstr "A")]) =
      resolveAndDecode "kind" (.tcomp (.trec "AConf" [.mk "kind" .tstr (some (.sstr "A")) true none]))
        [("A", .dcTy (.trec "AConf" [.mk "kind" .tstr (some (.sstr "A")) true none]))]
        (.vstr "A") (.vdict [(.vstr "kind", .vstr "A")]))
    ∧ (decodeChoiceF "kind" (.tcomp (.trec "AConf" [.mk "kind" .tstr (some (.sstr "A")) true none]))
        (.mk [("A", .dcTy (.trec "AConf" [.mk "kind" .tstr (some (.sstr "A")) true none]))] "kind" false)
        (.vdict []) =
      resolveAndDecode "kind" (.tcomp (.trec "AConf" [.mk "kind" .tstr (some (.sstr "A")) true none]))
        [("A", .dcTy (.trec "AConf" [.mk "kind" .tstr (some (.sstr "A")) true none]))]
        (scalarToPy (.sstr "A")) (.vdict [])) := by
  constructor
  · exact (claim_C4_discriminator _ _ _ _ _ _).1 "A" (by simp [dLookup, pyEq])
  · exact (claim_C4_discriminator _ _ _ _ _ _).2.2.1 "AConf"
      [Fld.mk "kind" .tstr (some (.sstr "A")) true none] (.sstr "A")
      (by simp [dLookup]) (by simp [choiceTarg]) (by simp [scanKeyDefault]) (by simp)

/-- `Component.__init__` + `Component.__call__`: the held config becomes the
first argument of the wrapped callable and the remaining arguments are
forwarded. `interp` supplies the meaning of applying a callable to an
argument list; anything that is not a `Component` is not callable this way. -/
def componentCall (interp : CVal → List PyVal → PyVal) :
    PyVal → List PyVal → Option PyVal
  | .vcomp cfg fn, args => some (interp fn (cfg :: args))
  | _, _ => none

/-- The callable registered as variant `"A"` in the C5 scenario: a function
`A(cfg, *args)` returning `cfg.value`. -/
def interpScen : CVal → List PyVal → PyVal
  | _, .vobj _ fs :: _ => (sLookup fs "value").getD .vnone
  | _, _ => .vnone

/-- The config dataclass consumed by variant `"A"` in the C5 scenario:
fields `kind: str = "A"` and `value: int`. -/
def aconfScen : Ty :=
  .trec "AConf" [.mk "kind" .tstr (some (.sstr "A")) true none, .mk "value" .tint none true none]

theorem resolveAndDecode_found (fldName : String) (declTy : Ty)
    (choices : List (String × CVal)) (cn : String) (choice : CVal) (raw : PyVal)
    (hlk : lookupCVal choices cn = some choice) :
    resolveAndDecode fldName declTy choices (.vstr cn) raw =
      (match getComponentDataclass choice with
       | .error e => .error e
       | .ok (rn2, fs2) =>
         match decodeRec rn2 fs2 raw with
         | .error e => .error e
         | .ok conf =>
           match declTy with
           | .tcomp _ => .ok (.vcomp conf choice)
           | .trec _ _ => .ok conf
           | _ => .error (.parsing "")) := by
  rw [resolveAndDecode]
  split
  · rename_i h2
    rw [hlk] at h2
    cases h2
  · rename_i c2 h2
    rw [hlk] at h2
    cases h2
    split
    · rename_i e h3
      rw [h3]
    · rename_i rn2 fs2 h3
      rw [h3]

/-- C5: once the variant is resolved, the target schema is decoded against
the original input map (discriminator key included); a `Component[...]`
declared type wraps the decoded config with the resolved callable, and
invoking that Component passes the config as first argument and forwards
the rest; a plain dataclass declared type returns the instance directly; any
other declared type errors. The final conjuncts are the spec's scenario:
`{kind: "A", value: 10}` decodes into a Component wrapping the `AConf`
instance with `value=10`, and invoking it returns `10`. -/
theorem claim_C5_component_wrap (fldName : String) (choices : List (String × CVal))
    (cn : String) (choice : CVal) (rn2 : String) (fs2 : List Fld) (conf raw : PyVal)
    (hlk : lookupCVal choices cn = some choice)
    (hdc : getComponentDataclass choice = .ok (rn2, fs2))
    (hdec : decodeRec rn2 fs2 raw = .ok conf) :
    (∀ c, resolveAndDecode fldName (.tcomp c) choices (.vstr cn) raw =
      .ok (.vcomp conf choice))
    ∧ (∀ interp args, componentCall interp (.vcomp conf choice) args =
      some (interp choice (conf :: args)))
    ∧ (∀ nm fs, resolveAndDecode fldName (.trec nm fs) choices (.vstr cn) raw = .ok conf)
    ∧ (∀ t : Ty, (∀ c, t ≠ .tcomp c) → (∀ nm fs, t ≠ .trec nm fs) →
      resolveAndDecode fldName t choices (.vstr cn) raw = .error (.parsing ""))
    ∧ (decodeChoiceF "kind" (.tcomp aconfScen)
        (.mk [("A", .func 0 aconfScen)] "kind" false)
        (.vdict [(.vstr "kind", .vstr "A"), (.vstr "value", .vint 10)]) =
        .ok (.vcomp (.vobj "AConf" [("kind", .vstr "A"), ("value", .vint 10)]) (.func 0 aconfScen)))
    ∧ componentCall interpScen
        (.vcomp (.vobj "AConf" [("kind", .vstr "A"), ("value", .vint 10)]) (.func 0 aconfScen)) [] =
        some (.vint 10) := by
  refine ⟨?_, ?_, ?_, ?_, ?_, ?_⟩
  · intro c
    rw [resolveAndDecode_found fldName (.tcomp c) choices cn choice raw hlk]
    simp only [hdc, hdec]
  · intro interp args
    rfl
  · intro nm fs
    rw [resolveAndDecode_found fldName (.trec nm fs) choices cn choice raw hlk]
    simp only [hdc, hdec]
  · intro t htc htr
    rw [resolveAndDecode_found fldName t choices cn choice raw hlk]
    simp only [hdc, hdec]
  · rw [show decodeChoiceF "kind" (.tcomp aconfScen)
        (.mk [("A", .func 0 aconfScen)] "kind" false)
        (.vdict [(.vstr "kind", .vstr "A"), (.vstr "value", .vint 10)]) =
        resolveAndDecode "kind" (.tcomp aconfScen) [("A", .func 0 aconfScen)]
          (.vstr "A") (.vdict [(.vstr "kind", .vstr "A"), (.vstr "value", .vint 10)])
      from (claim_C4_discriminator "kind" (.tcomp aconfScen) [("A", .func 0 aconfScen)]
        "kind" false [(.vstr "kind", .vstr "A"), (.vstr "value", .vint 10)]).1 "A"
        (by simp [dLookup, pyEq])]
    rw [resolveAndDecode_found "kind" (.tcomp aconfScen) [("A", .func 0 aconfScen)]
      "A" (.func 0 aconfScen)
      (.vdict [(.vstr "kind", .vstr "A"), (.vstr "value", .vint 10)])
      (by simp [lookupCVal])]
    simp [getComponentDataclass, aconfScen, decodeRec, decodeFldsGo, decodeTy, dLookup,
      dRemove, pyEq, pyIntFn, constructFlds, sLookup, pyStr]
  · simp [componentCall, interpScen, sLookup]

/-- C5 witness: a concrete resolution — variant `"A"` with a two-field
config decodes `{kind: "A", value: 10}` from the original map and wraps it
into a Component carrying the resolved callable. -/
theorem claim_C5_component_wrap_witness :
    resolveAndDecode "kind" (.tcomp aconfScen) [("A", .func 0 aconfScen)] (.vstr "A")
        (.vdict [(.vstr "kind", .vstr "A"), (.vstr "value", .vint 10)]) =
      .ok (.vcomp (.vobj "AConf" [("kind", .vstr "A"), ("value", .vint 10)]) (.func 0 aconfScen)) := by
  exact (claim_C5_component_wrap "kind" [("A", .func 0 aconfScen)] "A" (.func 0 aconfScen)
    "AConf" [Fld.mk "kind" .tstr (some (.sstr "A")) true none, Fld.mk "value" .tint none true none]
    (.vobj "AConf" [("kind", .vstr "A"), ("value", .vint 10)])
    (.vdict [(.vstr "kind", .vstr "A"), (.vstr "value", .vint 10)])
    (by simp [lookupCVal])
    (by simp [getComponentDataclass, aconfScen])
    (by simp [decodeRec, decodeFldsGo, decodeTy, dLookup, dRemove, pyEq, pyIntFn,
      constructFlds, sLookup, pyStr])).1 aconfScen

/-- Distinct field names, as Python dataclasses guarantee. -/
def namesNodup : List Fld → Bool
  | [] => true
  | f :: fs => fs.all (fun g => g.fname != f.fname) && namesNodup fs

/-- Is a declared type a union? -/
def isUnion : Ty → Bool
  | .tunion _ => true
  | _ => false

/-- Pairwise Python-distinct values (the invariant of a set's elements). -/
def pyDistinct : List PyVal → Bool
  | [] => true
  | x :: xs => xs.all (fun y => !(pyEq y x)) && pyDistinct xs

/-- Pairwise Python-distinct keys (the invariant of a dict; `==` is
symmetric in Python, so we record both orientations). -/
def keysDistinct : List (PyVal × PyVal) → Bool
  | [] => true
  | (k, _) :: kvs =>
    kvs.all (fun kv => !(pyEq kv.1 k) && !(pyEq k kv.1)) && keysDistinct kvs

mutual

/-- The value universe of C1: `v` is an instance built only from the claim's
supported field types — the value structurally matches the declared type
(primitives, containers with matching elements, enum members of the declared
enum, union members, records carrying exactly their declared fields in
order), together with the runtime invariants Python guarantees for such
values (set elements and dict keys pairwise distinct under `==`). -/
def wfVal : Ty → PyVal → Bool
  | .tint, .vint _ => true
  | .tbool, .vbool _ => true
  | .tstr, .vstr _ => true
  | .tlist t, .vlist xs => wfList t xs
  | .tset t, .vset xs => wfList t xs && pyDistinct xs
  | .ttuple ts, .vtuple xs => wfZip ts xs
  | .ttupleEll t, .vtuple xs => wfList t xs
  | .tdict kt vt, .vdict kvs => wfPairs kt vt kvs && keysDistinct kvs
  | .tenum en ms, .venum en' m => en == en' && ms.contains m
  | .tunion ms, .vnone => ms.any isTNone
  | .tunion ms, v => wfUnionMem ms v
  | .trec rn fs, .vobj rn' fvs => rn == rn' && wfFlds fs fvs
  | _, _ => false
termination_by t v => sizeOf t + sizeOf v
decreasing_by all_goals (simp_wf; (try simp); (try omega))

def wfList (t : Ty) : List PyVal → Bool
  | [] => true
  | x :: xs => wfVal t x && wfList t xs
termination_by xs => sizeOf t + sizeOf xs
decreasing_by all_goals (simp_wf; (try simp); (try omega))

def wfZip : List Ty → List PyVal → Bool
  | [], [] => true
  | t :: ts, x :: xs => wfVal t x && wfZip ts xs
  | _, _ => false
termination_by ts xs => sizeOf ts + sizeOf xs
decreasing_by all_goals (simp_wf; (try simp); (try omega))

def wfPairs (kt vt : Ty) : List (PyVal × PyVal) → Bool
  | [] => true
  | (k, v) :: kvs => wfVal kt k && wfVal vt v && wfPairs kt vt kvs
termination_by kvs => sizeOf kt + sizeOf vt + sizeOf kvs
decreasing_by all_goals (simp_wf; (try simp); (try omega))

def wfUnionMem : List Ty → PyVal → Bool
  | [], _ => false
  | t :: rest, v => (!isTNone t && wfVal t v) || wfUnionMem rest v
termination_by ts v => sizeOf ts + sizeOf v
decreasing_by all_goals (simp_wf; (try simp); (try omega))

def wfFlds : List Fld → List (String × PyVal) → Bool
  | [], [] => true
  | .mk n ty _ _ _ :: fs, (n', v) :: fvs => n == n' && wfVal ty v && wfFlds fs fvs
  | _, _ => false
termination_by fs fvs => sizeOf fs + sizeOf fvs
decreasing_by all_goals (simp_wf; (try simp); (try omega))

end

theorem sizeOf_filter_le (p : Ty → Bool) :
    ∀ ms : List Ty, sizeOf (ms.filter p) ≤ sizeOf ms := by
  intro ms
  induction ms with
  | nil => simp
  | cons t rest ih =>
    rw [List.filter_cons]
    by_cases hp : p t
    · simp only [hp, if_true, List.cons.sizeOf_spec]
      omega
    · simp only [hp, Bool.false_eq_true, if_false, List.cons.sizeOf_spec]
      omega

mutual

/-- The type restriction of the amended C1: only the claim's supported type
formers appear (no `Any`, no bare `NoneType` or `Component[...]` fields, no
choice metadata), record field names are distinct, and — the restriction the
counterexample forces — every union has exactly one non-`None` member (the
`Optional` shape), so that declared-order first-match decoding cannot pick a
different member than the one the value was built from. -/
def tameTy : Ty → Bool
  | .tint => true
  | .tbool => true
  | .tstr => true
  | .tnone => false
  | .tany => false
  | .tcomp _ => false
  | .tlist t => tameTy t
  | .tset t => tameTy t
  | .ttuple ts => tameList ts
  | .ttupleEll t => tameTy t
  | .tdict kt vt => tameTy kt && tameTy vt
  | .tenum _ _ => true
  | .tunion ms => tameUnion (ms.filter (fun t => !isTNone t))
  | .trec _ fs => namesNodup fs && tameFlds fs
termination_by t => sizeOf t
decreasing_by
all_goals simp_wf
all_goals try omega
all_goals
  have := sizeOf_filter_le (fun t => !isTNone t) ms
  omega

def tameList : List Ty → Bool
  | [] => true
  | t :: ts => tameTy t && tameList ts
termination_by ts => sizeOf ts
decreasing_by all_goals (simp_wf; (try simp); (try omega))

def tameUnion : List Ty → Bool
  | [t] => tameTy t && !isUnion t && !isTNone t
  | _ => false
termination_by ts => sizeOf ts
decreasing_by all_goals (simp_wf; (try simp); (try omega))

def tameFlds : List Fld → Bool
  | [] => true
  | .mk _ ty _ _ m :: fs => m.isNone && tameTy ty && tameFlds fs
termination_by fs => sizeOf fs
decreasing_by all_goals (simp_wf; (try simp); (try omega))

end

theorem tyEqL_of {as : List Ty} (h : ∀ t ∈ as, tyEq t t = true) : tyEqL as as = true := by
  induction as with
  | nil => rw [tyEqL]
  | cons t rest ih =>
    rw [tyEqL, h t (by simp), ih (fun t' ht' => h t' (List.mem_cons_of_mem _ ht'))]
    rfl

theorem fldEqL_of {fs : List Fld} (h : ∀ f ∈ fs, fldEq f f = true) : fldEqL fs fs = true := by
  induction fs with
  | nil => rw [fldEqL]
  | cons f rest ih =>
    rw [fldEqL, h f (by simp), ih (fun f' hf' => h f' (List.mem_cons_of_mem _ hf'))]
    rfl

theorem cvalEqL_of {cs : List (String × CVal)} (h : ∀ p ∈ cs, cvalEq p.2 p.2 = true) :
    cvalEqL cs cs = true := by
  induction cs with
  | nil => rw [cvalEqL]
  | cons p rest ih =>
    obtain ⟨nm, c⟩ := p
    rw [cvalEqL]
    rw [show cvalEq c c = true from h (nm, c) (by simp),
      ih (fun p' hp' => h p' (List.mem_cons_of_mem _ hp'))]
    simp

theorem tyEq_refl_aux : ∀ n : Nat,
    (∀ t : Ty, sizeOf t < n → tyEq t t = true) ∧
    (∀ f : Fld, sizeOf f < n → fldEq f f = true) ∧
    (∀ m : ChoiceM, sizeOf m < n → chmEq m m = true) ∧
    (∀ c : CVal, sizeOf c < n → cvalEq c c = true) := by
  intro n
  induction n with
  | zero => exact ⟨fun t h => absurd h (by omega), fun f h => absurd h (by omega),
      fun m h => absurd h (by omega), fun c h => absurd h (by omega)⟩
  | succ n ih =>
    have hty : ∀ t : Ty, sizeOf t < n + 1 → tyEq t t = true := by
      intro t hlt
      match t with
      | .tint => rw [tyEq]
      | .tbool => rw [tyEq]
      | .tstr => rw [tyEq]
      | .tnone => rw [tyEq]
      | .tany => rw [tyEq]
      | .tlist a => rw [tyEq]; exact ih.1 a (by simp at hlt ⊢; omega)
      | .tset a => rw [tyEq]; exact ih.1 a (by simp at hlt ⊢; omega)
      | .ttupleEll a => rw [tyEq]; exact ih.1 a (by simp at hlt ⊢; omega)
      | .tcomp a => rw [tyEq]; exact ih.1 a (by simp at hlt ⊢; omega)
      | .ttuple as =>
        rw [tyEq]
        exact tyEqL_of (fun t' ht' => ih.1 t'
          (by have := List.sizeOf_lt_of_mem ht'; simp at hlt; omega))
      | .tunion as =>
        rw [tyEq]
        exact tyEqL_of (fun t' ht' => ih.1 t'
          (by have := List.sizeOf_lt_of_mem ht'; simp at hlt; omega))
      | .tdict k v =>
        rw [tyEq]
        rw [ih.1 k (by simp at hlt ⊢; omega), ih.1 v (by simp at hlt ⊢; omega)]
        rfl
      | .tenum nm ms => rw [tyEq]; simp
      | .trec nm fs =>
        rw [tyEq]
        rw [fldEqL_of (fun f hf => ih.2.1 f
          (by have := List.sizeOf_lt_of_mem hf; simp at hlt; omega))]
        simp
    refine ⟨hty, ?_, ?_, ?_⟩
    · intro f hlt
      match f with
      | .mk nm ty d i m =>
        have h1 : tyEq ty ty = true := hty ty (by simp at hlt ⊢; omega)
        have h2 : optMetaEq m m = true := by
          match m with
          | none => rw [optMetaEq]
          | some mm =>
            rw [optMetaEq]
            exact ih.2.2.1 mm (by simp at hlt ⊢; omega)
        rw [fldEq, h1, h2]
        simp
    · intro m hlt
      match m with
      | .mk cs k o =>
        rw [chmEq]
        rw [cvalEqL_of (fun p hp => ih.2.2.2 p.2
          (by
            have h1 := List.sizeOf_lt_of_mem hp
            have h2 : sizeOf p.2 < sizeOf p := by
              obtain ⟨a, b⟩ := p; simp; try omega
            simp at hlt; omega))]
        simp
    · intro c hlt
      match c with
      | .dcTy t => rw [cvalEq]; exact hty t (by simp at hlt ⊢; omega)
      | .func fid t =>
        rw [cvalEq, hty t (by simp at hlt ⊢; omega)]
        simp

theorem tyEq_refl (t : Ty) : tyEq t t = true :=
  (tyEq_refl_aux (sizeOf t + 1)).1 t (by omega)

theorem cvalEq_refl (c : CVal) : cvalEq c c = true :=
  (tyEq_refl_aux (sizeOf c + 1)).2.2.2 c (by omega)

theorem pyMemB_of_refl {x : PyVal} {ys : List PyVal} (hm : x ∈ ys) (hr : pyEq x x = true) :
    pyMemB x ys = true := by
  induction ys with
  | nil => simp at hm
  | cons y rest ih =>
    rw [pyMemB]
    rcases List.mem_cons.mp hm with rfl | hm'
    · rw [hr]; rfl
    · rw [ih hm']; simp

theorem pySubset_of {as bs : List PyVal}
    (h : ∀ x ∈ as, x ∈ bs ∧ pyEq x x = true) : pySubset as bs = true := by
  induction as with
  | nil => rw [pySubset]
  | cons a rest ih =>
    rw [pySubset]
    obtain ⟨hm, hr⟩ := h a (by simp)
    rw [pyMemB_of_refl hm hr, ih (fun x hx => h x (List.mem_cons_of_mem _ hx))]
    rfl

theorem pairMemB_of_refl {k v : PyVal} {kvs : List (PyVal × PyVal)}
    (hm : (k, v) ∈ kvs) (hk : pyEq k k = true) (hv : pyEq v v = true) :
    pairMemB k v kvs = true := by
  induction kvs with
  | nil => simp at hm
  | cons p rest ih =>
    obtain ⟨k', v'⟩ := p
    rw [pairMemB]
    rcases List.mem_cons.mp hm with heq | hm'
    · cases heq
      rw [hk, hv]
      rfl
    · rw [ih hm']; simp

theorem pairsSub_of {as bs : List (PyVal × PyVal)}
    (h : ∀ p ∈ as, p ∈ bs ∧ pyEq p.1 p.1 = true ∧ pyEq p.2 p.2 = true) :
    pairsSub as bs = true := by
  induction as with
  | nil => rw [pairsSub]
  | cons p rest ih =>
    obtain ⟨k, v⟩ := p
    rw [pairsSub]
    obtain ⟨hm, hk, hv⟩ := h (k, v) (by simp)
    rw [pairMemB_of_refl hm hk hv, ih (fun q hq => h q (List.mem_cons_of_mem _ hq))]
    rfl

theorem pyEqL_of {xs : List PyVal} (h : ∀ x ∈ xs, pyEq x x = true) : pyEqL xs xs = true := by
  induction xs with
  | nil => rw [pyEqL]
  | cons x rest ih =>
    rw [pyEqL, h x (by simp), ih (fun y hy => h y (List.mem_cons_of_mem _ hy))]
    rfl

theorem pyEqFs_of {fs : List (String × PyVal)} (h : ∀ p ∈ fs, pyEq p.2 p.2 = true) :
    pyEqFs fs fs = true := by
  induction fs with
  | nil => rw [pyEqFs]
  | cons p rest ih =>
    obtain ⟨n, v⟩ := p
    rw [pyEqFs]
    rw [show pyEq v v = true from h (n, v) (by simp),
      ih (fun q hq => h q (List.mem_cons_of_mem _ hq))]
    simp

/-- Python `==` is reflexive on every runtime value of the model. -/
theorem pyEq_refl (v : PyVal) : pyEq v v = true := by
  have main : ∀ n : Nat, ∀ v : PyVal, sizeOf v < n → pyEq v v = true := by
    intro n
    induction n with
    | zero => intro v h; exact absurd h (by omega)
    | succ n ih =>
      intro v hlt
      match v with
      | .vnone => rw [pyEq]
      | .vbool b => rw [pyEq]; simp
      | .vint i => rw [pyEq]; simp
      | .vstr s => rw [pyEq]; simp
      | .vlist xs =>
        rw [pyEq]
        exact pyEqL_of (fun x hx => ih x
          (by have := List.sizeOf_lt_of_mem hx; simp at hlt; omega))
      | .vtuple xs =>
        rw [pyEq]
        exact pyEqL_of (fun x hx => ih x
          (by have := List.sizeOf_lt_of_mem hx; simp at hlt; omega))
      | .vset xs =>
        rw [pyEq]
        rw [pySubset_of (fun x hx => ⟨hx, ih x
          (by have := List.sizeOf_lt_of_mem hx; simp at hlt; omega)⟩)]
        rfl
      | .vdict kvs =>
        rw [pyEq]
        rw [pairsSub_of (fun p hp => ⟨hp, ?_, ?_⟩)]
        · simp
        · refine ih p.1 ?_
          have h1 := List.sizeOf_lt_of_mem hp
          have h2 : sizeOf p.1 < sizeOf p := by obtain ⟨a, b⟩ := p; simp; try omega
          simp at hlt; omega
        · refine ih p.2 ?_
          have h1 := List.sizeOf_lt_of_mem hp
          have h2 : sizeOf p.2 < sizeOf p := by obtain ⟨a, b⟩ := p; simp; try omega
          simp at hlt; omega
      | .venum e m => rw [pyEq]; simp
      | .vobj c fs =>
        rw [pyEq]
        rw [pyEqFs_of (fun p hp => ih p.2 ?_)]
        · simp
        · have h1 := List.sizeOf_lt_of_mem hp
          have h2 : sizeOf p.2 < sizeOf p := by obtain ⟨a, b⟩ := p; simp; try omega
          simp at hlt; omega
      | .vcomp cfg fn =>
        rw [pyEq]
        rw [ih cfg (by simp at hlt; omega), cvalEq_refl fn]
        rfl
  exact main (sizeOf v + 1) v (by omega)

theorem pyDedup_of_distinct : ∀ {xs : List PyVal}, pyDistinct xs = true → pyDedup xs = xs := by
  intro xs
  induction xs with
  | nil => intro _; rw [pyDedup]
  | cons x rest ih =>
    intro h
    rw [pyDistinct] at h
    simp only [Bool.and_eq_true] at h
    rw [pyDedup]
    have hfilter : rest.filter (fun y => !(pyEq y x)) = rest := by
      rw [List.filter_eq_self]
      intro y hy
      exact List.all_eq_true.mp h.1 y hy
    rw [hfilter, ih h.2]

theorem dSet_append {acc : List (PyVal × PyVal)} {k v : PyVal}
    (h : ∀ p ∈ acc, pyEq p.1 k = false) : dSet acc k v = acc ++ [(k, v)] := by
  induction acc with
  | nil => rw [dSet]; rfl
  | cons p rest ih =>
    obtain ⟨k', v'⟩ := p
    rw [dSet]
    rw [h (k', v') (by simp)]
    simp only [Bool.false_eq_true, if_false, List.cons_append, List.cons.injEq, true_and]
    exact ih (fun q hq => h q (List.mem_cons_of_mem _ hq))

theorem foldl_dSet {prs acc : List (PyVal × PyVal)}
    (hdis : keysDistinct prs = true)
    (hacc : ∀ p ∈ acc, ∀ q ∈ prs, pyEq p.1 q.1 = false) :
    prs.foldl (fun a p => dSet a p.1 p.2) acc = acc ++ prs := by
  induction prs generalizing acc with
  | nil => simp
  | cons p rest ih =>
    obtain ⟨k, v⟩ := p
    rw [keysDistinct] at hdis
    simp only [Bool.and_eq_true] at hdis
    rw [List.foldl_cons]
    rw [show dSet acc k v = acc ++ [(k, v)] from
      dSet_append (fun q hq => hacc q hq (k, v) (by simp))]
    rw [ih hdis.2 ?_]
    · simp
    · intro q hq r hr
      rcases List.mem_append.mp hq with hq' | hq'
      · exact hacc q hq' r (List.mem_cons_of_mem _ hr)
      · simp at hq'
        subst hq'
        have := List.all_eq_true.mp hdis.1 r hr
        simp only [Bool.and_eq_true, Bool.not_eq_eq_eq_not, Bool.not_true] at this
        exact this.2

theorem dLookup_head {k k' v : PyVal} {rest : List (PyVal × PyVal)}
    (h : pyEq k k' = true) : dLookup ((k, v) :: rest) k' = some v := by
  rw [dLookup, h]
  rfl

theorem dLookup_skip {k k' v : PyVal} {rest : List (PyVal × PyVal)}
    (h : pyEq k k' = false) : dLookup ((k, v) :: rest) k' = dLookup rest k' := by
  rw [dLookup, h]
  rfl

theorem dRemove_all {kvs : List (PyVal × PyVal)} {k : PyVal}
    (h : ∀ p ∈ kvs, pyEq p.1 k = false) : dRemove kvs k = kvs := by
  rw [dRemove, List.filter_eq_self]
  intro p hp
  rw [h p hp]
  rfl

theorem pyEq_vstr (a b : String) : pyEq (.vstr a) (.vstr b) = (a == b) := by
  rw [pyEq]

/-- The per-field pairs that `decode_dataclass` accumulates into
`init_args`. -/
def initPairs : List Fld → List (String × PyVal) → List (String × PyVal)
  | f :: fs, p :: fvs => if f.finit then p :: initPairs fs fvs else initPairs fs fvs
  | _, _ => []

/-- The per-field pairs that `decode_dataclass` accumulates into
`non_init_args`. -/
def nonInitPairs : List Fld → List (String × PyVal) → List (String × PyVal)
  | f :: fs, p :: fvs => if f.finit then nonInitPairs fs fvs else p :: nonInitPairs fs fvs
  | _, _ => []

/-- Relates a record's fields, its instance attributes and the encoded dict:
each field is an ordinary (non-choice) field whose value encodes to the
paired pytree and decodes back from it. -/
inductive FldEnc : List Fld → List (String × PyVal) → List (PyVal × PyVal) → Prop where
  | nil : FldEnc [] [] []
  | cons {n : String} {ty : Ty} {d : Option Scalar} {i : Bool} {v q : PyVal}
      {fs : List Fld} {fvs : List (String × PyVal)} {prs : List (PyVal × PyVal)} :
      encode v = .ok q → decodeTy ty q = .ok v →
      FldEnc fs fvs prs →
      FldEnc (.mk n ty d i none :: fs) ((n, v) :: fvs) ((.vstr n, q) :: prs)

theorem fldEnc_encodeFs {fs fvs prs} (h : FldEnc fs fvs prs) : encodeFs fvs = .ok prs := by
  induction h with
  | nil => rw [encodeFs]
  | cons henc hdec _ ih =>
    rw [encodeFs]
    rw [henc, ih]

theorem fldEnc_names {fs fvs prs} (h : FldEnc fs fvs prs) :
    prs.map Prod.fst = fs.map (fun f => PyVal.vstr f.fname) ∧
    fvs.map Prod.fst = fs.map Fld.fname := by
  induction h with
  | nil => exact ⟨rfl, rfl⟩
  | cons henc hdec _ ih =>
    refine ⟨?_, ?_⟩ <;> simp [Fld.fname, ih.1, ih.2]

theorem fldEnc_namesMatch {fs fvs prs} (h : FldEnc fs fvs prs) :
    List.Forall₂ (fun (f : Fld) (p : String × PyVal) => f.fname = p.1) fs fvs := by
  induction h with
  | nil => exact .nil
  | cons henc hdec _ ih => exact .cons rfl ih

theorem constructFlds_round (rn : String) :
    ∀ {fs : List Fld} {fvs : List (String × PyVal)} {ia na : List (String × PyVal)},
    List.Forall₂ (fun (f : Fld) (p : String × PyVal) => f.fname = p.1) fs fvs →
    (∀ f p, (f, p) ∈ fs.zip fvs →
      (f.finit = true → sLookup ia f.fname = some p.2) ∧
      (f.finit = false → sLookup na f.fname = some p.2)) →
    constructFlds rn fs ia na = .ok fvs := by
  intro fs fvs ia na hnames hlook
  induction hnames with
  | nil => rw [constructFlds]
  | cons hn hrest ih =>
    rename_i f p fs' fvs'
    obtain ⟨n, ty, d, i, m⟩ := f
    obtain ⟨n', v⟩ := p
    have hn' : n = n' := hn
    subst hn'
    rw [constructFlds]
    rw [ih (fun f' p' hm => hlook f' p' (List.mem_cons_of_mem _ hm))]
    have hhead := hlook (.mk n ty d i m) (n, v) (by simp)
    cases hi : i with
    | true =>
      have := hhead.1 (by simpa [Fld.finit] using hi)
      simp only [Fld.fname] at this
      simp only [hi, if_true, this]
    | false =>
      have := hhead.2 (by simpa [Fld.finit] using hi)
      simp only [Fld.fname] at this
      simp only [hi, Bool.false_eq_true, if_false, this]

theorem sLookup_head {n : String} {v : PyVal} {rest : List (String × PyVal)} :
    sLookup ((n, v) :: rest) n = some v := by
  rw [sLookup]
  simp

theorem sLookup_skip {n n' : String} {v : PyVal} {rest : List (String × PyVal)}
    (h : n ≠ n') : sLookup ((n, v) :: rest) n' = sLookup rest n' := by
  rw [sLookup]
  simp [h]

theorem lookup_pairs :
    ∀ {fs : List Fld} {fvs : List (String × PyVal)},
    List.Forall₂ (fun (f : Fld) (p : String × PyVal) => f.fname = p.1) fs fvs →
    namesNodup fs = true →
    ∀ f p, (f, p) ∈ fs.zip fvs →
      (f.finit = true → sLookup (initPairs fs fvs) f.fname = some p.2) ∧
      (f.finit = false → sLookup (nonInitPairs fs fvs) f.fname = some p.2) := by
  intro fs fvs hnames
  induction hnames with
  | nil => intro _ f p hm; simp at hm
  | cons hn hrest ih =>
    rename_i f0 p0 fs' fvs'
    obtain ⟨n0, v0⟩ := p0
    intro hnd f p hm
    rw [namesNodup] at hnd
    simp only [Bool.and_eq_true] at hnd
    have hn0 : f0.fname = n0 := hn
    have hm2 : f = f0 ∧ p = (n0, v0) ∨ (f, p) ∈ fs'.zip fvs' := by
      simpa [List.zip_cons_cons] using hm
    rcases hm2 with ⟨rfl, rfl⟩ | hm'
    · constructor
      · intro hi
        rw [initPairs]
        simp only [hi, if_true]
        rw [hn0, sLookup_head]
      · intro hi
        rw [nonInitPairs]
        simp only [hi, Bool.false_eq_true, if_false]
        rw [hn0, sLookup_head]
    · have hfm : f ∈ fs' := (List.of_mem_zip hm').1
      have hne : f.fname ≠ f0.fname := by
        have := List.all_eq_true.mp hnd.1 f hfm
        simpa using this
      have hskip : n0 ≠ f.fname := by
        intro hc
        exact hne (by rw [hn0, hc])
      have hrec := ih hnd.2 f p hm'
      refine ⟨?_, ?_⟩
      · intro hi
        rw [initPairs]
        cases hi0 : f0.finit with
        | true =>
          simp only [hi0, if_true]
          rw [sLookup_skip hskip]
          exact hrec.1 hi
        | false =>
          simp only [hi0, Bool.false_eq_true, if_false]
          exact hrec.1 hi
      · intro hi
        rw [nonInitPairs]
        cases hi0 : f0.finit with
        | true =>
          simp only [hi0, if_true]
          exact hrec.2 hi
        | false =>
          simp only [hi0, Bool.false_eq_true, if_false]
          rw [sLookup_skip hskip]
          exact hrec.2 hi

theorem decodeFldsGo_round (rn : String) :
    ∀ {fs fvs prs}, FldEnc fs fvs prs → namesNodup fs = true →
    ∀ ia na, decodeFldsGo rn fs prs ia na =
      .ok (ia ++ initPairs fs fvs, na ++ nonInitPairs fs fvs, []) := by
  intro fs fvs prs h
  induction h with
  | nil =>
    intro _ ia na
    rw [decodeFldsGo]
    have h1 : initPairs [] [] = [] := rfl
    have h2 : nonInitPairs [] [] = [] := rfl
    rw [h1, h2]
    simp
  | cons henc hdec hrest ih =>
    rename_i n ty d i v q fs' fvs' prs'
    intro hnd ia na
    rw [namesNodup] at hnd
    simp only [Bool.and_eq_true] at hnd
    have hkeys := (fldEnc_names hrest).1
    have hlk : dLookup ((PyVal.vstr n, q) :: prs') (.vstr n) = some q :=
      dLookup_head (by rw [pyEq_vstr]; simp)
    have hrm : dRemove ((PyVal.vstr n, q) :: prs') (.vstr n) = prs' := by
      rw [dRemove, List.filter_cons]
      simp only [pyEq_vstr, beq_self_eq_true, Bool.not_true, Bool.false_eq_true, if_false]
      rw [List.filter_eq_self]
      intro p hp
      have hpk : p.1 ∈ prs'.map Prod.fst := List.mem_map_of_mem _ hp
      rw [hkeys] at hpk
      rcases List.mem_map.mp hpk with ⟨f', hf', hfk⟩
      have hne := List.all_eq_true.mp hnd.1 f' hf'
      simp only [Fld.fname, bne_iff_ne, ne_eq] at hne
      rw [← hfk, pyEq_vstr]
      simpa using hne
    rw [decodeFldsGo]
    simp only [hlk, Option.getD_some, hrm, hdec]
    split
    · rename_i hi
      rw [ih hnd.2 (ia ++ [(n, v)]) na]
      have h1 : initPairs (Fld.mk n ty d i none :: fs') ((n, v) :: fvs') =
          (n, v) :: initPairs fs' fvs' := by
        rw [initPairs]
        simp [Fld.finit, hi]
      have h2 : nonInitPairs (Fld.mk n ty d i none :: fs') ((n, v) :: fvs') =
          nonInitPairs fs' fvs' := by
        rw [nonInitPairs]
        simp [Fld.finit, hi]
      rw [h1, h2]
      simp [List.append_assoc]
    · rename_i hi
      rw [ih hnd.2 ia (na ++ [(n, v)])]
      have h1 : initPairs (Fld.mk n ty d i none :: fs') ((n, v) :: fvs') =
          initPairs fs' fvs' := by
        rw [initPairs]
        simp [Fld.finit, hi]
      have h2 : nonInitPairs (Fld.mk n ty d i none :: fs') ((n, v) :: fvs') =
          (n, v) :: nonInitPairs fs' fvs' := by
        rw [nonInitPairs]
        simp [Fld.finit, hi]
      rw [h1, h2]
      simp [List.append_assoc]

/-- Scalar runtime values: exactly the shapes that `encode` can output as a
hashable dict key. -/
def isScalarP : PyVal → Bool
  | .vnone => true
  | .vbool _ => true
  | .vint _ => true
  | .vstr _ => true
  | _ => false

theorem scalar_pyEq_eq : ∀ {p q : PyVal}, isScalarP p = true → pyEq p q = true → p = q := by
  intro p q hs he
  match p, q with
  | .vnone, .vnone => rfl
  | .vbool a, .vbool b => rw [pyEq] at he; simp at he; rw [he]
  | .vint a, .vint b => rw [pyEq] at he; simp at he; rw [he]
  | .vstr a, .vstr b => rw [pyEq] at he; simp at he; rw [he]
  | .vnone, .vbool _ | .vnone, .vint _ | .vnone, .vstr _ | .vnone, .vlist _
  | .vnone, .vtuple _ | .vnone, .vset _ | .vnone, .vdict _ | .vnone, .venum _ _
  | .vnone, .vobj _ _ | .vnone, .vcomp _ _ => simp [pyEq] at he
  | .vbool _, .vnone | .vbool _, .vint _ | .vbool _, .vstr _ | .vbool _, .vlist _
  | .vbool _, .vtuple _ | .vbool _, .vset _ | .vbool _, .vdict _ | .vbool _, .venum _ _
  | .vbool _, .vobj _ _ | .vbool _, .vcomp _ _ => simp [pyEq] at he
  | .vint _, .vnone | .vint _, .vbool _ | .vint _, .vstr _ | .vint _, .vlist _
  | .vint _, .vtuple _ | .vint _, .vset _ | .vint _, .vdict _ | .vint _, .venum _ _
  | .vint _, .vobj _ _ | .vint _, .vcomp _ _ => simp [pyEq] at he
  | .vstr _, .vnone | .vstr _, .vbool _ | .vstr _, .vint _ | .vstr _, .vlist _
  | .vstr _, .vtuple _ | .vstr _, .vset _ | .vstr _, .vdict _ | .vstr _, .venum _ _
  | .vstr _, .vobj _ _ | .vstr _, .vcomp _ _ => simp [pyEq] at he
  | .vlist _, _ | .vtuple _, _ | .vset _, _ | .vdict _, _ | .venum _ _, _
  | .vobj _ _, _ | .vcomp _ _, _ => simp [isScalarP] at hs

theorem encode_hashable_scalar :
    ∀ {k p : PyVal}, (∀ cfg fn, k ≠ .vcomp cfg fn) → encode k = .ok p →
    pyHashable p = true → isScalarP p = true := by
  intro k p hnc henc hh
  match k with
  | .vnone => rw [encode] at henc; cases henc; rfl
  | .vbool b => rw [encode] at henc; cases henc; rfl
  | .vint n => rw [encode] at henc; cases henc; rfl
  | .vstr s => rw [encode] at henc; cases henc; rfl
  | .venum e m => rw [encode] at henc; cases henc; rfl
  | .vcomp cfg fn => exact absurd rfl (hnc cfg fn)
  | .vlist xs =>
    rw [encode] at henc
    cases hL : encodeL xs with
    | error e => rw [hL] at henc; cases henc
    | ok ys => rw [hL] at henc; cases henc; rw [pyHashable] at hh; cases hh
  | .vtuple xs =>
    rw [encode] at henc
    cases hL : encodeL xs with
    | error e => rw [hL] at henc; cases henc
    | ok ys => rw [hL] at henc; cases henc; rw [pyHashable] at hh; cases hh
  | .vset xs =>
    rw [encode] at henc
    cases hL : encodeL xs with
    | error e => rw [hL] at henc; cases henc
    | ok ys => rw [hL] at henc; cases henc; rw [pyHashable] at hh; cases hh
  | .vdict kvs =>
    rw [encode] at henc
    cases hL : encodePairs kvs with
    | error e => rw [hL] at henc; cases henc
    | ok ps =>
      rw [hL] at henc
      by_cases hall : ps.all (fun p => pyHashable p.1) = true
      · simp only [hall, if_true] at henc
        cases henc
        rw [pyHashable] at hh
        cases hh
      · simp only [hall, if_false] at henc
        cases henc
        rw [pyHashable] at hh
        cases hh
  | .vobj c fsv =>
    rw [encode] at henc
    cases hL : encodeFs fsv with
    | error e => rw [hL] at henc; cases henc
    | ok ps => rw [hL] at henc; cases henc; rw [pyHashable] at hh; cases hh

theorem encode_ne_vnone :
    ∀ {v p : PyVal}, v ≠ .vnone → (∀ cfg fn, v ≠ .vcomp cfg fn) →
    encode v = .ok p → p ≠ .vnone := by
  intro v p hnn hnc henc
  match v with
  | .vnone => exact absurd rfl hnn
  | .vcomp cfg fn => exact absurd rfl (hnc cfg fn)
  | .vbool b => rw [encode] at henc; cases henc; simp
  | .vint n => rw [encode] at henc; cases henc; simp
  | .vstr s => rw [encode] at henc; cases henc; simp
  | .venum e m => rw [encode] at henc; cases henc; simp
  | .vlist xs =>
    rw [encode] at henc
    cases hL : encodeL xs with
    | error e => rw [hL] at henc; cases henc
    | ok ys => rw [hL] at henc; cases henc; simp
  | .vtuple xs =>
    rw [encode] at henc
    cases hL : encodeL xs with
    | error e => rw [hL] at henc; cases henc
    | ok ys => rw [hL] at henc; cases henc; simp
  | .vset xs =>
    rw [encode] at henc
    cases hL : encodeL xs with
    | error e => rw [hL] at henc; cases henc
    | ok ys => rw [hL] at henc; cases henc; simp
  | .vdict kvs =>
    rw [encode] at henc
    cases hL : encodePairs kvs with
    | error e => rw [hL] at henc; cases henc
    | ok ps =>
      rw [hL] at henc
      by_cases hall : ps.all (fun p => pyHashable p.1) = true
      · simp only [hall, if_true] at henc; cases henc; simp
      · simp only [hall, if_false] at henc; cases henc; simp
  | .vobj c fsv =>
    rw [encode] at henc
    cases hL : encodeFs fsv with
    | error e => rw [hL] at henc; cases henc
    | ok ps => rw [hL] at henc; cases henc; simp

theorem decodeUnionGo_single :
    ∀ {ms : List Ty} {t' : Ty}, ms.filter (fun t => !isTNone t) = [t'] →
    ∀ (opt : Bool) {p v : PyVal}, p ≠ .vnone → decodeTy t' p = .ok v →
    decodeUnionGo opt ms p = .ok v := by
  intro ms
  induction ms with
  | nil => intro t' hf; simp at hf
  | cons t rest ih =>
    intro t' hf opt p v hp hd
    rw [List.filter_cons] at hf
    rw [decodeUnionGo]
    cases ht : isTNone t with
    | true =>
      simp only [ht, Bool.not_true, Bool.false_eq_true, if_false] at hf
      simp only [ht, if_true]
      exact ih hf opt hp hd
    | false =>
      simp only [ht, Bool.not_false, if_true, List.cons.injEq] at hf
      obtain ⟨rfl, hrest⟩ := hf
      have hw : (if opt = true then decodeOptionalTy t p else decodeTy t p) = decodeTy t p := by
        cases opt with
        | false => rfl
        | true => simp [decodeOptionalTy_ne hp]
      simp only [ht, Bool.false_eq_true, if_false]
      rw [hw, hd]

theorem forall2_mem_right {α β : Type} {R : α → β → Prop} :
    ∀ {as : List α} {bs : List β}, List.Forall₂ R as bs → ∀ b ∈ bs, ∃ a ∈ as, R a b := by
  intro as bs h
  induction h with
  | nil => intro b hb; simp at hb
  | cons hr hrest ih =>
    intro b hb
    rcases List.mem_cons.mp hb with rfl | hb'
    · exact ⟨_, by simp, hr⟩
    · rcases ih b hb' with ⟨a, ha, hab⟩
      exact ⟨a, List.mem_cons_of_mem _ ha, hab⟩

theorem wfList_mem {t : Ty} : ∀ {xs : List PyVal}, wfList t xs = true →
    ∀ x ∈ xs, wfVal t x = true := by
  intro xs
  induction xs with
  | nil => intro _ x hx; simp at hx
  | cons y rest ih =>
    intro h x hx
    rw [wfList] at h
    simp only [Bool.and_eq_true] at h
    rcases List.mem_cons.mp hx with rfl | hx'
    · exact h.1
    · exact ih h.2 x hx'

theorem wfPairs_mem {kt vt : Ty} : ∀ {kvs : List (PyVal × PyVal)},
    wfPairs kt vt kvs = true →
    ∀ p ∈ kvs, wfVal kt p.1 = true ∧ wfVal vt p.2 = true := by
  intro kvs
  induction kvs with
  | nil => intro _ p hp; simp at hp
  | cons q rest ih =>
    obtain ⟨k, v⟩ := q
    intro h p hp
    rw [wfPairs] at h
    simp only [Bool.and_eq_true] at h
    rcases List.mem_cons.mp hp with rfl | hp'
    · exact ⟨h.1.1, h.1.2⟩
    · exact ih h.2 p hp'

theorem tameList_mem : ∀ {ts : List Ty}, tameList ts = true → ∀ t ∈ ts, tameTy t = true := by
  intro ts
  induction ts with
  | nil => intro _ t ht; simp at ht
  | cons t0 rest ih =>
    intro h t ht
    rw [tameList] at h
    simp only [Bool.and_eq_true] at h
    rcases List.mem_cons.mp ht with rfl | ht'
    · exact h.1
    · exact ih h.2 t ht'

theorem wfUnionMem_exists : ∀ {ms : List Ty} {v : PyVal}, wfUnionMem ms v = true →
    ∃ t ∈ ms, isTNone t = false ∧ wfVal t v = true := by
  intro ms
  induction ms with
  | nil => intro v h; rw [wfUnionMem] at h; cases h
  | cons t rest ih =>
    intro v h
    rw [wfUnionMem] at h
    simp only [Bool.or_eq_true, Bool.and_eq_true] at h
    rcases h with ⟨h1, h2⟩ | h'
    · exact ⟨t, by simp, by simpa using h1, h2⟩
    · rcases ih h' with ⟨t', ht', hnn, hwf⟩
      exact ⟨t', List.mem_cons_of_mem _ ht', hnn, hwf⟩

theorem wfVal_not_vcomp : ∀ t : Ty, ∀ cfg fn, wfVal t (.vcomp cfg fn) = false := by
  have main : ∀ n : Nat, ∀ t : Ty, sizeOf t < n → ∀ cfg fn,
      wfVal t (.vcomp cfg fn) = false := by
    intro n
    induction n with
    | zero => intro t h; exact absurd h (by omega)
    | succ n ih =>
      intro t hlt cfg fn
      match t with
      | .tint => simp [wfVal]
      | .tbool => simp [wfVal]
      | .tstr => simp [wfVal]
      | .tnone => simp [wfVal]
      | .tany => simp [wfVal]
      | .tlist a => simp [wfVal]
      | .tset a => simp [wfVal]
      | .ttuple as => simp [wfVal]
      | .ttupleEll a => simp [wfVal]
      | .tdict k v => simp [wfVal]
      | .tenum nm ms => simp [wfVal]
      | .trec nm fs => simp [wfVal]
      | .tcomp a => simp [wfVal]
      | .tunion ms =>
        rw [show wfVal (.tunion ms) (.vcomp cfg fn) = wfUnionMem ms (.vcomp cfg fn) by
          simp [wfVal]]
        by_contra hc
        simp only [Bool.not_eq_false] at hc
        rcases wfUnionMem_exists hc with ⟨t', ht', _, hwf⟩
        have hsz := List.sizeOf_lt_of_mem ht'
        rw [ih t' (by simp at hlt; omega) cfg fn] at hwf
        cases hwf
  intro t cfg fn
  exact main (sizeOf t + 1) t (by omega) cfg fn

theorem encodeL_decodeEach {t : Ty} : ∀ {xs : List PyVal},
    (∀ x ∈ xs, ∃ q, encode x = .ok q ∧ decodeTy t q = .ok x) →
    ∃ ys, encodeL xs = .ok ys ∧ decodeEach t ys = .ok xs := by
  intro xs
  induction xs with
  | nil => intro _; exact ⟨[], by rw [encodeL], by rw [decodeEach]⟩
  | cons x rest ih =>
    intro h
    obtain ⟨q, hq, hd⟩ := h x (by simp)
    obtain ⟨ys, hys, hdec⟩ := ih (fun y hy => h y (List.mem_cons_of_mem _ hy))
    refine ⟨q :: ys, ?_, ?_⟩
    · rw [encodeL, hq, hys]
    · rw [decodeEach, hd, hdec]

theorem encodeL_decodeZip : ∀ {ts : List Ty} {xs : List PyVal},
    List.Forall₂ (fun t x => ∃ q, encode x = .ok q ∧ decodeTy t q = .ok x) ts xs →
    ∃ ys, encodeL xs = .ok ys ∧ decodeTupleZip ts ys = .ok xs ∧ ys.length = xs.length := by
  intro ts xs h
  induction h with
  | nil => exact ⟨[], by rw [encodeL], by rw [decodeTupleZip], rfl⟩
  | cons hr hrest ih =>
    obtain ⟨q, hq, hd⟩ := hr
    obtain ⟨ys, hys, hdec, hlen⟩ := ih
    refine ⟨q :: ys, ?_, ?_, by simp [hlen]⟩
    · rw [encodeL, hq, hys]
    · rw [decodeTupleZip, hd, hdec]

/-- Round-trip relation between an original dict entry and its encoding. -/
def DRel (kt vt : Ty) (p pr : PyVal × PyVal) : Prop :=
  encode p.1 = .ok pr.1 ∧ decodeTy kt pr.1 = .ok p.1 ∧
  encode p.2 = .ok pr.2 ∧ decodeTy vt pr.2 = .ok p.2

theorem encodePairs_build {kt vt : Ty} : ∀ {kvs : List (PyVal × PyVal)},
    (∀ p ∈ kvs, ∃ qk qv, encode p.1 = .ok qk ∧ decodeTy kt qk = .ok p.1 ∧
      encode p.2 = .ok qv ∧ decodeTy vt qv = .ok p.2) →
    ∃ prs, encodePairs kvs = .ok prs ∧ List.Forall₂ (DRel kt vt) kvs prs := by
  intro kvs
  induction kvs with
  | nil => intro _; exact ⟨[], by rw [encodePairs], .nil⟩
  | cons p rest ih =>
    obtain ⟨k, v⟩ := p
    intro h
    obtain ⟨qk, qv, hek, hdk, hev, hdv⟩ := h (k, v) (by simp)
    obtain ⟨prs, hprs, hfa⟩ := ih (fun q hq => h q (List.mem_cons_of_mem _ hq))
    refine ⟨(qk, qv) :: prs, ?_, .cons ⟨hek, hdk, hev, hdv⟩ hfa⟩
    rw [encodePairs, hek, hev, hprs]

theorem decodeDictGo_round {kt vt : Ty} :
    ∀ {kvs prs : List (PyVal × PyVal)}, List.Forall₂ (DRel kt vt) kvs prs →
    keysDistinct kvs = true →
    ∀ acc, (∀ a ∈ acc, ∀ p ∈ kvs, pyEq a.1 p.1 = false) →
    decodeDictGo kt vt prs acc = .ok (.vdict (acc ++ kvs)) := by
  intro kvs prs h
  induction h with
  | nil =>
    intro _ acc _
    rw [decodeDictGo]
    simp
  | cons hr hrest ih =>
    rename_i p pr kvs' prs'
    obtain ⟨k, v⟩ := p
    obtain ⟨qk, qv⟩ := pr
    simp only [DRel] at hr
    obtain ⟨hek, hdk, hev, hdv⟩ := hr
    intro hdis acc hacc
    rw [keysDistinct] at hdis
    simp only [Bool.and_eq_true] at hdis
    rw [decodeDictGo]
    simp only [hdk, hdv]
    have hset : dSet acc k v = acc ++ [(k, v)] :=
      dSet_append (fun a ha => hacc a ha (k, v) (by simp))
    rw [hset]
    rw [ih hdis.2 (acc ++ [(k, v)]) ?_]
    · simp
    · intro a ha p' hp'
      rcases List.mem_append.mp ha with ha' | ha'
      · exact hacc a ha' p' (List.mem_cons_of_mem _ hp')
      · simp at ha'
        subst ha'
        have := List.all_eq_true.mp hdis.1 p' hp'
        simp only [Bool.and_eq_true, Bool.not_eq_eq_eq_not, Bool.not_true] at this
        exact this.2

theorem pyUnpackAll_map : ∀ prs : List (PyVal × PyVal),
    pyUnpackAll (prs.map (fun pr => PyVal.vtuple [pr.1, pr.2])) = .ok prs := by
  intro prs
  induction prs with
  | nil => rw [List.map_nil, pyUnpackAll]
  | cons pr rest ih =>
    rw [List.map_cons, pyUnpackAll]
    rw [show pyUnpack2 (PyVal.vtuple [pr.1, pr.2]) = .ok (pr.1, pr.2) from rfl, ih]

theorem keysDistinct_enc {kt vt : Ty} :
    ∀ {kvs prs : List (PyVal × PyVal)}, List.Forall₂ (DRel kt vt) kvs prs →
    keysDistinct kvs = true →
    (∀ pr ∈ prs, isScalarP pr.1 = true) →
    keysDistinct prs = true := by
  intro kvs prs h
  induction h with
  | nil => intro _ _; rw [keysDistinct]
  | cons hr hrest ih =>
    rename_i p pr kvs' prs'
    obtain ⟨k, v⟩ := p
    obtain ⟨qk, qv⟩ := pr
    simp only [DRel] at hr
    intro hdis hsc
    rw [keysDistinct] at hdis
    simp only [Bool.and_eq_true] at hdis
    rw [keysDistinct]
    simp only [Bool.and_eq_true]
    refine ⟨List.all_eq_true.mpr ?_,
      ih hdis.2 (fun q hq => hsc q (List.mem_cons_of_mem _ hq))⟩
    intro kv hkv
    rcases forall2_mem_right hrest kv hkv with ⟨p', hp', hrel'⟩
    simp only [DRel] at hrel'
    have hkvs := List.all_eq_true.mp hdis.1 p' hp'
    simp only [Bool.and_eq_true, Bool.not_eq_eq_eq_not, Bool.not_true] at hkvs
    have hkey : kv.1 = qk → False := by
      intro he
      have h1 : decodeTy kt kv.1 = .ok p'.1 := hrel'.2.1
      have h2 : decodeTy kt qk = .ok k := hr.2.1
      rw [he, h2] at h1
      have h3 : p'.1 = k := by cases h1; rfl
      have h4 := hkvs.1
      rw [h3, pyEq_refl] at h4
      cases h4
    have hs1 : isScalarP kv.1 = true := hsc kv (List.mem_cons_of_mem _ hkv)
    have hs2 : isScalarP (qk, qv).1 = true := hsc (qk, qv) (by simp)
    simp only [Bool.and_eq_true, Bool.not_eq_eq_eq_not, Bool.not_true]
    constructor
    · by_contra hc
      simp only [Bool.not_eq_false] at hc
      exact hkey (scalar_pyEq_eq hs1 hc)
    · by_contra hc
      simp only [Bool.not_eq_false] at hc
      exact hkey (scalar_pyEq_eq hs2 hc).symm

theorem decodeTupleFixed_nil_ok : decodeTupleFixed [] (.vlist []) = .ok (.vtuple []) := by
  simp [decodeTupleFixed, pyIterate]

theorem decodeTupleFixed_cons_ok {t0 : Ty} {tsRest : List Ty} {ys xs : List PyVal}
    (hlen : ys.length = (t0 :: tsRest).length)
    (hzip : decodeTupleZip (t0 :: tsRest) ys = .ok xs) :
    decodeTupleFixed (t0 :: tsRest) (.vlist ys) = .ok (.vtuple xs) := by
  rw [decodeTupleFixed]
  · simp only [show pyIterate (PyVal.vlist ys) = Except.ok ys from rfl]
    rw [if_neg (by simp [hlen])]
    rw [hzip]
  · simp

/-- Master round-trip: any well-formed instance of a tame declared type
encodes successfully and decodes back to itself on the nose (strong
induction on the combined size of the type and the value). -/
theorem roundTrip : ∀ (n : Nat) (t : Ty) (v : PyVal), sizeOf t + sizeOf v < n →
    wfVal t v = true → tameTy t = true →
    ∃ p, encode v = .ok p ∧ decodeTy t p = .ok v := by
  intro n
  induction n with
  | zero => intro t v h _ _; exact absurd h (by omega)
  | succ n ih =>
    intro t v hlt hwf htame
    match t with
    | .tnone => rw [tameTy] at htame; cases htame
    | .tany => rw [tameTy] at htame; cases htame
    | .tcomp c => rw [tameTy] at htame; cases htame
    | .tint =>
      cases v <;> simp [wfVal] at hwf
      rename_i i
      exact ⟨.vint i, by rw [encode], by rw [decodeTy, pyIntFn]⟩
    | .tbool =>
      cases v <;> simp [wfVal] at hwf
      rename_i b
      exact ⟨.vbool b, by rw [encode], by rw [decodeTy]; simp [pyTruth]⟩
    | .tstr =>
      cases v <;> simp [wfVal] at hwf
      rename_i s
      exact ⟨.vstr s, by rw [encode], by rw [decodeTy]; simp [pyStr]⟩
    | .tenum en ms =>
      cases v <;> simp [wfVal] at hwf
      rename_i en2 m
      obtain ⟨rfl, hm⟩ := hwf
      refine ⟨.vstr m, by rw [encode], ?_⟩
      rw [decodeTy, decodeEnumTy]
      have hc : ms.contains m = true := by simpa using hm
      rw [hc]
      simp
    | .tlist t2 =>
      cases v <;> simp [wfVal] at hwf
      rename_i xs
      rw [tameTy] at htame
      have hmem : ∀ x ∈ xs, ∃ q, encode x = .ok q ∧ decodeTy t2 q = .ok x := by
        intro x hx
        have hszx := List.sizeOf_lt_of_mem hx
        have hb : sizeOf t2 + sizeOf x < n := by
          simp at hlt
          omega
        exact ih t2 x hb (wfList_mem hwf x hx) htame
      obtain ⟨ys, hys, hdec⟩ := encodeL_decodeEach hmem
      refine ⟨.vlist ys, ?_, ?_⟩
      · rw [encode, hys]
      · rw [decodeTy, decodeListTy, hdec]
    | .tset t2 =>
      cases v <;> simp [wfVal] at hwf
      rename_i xs
      obtain ⟨hwl, hdis⟩ := hwf
      rw [tameTy] at htame
      have hmem : ∀ x ∈ xs, ∃ q, encode x = .ok q ∧ decodeTy t2 q = .ok x := by
        intro x hx
        have hszx := List.sizeOf_lt_of_mem hx
        have hb : sizeOf t2 + sizeOf x < n := by
          simp at hlt
          omega
        exact ih t2 x hb (wfList_mem hwl x hx) htame
      obtain ⟨ys, hys, hdec⟩ := encodeL_decodeEach hmem
      refine ⟨.vlist ys, ?_, ?_⟩
      · rw [encode, hys]
      · rw [decodeTy, decodeSetTy, decodeListTy, hdec]
        simp only [pyDedup_of_distinct hdis]
    | .ttupleEll t2 =>
      cases v <;> simp [wfVal] at hwf
      rename_i xs
      rw [tameTy] at htame
      have hmem : ∀ x ∈ xs, ∃ q, encode x = .ok q ∧ decodeTy t2 q = .ok x := by
        intro x hx
        have hszx := List.sizeOf_lt_of_mem hx
        have hb : sizeOf t2 + sizeOf x < n := by
          simp at hlt
          omega
        exact ih t2 x hb (wfList_mem hwf x hx) htame
      obtain ⟨ys, hys, hdec⟩ := encodeL_decodeEach hmem
      refine ⟨.vlist ys, ?_, ?_⟩
      · rw [encode, hys]
      · rw [decodeTy]
        simp only [decodeTupleVariadic, show pyIterate (PyVal.vlist ys) = Except.ok ys from rfl,
          hdec]
    | .ttuple ts =>
      cases v <;> simp [wfVal] at hwf
      rename_i xs
      rw [tameTy] at htame
      have hb0 : sizeOf ts + sizeOf xs + 1 ≤ n := by
        simp at hlt
        omega
      have key : ∀ (ts2 : List Ty) (xs2 : List PyVal),
          sizeOf ts2 + sizeOf xs2 ≤ sizeOf ts + sizeOf xs →
          wfZip ts2 xs2 = true → tameList ts2 = true →
          List.Forall₂ (fun (a : Ty) (x : PyVal) =>
            ∃ q, encode x = .ok q ∧ decodeTy a q = .ok x) ts2 xs2 := by
        intro ts2
        induction ts2 with
        | nil =>
          intro xs2 _ hwf2 _
          cases xs2 with
          | nil => exact .nil
          | cons y ys => simp [wfZip] at hwf2
        | cons t0 trest ihz =>
          intro xs2 hsz hwf2 htame2
          cases xs2 with
          | nil => simp [wfZip] at hwf2
          | cons x0 xrest =>
            rw [wfZip] at hwf2
            simp only [Bool.and_eq_true] at hwf2
            rw [tameList] at htame2
            simp only [Bool.and_eq_true] at htame2
            refine .cons (ih t0 x0 ?_ hwf2.1 htame2.1) (ihz xrest ?_ hwf2.2 htame2.2)
            · simp at hsz
              omega
            · simp at hsz
              omega
      have hfa := key ts xs (by omega) hwf htame
      obtain ⟨ys, hys, hzip, hlen⟩ := encodeL_decodeZip hfa
      refine ⟨.vlist ys, ?_, ?_⟩
      · rw [encode, hys]
      · rw [decodeTy]
        cases hts : ts with
        | nil =>
          subst hts
          have hxs : xs = [] := by
            cases xs with
            | nil => rfl
            | cons y ys2 => simp [wfZip] at hwf
          subst hxs
          have hys0 : ys = [] := by
            rw [encodeL] at hys
            cases hys
            rfl
          subst hys0
          exact decodeTupleFixed_nil_ok
        | cons t0 trest =>
          subst hts
          exact decodeTupleFixed_cons_ok (by rw [hlen, hfa.length_eq]) hzip
    | .tdict kt vt =>
      cases v <;> simp [wfVal] at hwf
      rename_i kvs
      obtain ⟨hwp, hkd⟩ := hwf
      rw [tameTy] at htame
      simp only [Bool.and_eq_true] at htame
      have hpm := wfPairs_mem hwp
      have hfacts : ∀ p ∈ kvs, ∃ qk qv, encode p.1 = .ok qk ∧ decodeTy kt qk = .ok p.1 ∧
          encode p.2 = .ok qv ∧ decodeTy vt qv = .ok p.2 := by
        intro p hp
        have hz := List.sizeOf_lt_of_mem hp
        obtain ⟨k, w⟩ := p
        have hb1 : sizeOf kt + sizeOf k < n := by
          simp at hlt hz
          omega
        have hb2 : sizeOf vt + sizeOf w < n := by
          simp at hlt hz
          omega
        obtain ⟨qk, hqk, hdk⟩ := ih kt k hb1 (hpm (k, w) hp).1 htame.1
        obtain ⟨qv, hqv, hdv⟩ := ih vt w hb2 (hpm (k, w) hp).2 htame.2
        exact ⟨qk, qv, hqk, hdk, hqv, hdv⟩
      obtain ⟨prs, hprs, hfa⟩ := encodePairs_build hfacts
      have hgo : decodeDictGo kt vt prs [] = .ok (.vdict kvs) := by
        have := decodeDictGo_round hfa hkd [] (by intro a ha; simp at ha)
        simpa using this
      cases hall : prs.all (fun p => pyHashable p.1) with
      | true =>
        have hsc : ∀ pr ∈ prs, isScalarP pr.1 = true := by
          intro pr hpr
          rcases forall2_mem_right hfa pr hpr with ⟨p, hp, hrel⟩
          simp only [DRel] at hrel
          refine encode_hashable_scalar ?_ hrel.1 (List.all_eq_true.mp hall pr hpr)
          intro cfg fn hc
          have hwk := (hpm p hp).1
          rw [hc, wfVal_not_vcomp] at hwk
          cases hwk
        have hkd2 : keysDistinct prs = true := keysDistinct_enc hfa hkd hsc
        refine ⟨.vdict prs, ?_, ?_⟩
        · rw [encode]
          simp only [hprs, hall, if_true]
          rw [foldl_dSet hkd2 (by intro p hp q hq; simp at hp)]
          simp
        · rw [decodeTy, decodeDictTy]
          exact hgo
      | false =>
        refine ⟨.vlist (prs.map (fun p => .vtuple [p.1, p.2])), ?_, ?_⟩
        · rw [encode]
          simp [hprs, hall]
        · rw [decodeTy, decodeDictTy]
          rw [pyUnpackAll_map]
          exact hgo
    | .tunion ms =>
      rw [tameTy] at htame
      have hsingle : ∃ t2, ms.filter (fun t => !isTNone t) = [t2] ∧
          tameTy t2 = true ∧ isTNone t2 = false := by
        cases hf : ms.filter (fun t => !isTNone t) with
        | nil => rw [hf] at htame; simp [tameUnion] at htame
        | cons t2 rest =>
          cases rest with
          | nil =>
            rw [hf] at htame
            simp only [tameUnion, Bool.and_eq_true] at htame
            exact ⟨t2, rfl, htame.1.1, by simpa using htame.2⟩
          | cons t3 rest3 => rw [hf] at htame; simp [tameUnion] at htame
      obtain ⟨t2, hf, htt, hnn⟩ := hsingle
      have hmemf : t2 ∈ ms.filter (fun t => !isTNone t) := by
        rw [hf]
        simp
      have ht2mem : t2 ∈ ms := List.mem_of_mem_filter hmemf
      by_cases hv : v = .vnone
      · subst hv
        rw [wfVal] at hwf
        refine ⟨.vnone, by rw [encode], ?_⟩
        rw [decodeTy, hwf]
        exact decodeUnionGo_null ms ⟨t2, ht2mem, hnn⟩
      · have hwm : wfUnionMem ms v = true := by
          cases v with
          | vnone => exact absurd rfl hv
          | vbool b => simp only [wfVal] at hwf; exact hwf
          | vint i => simp only [wfVal] at hwf; exact hwf
          | vstr s => simp only [wfVal] at hwf; exact hwf
          | vlist xs => simp only [wfVal] at hwf; exact hwf
          | vtuple xs => simp only [wfVal] at hwf; exact hwf
          | vset xs => simp only [wfVal] at hwf; exact hwf
          | vdict kvs => simp only [wfVal] at hwf; exact hwf
          | venum a b => simp only [wfVal] at hwf; exact hwf
          | vobj a b => simp only [wfVal] at hwf; exact hwf
          | vcomp a b => simp only [wfVal] at hwf; exact hwf
        rcases wfUnionMem_exists hwm with ⟨t3, ht3m, ht3nn, ht3wf⟩
        have ht3f : t3 ∈ ms.filter (fun t => !isTNone t) :=
          List.mem_filter.mpr ⟨ht3m, by simp [ht3nn]⟩
        rw [hf] at ht3f
        simp at ht3f
        rw [ht3f] at ht3wf
        have hb : sizeOf t2 + sizeOf v < n := by
          have := List.sizeOf_lt_of_mem ht2mem
          simp at hlt
          omega
        obtain ⟨q, hq, hdq⟩ := ih t2 v hb ht3wf htt
        have hvc : ∀ cfg fn, v ≠ .vcomp cfg fn := by
          intro cfg fn hc
          rw [hc, wfVal_not_vcomp] at ht3wf
          cases ht3wf
        have hqn : q ≠ .vnone := encode_ne_vnone hv hvc hq
        refine ⟨q, hq, ?_⟩
        rw [decodeTy]
        exact decodeUnionGo_single hf _ hqn hdq
    | .trec rn fs =>
      cases v <;> simp [wfVal] at hwf
      rename_i rn2 fvs
      obtain ⟨rfl, hwfl⟩ := hwf
      rw [tameTy] at htame
      simp only [Bool.and_eq_true] at htame
      have hb0 : sizeOf fs + sizeOf fvs + 1 ≤ n := by
        simp at hlt
        omega
      have key : ∀ (fs2 : List Fld) (fvs2 : List (String × PyVal)),
          sizeOf fs2 + sizeOf fvs2 ≤ sizeOf fs + sizeOf fvs →
          wfFlds fs2 fvs2 = true → tameFlds fs2 = true →
          ∃ prs, FldEnc fs2 fvs2 prs := by
        intro fs2
        induction fs2 with
        | nil =>
          intro fvs2 _ hw _
          cases fvs2 with
          | nil => exact ⟨[], .nil⟩
          | cons p ps => simp [wfFlds] at hw
        | cons f frest ihf =>
          intro fvs2 hsz hw htm
          obtain ⟨fn, fty, fd, fi, fm⟩ := f
          cases fvs2 with
          | nil => simp [wfFlds] at hw
          | cons p prest =>
            obtain ⟨pn, pv⟩ := p
            rw [wfFlds] at hw
            simp only [Bool.and_eq_true, beq_iff_eq] at hw
            rw [tameFlds] at htm
            simp only [Bool.and_eq_true] at htm
            have hmn : fm = none := by
              cases fm with
              | none => rfl
              | some m =>
                have := htm.1.1
                simp [Option.isNone] at this
            subst hmn
            have hb : sizeOf fty + sizeOf pv < n := by
              simp at hsz
              omega
            obtain ⟨q, hq, hdq⟩ := ih fty pv hb hw.1.2 htm.1.2
            obtain ⟨prs, hprs⟩ := ihf prest (by simp at hsz ⊢; omega) hw.2 htm.2
            obtain rfl := hw.1.1
            exact ⟨(.vstr fn, q) :: prs, .cons hq hdq hprs⟩
      obtain ⟨prs, henc⟩ := key fs fvs (by omega) hwfl htame.2
      refine ⟨.vdict prs, ?_, ?_⟩
      · rw [encode, fldEnc_encodeFs henc]
      · rw [decodeTy, decodeRec]
        rw [decodeFldsGo_round rn henc htame.1 [] []]
        simp only [List.nil_append, List.isEmpty_nil, if_true]
        rw [constructFlds_round rn (fldEnc_namesMatch henc)
          (lookup_pairs (fldEnc_namesMatch henc) htame.1)]

/-- The C1 counterexample schema: `@dataclass Foo: x: int | str`. -/
def cexTy : Ty := .trec "Foo" [.mk "x" (.tunion [.tint, .tstr]) none true none]

/-- The C1 counterexample instance: `Foo(x="5")`. -/
def cexVal : PyVal := .vobj "Foo" [("x", .vstr "5")]

/-- C1 counterexample: `Foo(x="5")` for `@dataclass Foo: x: int | str` is an
instance built only from the claim's supported field types, and it encodes
fine, but `decode(Foo, encode(Foo(x="5")))` returns `Foo(x=5)` — the union's
declared-order first-match decoding re-parses the string into the earlier
`int` member — which is not `==`-equal to the original, refuting the claim
as stated. -/
theorem claim_C1_counterexample :
    wfVal cexTy cexVal = true ∧
    encode cexVal = .ok (.vdict [(.vstr "x", .vstr "5")]) ∧
    decodeTy cexTy (.vdict [(.vstr "x", .vstr "5")]) = .ok (.vobj "Foo" [("x", .vint 5)]) ∧
    pyEq (.vobj "Foo" [("x", .vint 5)]) cexVal = false := by
  refine ⟨?_, ?_, ?_, ?_⟩
  · simp [cexTy, cexVal, wfVal, wfFlds, wfUnionMem, isTNone]
  · simp [cexVal, encode, encodeFs]
  · simp [cexTy, decodeTy, decodeRec, decodeFldsGo, dLookup, pyEq, dRemove,
      decodeUnionGo, isTNone, pyIntFn, parseIntStr, stripChars, digitsVal,
      constructFlds, sLookup, Err.isParsing]
  · simp [cexVal, pyEq, pyEqFs]

/-- C1 (amended): for every record instance `v` of a schema `t` built only
from the supported field types — primitives, containers, enumerations,
nested records, and optionals/unions restricted to the `Optional` shape of
a single non-`None` member (the restriction the counterexample
`Foo(x: int | str)` holding `"5"` forces) — encoding succeeds and decoding
the encoding against the same schema returns a value `==`-equal (indeed
structurally identical) to `v`: `decode(type(x), encode(x)) == x`. -/
theorem claim_C1_round_trip (t : Ty) (v : PyVal)
    (hwf : wfVal t v = true) (htame : tameTy t = true) :
    ∃ p y, encode v = .ok p ∧ decodeTy t p = .ok y ∧ pyEq y v = true := by
  obtain ⟨p, hp, hd⟩ := roundTrip (sizeOf t + sizeOf v + 1) t v (by omega) hwf htame
  exact ⟨p, v, hp, hd, pyEq_refl v⟩

/-- A concrete schema for the C1 witness: an `int` field, an `Optional[str]`
field and a `list[bool]` field. -/
def rtwTy : Ty := .trec "Cfg" [
  .mk "a" .tint none true none,
  .mk "b" (.tunion [.tnone, .tstr]) none true none,
  .mk "c" (.tlist .tbool) none true none]

/-- A concrete instance of `rtwTy` for the C1 witness. -/
def rtwVal : PyVal := .vobj "Cfg" [("a", .vint 3), ("b", .vstr "hi"),
  ("c", .vlist [.vbool true, .vbool false])]

/-- C1 witness: the amended round-trip at the concrete instance
`Cfg(a=3, b="hi", c=[True, False])`. -/
theorem claim_C1_round_trip_witness :
    wfVal rtwTy rtwVal = true ∧ tameTy rtwTy = true ∧
    ∃ p y, encode rtwVal = .ok p ∧ decodeTy rtwTy p = .ok y ∧ pyEq y rtwVal = true := by
  refine ⟨?_, ?_, claim_C1_round_trip rtwTy rtwVal ?_ ?_⟩ <;>
    simp [rtwTy, rtwVal, wfVal, wfFlds, wfList, wfUnionMem, isTNone, tameTy, tameFlds,
      tameList, tameUnion, namesNodup, isUnion, Fld.fname]

/-- The class world over which `haven.type_registry`'s copied
`functools.singledispatch` helpers run: `__bases__`, `__mro__`,
`__subclasses__()`, `hasattr(-, "__abstractmethods__")` and `issubclass`,
with classes named by numbers (every class has an `__mro__` and none is a
`GenericAlias`). -/
structure ClsW where
  bases : Nat → List Nat
  mro : Nat → List Nat
  subclasses : Nat → List Nat
  isAbc : Nat → Bool
  issub : Nat → Nat → Bool

/-- `registry[ty]` on the insertion-ordered registry dict (the held
`RegistryFunc` values named by numbers). -/
def regLookup : List (Nat × Nat) → Nat → Option Nat
  | [], _ => none
  | (c, f) :: rest, k => if c == k then some f else regLookup rest k

/-- `ty in registry`. -/
def regMem (reg : List (Nat × Nat)) (c : Nat) : Bool :=
  (regLookup reg c).isSome

/-- `list.remove(x)`: drop the first occurrence. -/
def removeFirst : List Nat → Nat → List Nat
  | [], _ => []
  | x :: xs, y => if x == y then xs else x :: removeFirst xs y

/-- The inner loop of `_c3_merge`'s candidate search: a head is accepted
when it appears in no sequence's tail. -/
def headOkay (seqs : List (List Nat)) (cand : Nat) : Bool :=
  seqs.all (fun s2 => !((s2.drop 1).contains cand))

/-- `_c3_merge`'s candidate search over the heads of the purged
sequences. -/
def findCand (seqs : List (List Nat)) : List (List Nat) → Option Nat
  | [] => none
  | s1 :: rest =>
    match s1 with
    | [] => findCand seqs rest
    | c :: _ => if headOkay seqs c then some c else findCand seqs rest

/-- `del seq[0]` for every sequence whose head is the chosen candidate. -/
def mergeStep (cand : Nat) (seqs : List (List Nat)) : List (List Nat) :=
  seqs.map (fun s => if s.head? == some cand then s.drop 1 else s)

/-- `_c3_merge`, fueled (each iteration of the Python `while True` removes
at least one element, so the total length plus one suffices as fuel); an
exhausted candidate search raises `RuntimeError("Inconsistent hierarchy")`. -/
def c3Merge : Nat → List (List Nat) → Except Err (List Nat)
  | 0, _ => .error (.exc "RecursionError" "maximum recursion depth exceeded")
  | fuel + 1, seqs =>
    let seqs2 := seqs.filter (fun s => !s.isEmpty)
    if seqs2.isEmpty then .ok []
    else
      match findCand seqs2 seqs2 with
      | none => .error (.exc "RuntimeError" "Inconsistent hierarchy")
      | some cand =>
        match c3Merge fuel (mergeStep cand seqs2) with
        | .error e => .error e
        | .ok rest => .ok (cand :: rest)

def totalLen (seqs : List (List Nat)) : Nat :=
  (seqs.map List.length).sum

/-- The `boundary` computation of `_c3_mro`: bases up to the last explicit
ABC are considered first. -/
def c3Boundary (W : ClsW) (bs : List Nat) : Nat :=
  match bs.reverse.findIdx? (fun b => W.isAbc b) with
  | some i => bs.length - i
  | none => 0

/-- `explicit_bases = list(cls.__bases__[:boundary])`. -/
def c3ExplicitBases (W : ClsW) (cls : Nat) : List Nat :=
  (W.bases cls).take (c3Boundary W (W.bases cls))

/-- `other_bases = list(cls.__bases__[boundary:])`. -/
def c3OtherBases (W : ClsW) (cls : Nat) : List Nat :=
  (W.bases cls).drop (c3Boundary W (W.bases cls))

/-- The ABCs whose behaviour `cls` itself introduces: `issubclass(cls, base)`
holds but no direct base implements them. -/
def c3AbstractBases (W : ClsW) (cls : Nat) (abcs : List Nat) : List Nat :=
  abcs.filter (fun base => W.issub cls base && !((W.bases cls).any (fun b => W.issub b base)))

/-- `for base in abstract_bases: abcs.remove(base)`. -/
def c3Abcs2 (W : ClsW) (cls : Nat) (abcs : List Nat) : List Nat :=
  (c3AbstractBases W cls abcs).foldl removeFirst abcs

mutual

/-- `_c3_mro(cls, abcs)`: extended C3 linearization with abstract-base
insertion, fueled against unbounded recursion through the class graph. -/
def c3Mro (W : ClsW) : Nat → Nat → List Nat → Except Err (List Nat)
  | 0, _, _ => .error (.exc "RecursionError" "maximum recursion depth exceeded")
  | fuel + 1, cls, abcs =>
    match c3MroList W fuel (c3ExplicitBases W cls) (c3Abcs2 W cls abcs) with
    | .error e => .error e
    | .ok ems =>
      match c3MroList W fuel (c3AbstractBases W cls abcs) (c3Abcs2 W cls abcs) with
      | .error e => .error e
      | .ok ams =>
        match c3MroList W fuel (c3OtherBases W cls) (c3Abcs2 W cls abcs) with
        | .error e => .error e
        | .ok oms =>
          c3Merge (totalLen ([[cls]] ++ ems ++ ams ++ oms ++
              [c3ExplicitBases W cls] ++ [c3AbstractBases W cls abcs] ++
              [c3OtherBases W cls]) + 1)
            ([[cls]] ++ ems ++ ams ++ oms ++
              [c3ExplicitBases W cls] ++ [c3AbstractBases W cls abcs] ++
              [c3OtherBases W cls])
termination_by fuel cls abcs => (fuel, 0)
decreasing_by all_goals (simp_wf; (try simp [Prod.lex_iff]); (try omega))

/-- `[_c3_mro(base, abcs=abcs) for base in bases]`. -/
def c3MroList (W : ClsW) : Nat → List Nat → List Nat → Except Err (List (List Nat))
  | _, [], _ => .ok []
  | fuel, b :: rest, abcs =>
    match c3Mro W fuel b abcs with
    | .error e => .error e
    | .ok m =>
      match c3MroList W fuel rest abcs with
      | .error e => .error e
      | .ok ms => .ok (m :: ms)
termination_by fuel bs abcs => (fuel, bs.length + 1)
decreasing_by all_goals (simp_wf; (try simp [Prod.lex_iff]); (try omega))

end

/-- `mro.append(subcls)` guarded by `subcls not in mro`. -/
def addUnique (mro : List Nat) (x : Nat) : List Nat :=
  if mro.contains x then mro else mro ++ [x]

/-- The per-type subclass scan of `_compose_mro`. -/
def composeFound (W : ClsW) (bases typeSet : List Nat) (cls typ : Nat) :
    List (List Nat) :=
  (W.subclasses typ).filterMap (fun sub =>
    if !bases.contains sub && W.issub cls sub then
      some ((W.mro sub).filter (fun s => typeSet.contains s))
    else none)

/-- The `for typ in types` loop of `_compose_mro` accumulating `mro`:
types with no useful subclasses are appended as they come, otherwise the
subclass-projected MROs are spliced in, longest first (Python's stable
sort with `reverse=True`), skipping duplicates. -/
def composeLoop (W : ClsW) (bases typeSet : List Nat) (cls : Nat) :
    List Nat → List Nat → List Nat
  | [], acc => acc
  | typ :: rest, acc =>
    let found := composeFound W bases typeSet cls typ
    if found.isEmpty then composeLoop W bases typeSet cls rest (acc ++ [typ])
    else
      composeLoop W bases typeSet cls rest
        (((found.mergeSort (fun a b => decide (b.length ≤ a.length))).foldl
          (fun a sub => sub.foldl addUnique a) acc))

/-- `_compose_mro(cls, types)`: drop registered types already in the MRO or
unrelated to `cls`, drop strict bases of other candidates, stabilize the
ABC ordering through implemented subclasses, then run the extended C3. -/
def composeMro (W : ClsW) (fuel : Nat) (cls : Nat) (tys : List Nat) :
    Except Err (List Nat) :=
  let bases := W.mro cls
  let tys1 := tys.filter (fun t => !bases.contains t && W.issub cls t)
  let tys2 := tys1.filter (fun t => !(tys1.any (fun o => t != o && (W.mro o).contains t)))
  c3Mro W fuel cls (composeLoop W bases tys2 cls tys2 [])

/-- The `for t in mro` loop of `_find_impl`: remember the first registered
entry, then — at the very next element — either raise the ambiguity
`RuntimeError` or stop. -/
def findImplLoop (W : ClsW) (reg : List (Nat × Nat)) (clsMro : List Nat) :
    List Nat → Option Nat → Except Err (Option Nat)
  | [], mtch => .ok mtch
  | t :: rest, mtch =>
    match mtch with
    | some m =>
      if regMem reg t && !clsMro.contains t && !clsMro.contains m && !W.issub m t then
        .error (.exc "RuntimeError"
          ("Ambiguous dispatch: " ++ toString m ++ " or " ++ toString t))
      else .ok (some m)
    | none =>
      if regMem reg t then findImplLoop W reg clsMro rest (some t)
      else findImplLoop W reg clsMro rest none

/-- `_find_impl(cls, registry)`: walk the composed MRO and return
`registry.get(match)`. -/
def findImpl (W : ClsW) (fuel : Nat) (reg : List (Nat × Nat)) (cls : Nat) :
    Except Err (Option Nat) :=
  match composeMro W fuel cls (reg.map Prod.fst) with
  | .error e => .error e
  | .ok mro =>
    match findImplLoop W reg (W.mro cls) mro none with
    | .error e => .error e
    | .ok none => .ok none
    | .ok (some m) => .ok (regLookup reg m)

/-- `TypeRegistry.dispatch`: exact registry hit first, otherwise
`_find_impl`; only a failed lookup (not the ambiguity `RuntimeError`)
yields `None`. -/
def dispatch (W : ClsW) (fuel : Nat) (reg : List (Nat × Nat)) (ty : Nat) :
    Except Err (Option Nat) :=
  match regLookup reg ty with
  | some impl => .ok (some impl)
  | none => findImpl W fuel reg ty

theorem findCand_mem {seqs : List (List Nat)} :
    ∀ {l : List (List Nat)} {c : Nat}, findCand seqs l = some c → ∃ s ∈ l, c ∈ s := by
  intro l
  induction l with
  | nil => intro c h; rw [findCand] at h; cases h
  | cons s1 rest ih =>
    intro c h
    cases s1 with
    | nil =>
      rw [findCand] at h
      rcases ih h with ⟨s, hs, hc⟩
      exact ⟨s, List.mem_cons_of_mem _ hs, hc⟩
    | cons c0 tl =>
      rw [findCand] at h
      cases hok : headOkay seqs c0 with
      | true =>
        rw [hok] at h
        simp at h
        subst h
        exact ⟨c0 :: tl, by simp, by simp⟩
      | false =>
        rw [hok] at h
        simp only [Bool.false_eq_true, if_false] at h
        rcases ih h with ⟨s, hs, hc⟩
        exact ⟨s, List.mem_cons_of_mem _ hs, hc⟩

theorem c3Merge_origin : ∀ (fuel : Nat) {seqs : List (List Nat)} {out : List Nat},
    c3Merge fuel seqs = .ok out → ∀ x ∈ out, ∃ s ∈ seqs, x ∈ s := by
  intro fuel
  induction fuel with
  | zero => intro seqs out h; rw [c3Merge] at h; cases h
  | succ fuel ih =>
    intro seqs out h x hx
    simp only [c3Merge] at h
    cases hemp : (seqs.filter (fun s => !s.isEmpty)).isEmpty with
    | true =>
      simp only [hemp, if_true] at h
      cases h
      simp at hx
    | false =>
      simp only [hemp, Bool.false_eq_true, if_false] at h
      cases hf : findCand (seqs.filter (fun s => !s.isEmpty))
          (seqs.filter (fun s => !s.isEmpty)) with
      | none => simp only [hf] at h; cases h
      | some cand =>
        simp only [hf] at h
        cases hm : c3Merge fuel (mergeStep cand (seqs.filter (fun s => !s.isEmpty))) with
        | error e => simp only [hm] at h; cases h
        | ok rest =>
          simp only [hm] at h
          cases h
          rcases List.mem_cons.mp hx with rfl | hx2
          · rcases findCand_mem hf with ⟨s, hs, hc⟩
            exact ⟨s, List.mem_of_mem_filter hs, hc⟩
          · rcases ih hm x hx2 with ⟨s2, hs2, hx3⟩
            rcases List.mem_map.mp hs2 with ⟨s, hs, rfl⟩
            refine ⟨s, List.mem_of_mem_filter hs, ?_⟩
            have hx4 : x ∈ (if s.head? == some cand then s.drop 1 else s) := hx3
            split at hx4
            · exact List.mem_of_mem_drop hx4
            · exact hx4

theorem c3MroList_spec {W : ClsW} {fuel : Nat} :
    ∀ {bs abcs : List Nat} {outs : List (List Nat)},
    c3MroList W fuel bs abcs = .ok outs →
    List.Forall₂ (fun b ls => c3Mro W fuel b abcs = .ok ls) bs outs := by
  intro bs
  induction bs with
  | nil =>
    intro abcs outs h
    rw [c3MroList] at h
    cases h
    exact .nil
  | cons b rest ih =>
    intro abcs outs h
    rw [c3MroList] at h
    cases h1 : c3Mro W fuel b abcs with
    | error e => simp only [h1] at h; cases h
    | ok m =>
      simp only [h1] at h
      cases h2 : c3MroList W fuel rest abcs with
      | error e => simp only [h2] at h; cases h
      | ok ms =>
        simp only [h2] at h
        cases h
        exact .cons h1 (ih h2)

theorem c3Mro_subset {W : ClsW}
    (Hrefl : ∀ c, W.issub c c = true)
    (Hbase : ∀ c b, b ∈ W.bases c → W.issub c b = true)
    (Htrans : ∀ a b c, W.issub a b = true → W.issub b c = true → W.issub a c = true) :
    ∀ (fuel cls : Nat) (abcs out : List Nat),
    c3Mro W fuel cls abcs = .ok out → ∀ x ∈ out, W.issub cls x = true := by
  intro fuel
  induction fuel with
  | zero => intro cls abcs out h; rw [c3Mro] at h; cases h
  | succ fuel ih =>
    intro cls abcs out h x hx
    rw [c3Mro] at h
    cases h1 : c3MroList W fuel (c3ExplicitBases W cls) (c3Abcs2 W cls abcs) with
    | error e => simp only [h1] at h; cases h
    | ok ems =>
      simp only [h1] at h
      cases h2 : c3MroList W fuel (c3AbstractBases W cls abcs) (c3Abcs2 W cls abcs) with
      | error e => simp only [h2] at h; cases h
      | ok ams =>
        simp only [h2] at h
        cases h3 : c3MroList W fuel (c3OtherBases W cls) (c3Abcs2 W cls abcs) with
        | error e => simp only [h3] at h; cases h
        | ok oms =>
          simp only [h3] at h
          rcases c3Merge_origin _ h x hx with ⟨s, hs, hxs⟩
          simp only [List.mem_append, List.mem_cons, List.mem_singleton,
            List.not_mem_nil, or_false, or_assoc] at hs
          have fromBase : ∀ b, b ∈ W.bases cls → W.issub cls x = true →
              W.issub cls x = true := fun _ _ hh => hh
          rcases hs with rfl | hs | hs | hs | rfl | rfl | rfl
          · have hxc : x = cls := by simpa using hxs
            rw [hxc]
            exact Hrefl cls
          · rcases forall2_mem_right (c3MroList_spec h1) s hs with ⟨b, hb, hbs⟩
            have hbx := ih b (c3Abcs2 W cls abcs) s hbs x hxs
            have hcb : W.issub cls b = true :=
              Hbase cls b ((List.take_sublist _ _).subset hb)
            exact Htrans cls b x hcb hbx
          · rcases forall2_mem_right (c3MroList_spec h2) s hs with ⟨b, hb, hbs⟩
            have hbx := ih b (c3Abcs2 W cls abcs) s hbs x hxs
            simp only [c3AbstractBases] at hb
            have hcb := List.of_mem_filter hb
            simp only [Bool.and_eq_true] at hcb
            exact Htrans cls b x hcb.1 hbx
          · rcases forall2_mem_right (c3MroList_spec h3) s hs with ⟨b, hb, hbs⟩
            have hbx := ih b (c3Abcs2 W cls abcs) s hbs x hxs
            have hcb : W.issub cls b = true :=
              Hbase cls b ((List.drop_sublist _ _).subset hb)
            exact Htrans cls b x hcb hbx
          · exact Hbase cls x ((List.take_sublist _ _).subset hxs)
          · simp only [c3AbstractBases] at hxs
            have hcb := List.of_mem_filter hxs
            simp only [Bool.and_eq_true] at hcb
            exact hcb.1
          · exact Hbase cls x ((List.drop_sublist _ _).subset hxs)

theorem composeMro_subset {W : ClsW}
    (Hrefl : ∀ c, W.issub c c = true)
    (Hbase : ∀ c b, b ∈ W.bases c → W.issub c b = true)
    (Htrans : ∀ a b c, W.issub a b = true → W.issub b c = true → W.issub a c = true)
    {fuel cls : Nat} {tys out : List Nat} :
    composeMro W fuel cls tys = .ok out → ∀ x ∈ out, W.issub cls x = true := by
  intro h
  simp only [composeMro] at h
  exact c3Mro_subset Hrefl Hbase Htrans fuel cls _ out h

theorem findImplLoop_none {W : ClsW} {reg : List (Nat × Nat)} {cm : List Nat} :
    ∀ {l : List Nat}, (∀ t ∈ l, regMem reg t = false) →
    findImplLoop W reg cm l none = .ok none := by
  intro l
  induction l with
  | nil => intro _; rw [findImplLoop]
  | cons t rest ih =>
    intro h
    simp only [findImplLoop]
    rw [h t (by simp)]
    simp only [Bool.false_eq_true, if_false]
    exact ih (fun u hu => h u (List.mem_cons_of_mem _ hu))

theorem findImplLoop_skip {W : ClsW} {reg : List (Nat × Nat)} {cm : List Nat}
    {l : List Nat} : ∀ {pre : List Nat}, (∀ t ∈ pre, regMem reg t = false) →
    findImplLoop W reg cm (pre ++ l) none = findImplLoop W reg cm l none := by
  intro pre
  induction pre with
  | nil => intro _; rfl
  | cons t pre2 ih =>
    intro h
    rw [List.cons_append]
    simp only [findImplLoop]
    rw [h t (by simp)]
    simp only [Bool.false_eq_true, if_false]
    exact ih (fun u hu => h u (List.mem_cons_of_mem _ hu))

/-- C7: for every registry lookup `dispatch(type)` — an exact registration
for the type is returned when present; when no registered type is an
ancestor of the looked-up class (under a coherent subclass relation:
reflexive, transitive, including direct bases) the lookup returns `None`;
otherwise the first registered entry of the merged linearized inheritance
order computed by `_compose_mro` — an ancestor, hence the most specific
unambiguous registered match — is returned; and when the registered match
is immediately followed in that order by another registered, unrelated and
equally specific entry (the `_find_impl` ambiguity condition), the lookup
raises `RuntimeError("Ambiguous dispatch")` rather than picking one. -/
theorem claim_C7_registry_dispatch (W : ClsW) (reg : List (Nat × Nat))
    (fuel cls : Nat)
    (Hrefl : ∀ c, W.issub c c = true)
    (Hbase : ∀ c b, b ∈ W.bases c → W.issub c b = true)
    (Htrans : ∀ a b c, W.issub a b = true → W.issub b c = true →
      W.issub a c = true) :
    (∀ f, regLookup reg cls = some f → dispatch W fuel reg cls = .ok (some f))
    ∧ (regLookup reg cls = none →
        (∀ t, W.issub cls t = true → regMem reg t = false) →
        ∀ mro0, composeMro W fuel cls (reg.map Prod.fst) = .ok mro0 →
        dispatch W fuel reg cls = .ok none)
    ∧ (∀ pre m rest, regLookup reg cls = none →
        composeMro W fuel cls (reg.map Prod.fst) = .ok (pre ++ m :: rest) →
        (∀ t ∈ pre, regMem reg t = false) → regMem reg m = true →
        (match rest with
         | [] => True
         | t :: _ => (regMem reg t && !(W.mro cls).contains t &&
             !(W.mro cls).contains m && !W.issub m t) = false) →
        W.issub cls m = true ∧ dispatch W fuel reg cls = .ok (regLookup reg m))
    ∧ (∀ pre m t rest2, regLookup reg cls = none →
        composeMro W fuel cls (reg.map Prod.fst) = .ok (pre ++ m :: t :: rest2) →
        (∀ u ∈ pre, regMem reg u = false) → regMem reg m = true →
        (regMem reg t && !(W.mro cls).contains t &&
          !(W.mro cls).contains m && !W.issub m t) = true →
        dispatch W fuel reg cls = .error (.exc "RuntimeError"
          ("Ambiguous dispatch: " ++ toString m ++ " or " ++ toString t))) := by
  refine ⟨?_, ?_, ?_, ?_⟩
  · intro f hf
    simp only [dispatch, hf]
  · intro hnone hnoreg mro0 hmro
    simp only [dispatch, hnone, findImpl, hmro]
    rw [findImplLoop_none (fun u hu =>
      hnoreg u (composeMro_subset Hrefl Hbase Htrans hmro u hu))]
  · intro pre m rest hnone hmro hpre hm hnext
    refine ⟨composeMro_subset Hrefl Hbase Htrans hmro m (by simp), ?_⟩
    simp only [dispatch, hnone, findImpl, hmro]
    rw [findImplLoop_skip hpre]
    cases rest with
    | nil => simp only [findImplLoop, hm, if_true]
    | cons t rest2 =>
      simp only [findImplLoop, hm, if_true]
      rw [hnext]
      simp only [Bool.false_eq_true, if_false]
  · intro pre m t rest2 hnone hmro hpre hm hcond
    simp only [dispatch, hnone, findImpl, hmro]
    rw [findImplLoop_skip hpre]
    simp only [findImplLoop, hm, if_true]
    rw [hcond]
    simp only [if_true]

/-- A concrete class world for the C7 witness: `object = 0`; `A = 1` with
base `object`; `B = 2` with base `A`; two implicit (virtual) ABCs `P = 4`
and `Q = 5`, neither in the MRO of the plain class `C = 6` but both its
superclasses; subclassing is the numeric order. -/
def dispW : ClsW := {
  bases := fun c => match c with
    | 1 => [0] | 2 => [1] | 4 => [0] | 5 => [0] | 6 => [0] | _ => []
  mro := fun c => match c with
    | 1 => [1, 0] | 2 => [2, 1, 0] | 4 => [4, 0] | 5 => [5, 0] | 6 => [6, 0] | _ => [c]
  subclasses := fun _ => []
  isAbc := fun _ => false
  issub := fun a b => decide (b ≤ a) }

theorem dispW_refl : ∀ c, dispW.issub c c = true := by
  intro c
  simp [dispW]

theorem dispW_base : ∀ c b, b ∈ dispW.bases c → dispW.issub c b = true := by
  intro c b hb
  match c with
  | 0 => rw [show dispW.bases 0 = [] from rfl] at hb; simp at hb
  | 1 =>
    rw [show dispW.bases 1 = [0] from rfl] at hb
    simp at hb
    rw [hb]
    decide
  | 2 =>
    rw [show dispW.bases 2 = [1] from rfl] at hb
    simp at hb
    rw [hb]
    decide
  | 3 => rw [show dispW.bases 3 = [] from rfl] at hb; simp at hb
  | 4 =>
    rw [show dispW.bases 4 = [0] from rfl] at hb
    simp at hb
    rw [hb]
    decide
  | 5 =>
    rw [show dispW.bases 5 = [0] from rfl] at hb
    simp at hb
    rw [hb]
    decide
  | 6 =>
    rw [show dispW.bases 6 = [0] from rfl] at hb
    simp at hb
    rw [hb]
    decide
  | (n + 7) => rw [show dispW.bases (n + 7) = [] from rfl] at hb; simp at hb

theorem dispW_trans : ∀ a b c, dispW.issub a b = true → dispW.issub b c = true →
    dispW.issub a c = true := by
  intro a b c h1 h2
  simp [dispW] at h1 h2 ⊢
  omega

/-- C7 witness: the four dispatch behaviours on the concrete world — exact
hit (`B` registered), inherited match (`A` registered, `B` looked up),
no registered ancestor (`P` registered, `B` looked up), and the ambiguity
error (`P` and `Q` both registered, `C` looked up). -/
theorem claim_C7_registry_dispatch_witness :
    dispatch dispW 10 [(2, 9)] 2 = .ok (some 9)
    ∧ dispatch dispW 10 [(1, 10)] 2 = .ok (some 10)
    ∧ dispatch dispW 10 [(4, 14)] 2 = .ok none
    ∧ dispatch dispW 10 [(4, 14), (5, 15)] 6 = .error (.exc "RuntimeError"
        ("Ambiguous dispatch: " ++ toString 4 ++ " or " ++ toString 5)) := by
  refine ⟨?_, ?_, ?_, ?_⟩
  · exact (claim_C7_registry_dispatch dispW [(2, 9)] 10 2 dispW_refl dispW_base
      dispW_trans).1 9 rfl
  · refine ((claim_C7_registry_dispatch dispW [(1, 10)] 10 2 dispW_refl dispW_base
      dispW_trans).2.2.1 [2] 1 [0] rfl ?_ (by decide) rfl (by decide)).2
    simp [composeMro, c3Mro, c3MroList, c3Merge, c3ExplicitBases, c3OtherBases,
      c3AbstractBases, c3Abcs2, c3Boundary, findCand, headOkay, mergeStep, totalLen,
      removeFirst, dispW, composeLoop, composeFound, addUnique]
  · refine (claim_C7_registry_dispatch dispW [(4, 14)] 10 2 dispW_refl dispW_base
      dispW_trans).2.1 rfl ?_ [2, 1, 0] ?_
    · intro u hu
      simp [dispW] at hu
      simp [regMem, regLookup]
      omega
    · simp [composeMro, c3Mro, c3MroList, c3Merge, c3ExplicitBases, c3OtherBases,
        c3AbstractBases, c3Abcs2, c3Boundary, findCand, headOkay, mergeStep, totalLen,
        removeFirst, dispW, composeLoop, composeFound, addUnique]
  · refine (claim_C7_registry_dispatch dispW [(4, 14), (5, 15)] 10 6 dispW_refl
      dispW_base dispW_trans).2.2.2 [6] 4 5 [0] rfl ?_ (by decide) rfl (by decide)
    simp [composeMro, c3Mro, c3MroList, c3Merge, c3ExplicitBases, c3OtherBases,
      c3AbstractBases, c3Abcs2, c3Boundary, findCand, headOkay, mergeStep, totalLen,
      removeFirst, dispW, composeLoop, composeFound, addUnique]

/-- `str.find(c)` (Python): index of the first occurrence, `None` for the
Python `-1`. -/
def findIdxFrom (p : Char → Bool) : List Char → Nat → Option Nat
  | [], _ => none
  | c :: rest, i => if p c then some i else findIdxFrom p rest (i + 1)

def strFind (s : String) (c0 : Char) : Option Nat :=
  findIdxFrom (fun c => c == c0) s.toList 0

/-- `dict.__setitem__` for the string-keyed `kv` map of `encode_dotlist`. -/
def sSet : List (String × PyVal) → String → PyVal → List (String × PyVal)
  | [], k, v => [(k, v)]
  | (k', v') :: rest, k, v =>
    if k' == k then (k', v) :: rest else (k', v') :: sSet rest k v

/-- `key.split(sep)` over the character list (Python `str.split` with a
one-character separator). -/
def splitOn (sep : Char) : List Char → List (List Char)
  | [] => [[]]
  | c :: rest =>
    match splitOn sep rest with
    | [] => if c == sep then [[], []] else [[c]]
    | g :: gs => if c == sep then [] :: g :: gs else (c :: g) :: gs

/-- A dotlist token rejected by `encode_dotlist`: no `=` at all, `=` as the
last character (no value), or `=` first (empty key) — checked in that
order. -/
def malformedTok (s : String) : Bool :=
  match strFind s '=' with
  | none => true
  | some idx => idx == s.toList.length - 1 || idx == 0

/-- The position of a well-formed token's `=`. -/
def tokIdx (s : String) : Nat :=
  (strFind s '=').getD 0

/-- `arg[0:idx]`: the key part of a token. -/
def tokKey (s : String) : String :=
  String.mk (s.toList.take (tokIdx s))

/-- `arg[idx + 1:]`: the value part of a token. -/
def tokVal (s : String) : String :=
  String.mk (s.toList.drop (tokIdx s + 1))

/-- The `for arg in dotlist` loop of `encode_dotlist`, building the flat
`kv` dict; the value is handed to the markup scalar parser (`encode_yaml`),
taken as a parameter. -/
def encodeDotlistKv (ps : String → PyVal) :
    List String → List (String × PyVal) → Except Err (List (String × PyVal))
  | [], kv => .ok kv
  | arg :: rest, kv =>
    match strFind arg '=' with
    | none =>
      .error (.exc "ValueError" ("dotlist argument '" ++ arg ++ "' invalid: no key."))
    | some idx =>
      if idx == arg.toList.length - 1 then
        .error (.exc "ValueError" ("dotlist argument '" ++ arg ++ "' invalid: no value given"))
      else if idx == 0 then
        .error (.exc "ValueError" ("dotlist argument '" ++ arg ++ " invalid: empty key"))
      else
        encodeDotlistKv ps rest
          (sSet kv (String.mk (arg.toList.take idx))
            (ps (String.mk (arg.toList.drop (idx + 1)))))

/-- One key of `deflatten`: walk the dot-path, materialising missing
intermediate dicts, and assign the value at the last part; walking into a
non-dict raises `TypeError` (Python errors on the subsequent subscript of
the non-mapping). -/
def deflatSet : List (PyVal × PyVal) → List (List Char) → PyVal →
    Except Err (List (PyVal × PyVal))
  | d, [], _ => .ok d
  | d, [last], v => .ok (dSet d (.vstr (String.mk last)) v)
  | d, p :: rest, v =>
    match dLookup d (.vstr (String.mk p)) with
    | none =>
      match deflatSet [] rest v with
      | .error e => .error e
      | .ok sub => .ok (dSet d (.vstr (String.mk p)) (.vdict sub))
    | some (.vdict sub) =>
      match deflatSet sub rest v with
      | .error e => .error e
      | .ok sub2 => .ok (dSet d (.vstr (String.mk p)) (.vdict sub2))
    | some w =>
      .error (.exc "TypeError" ("argument of type '" ++ pyTypeName w ++ "' is not iterable"))

/-- `deflatten`'s `for key in d` loop. -/
def deflattenGo : List (String × PyVal) → List (PyVal × PyVal) →
    Except Err (List (PyVal × PyVal))
  | [], acc => .ok acc
  | (k, v) :: rest, acc =>
    match deflatSet acc (splitOn '.' k.toList) v with
    | .error e => .error e
    | .ok acc2 => deflattenGo rest acc2

/-- `encode_dotlist`: parse every token into the flat `kv` dict, then
`deflatten` it into a nested pytree. -/
def encodeDotlist (ps : String → PyVal) (dotlist : List String) : Except Err PyVal :=
  match encodeDotlistKv ps dotlist [] with
  | .error e => .error e
  | .ok kv =>
    match deflattenGo kv [] with
    | .error e => .error e
    | .ok tree => .ok (.vdict tree)

mutual

/-- `pytree_merge`: recurse when the source value and the present
destination value are both mappings, otherwise (deep-copy and) overwrite. -/
def pytreeMergeList (dest : List (PyVal × PyVal)) :
    List (PyVal × PyVal) → List (PyVal × PyVal)
  | [] => dest
  | (k, v) :: rest => pytreeMergeList (pytreeMergeOne dest k v) rest
termination_by src => (sizeOf src, 0)
decreasing_by all_goals (simp_wf; (try simp [Prod.lex_iff]); (try omega))

def pytreeMergeOne (dest : List (PyVal × PyVal)) (k v : PyVal) :
    List (PyVal × PyVal) :=
  match dLookup dest k, v with
  | some (.vdict dsub), .vdict ssub => dSet dest k (.vdict (pytreeMergeList dsub ssub))
  | _, _ => dSet dest k v
termination_by (sizeOf k + sizeOf v, 1)
decreasing_by all_goals (simp_wf; (try simp [Prod.lex_iff]); (try omega))

end

/-- The top-level `pytree_merge(dest, src)` call of `update` (both trees are
dicts there; anything else has no `.items()` / no membership test). -/
def pytreeMergeTop : PyVal → PyVal → Except Err PyVal
  | .vdict dps, .vdict sps => .ok (.vdict (pytreeMergeList dps sps))
  | d, s =>
    .error (.exc "TypeError" ("cannot merge '" ++ pyTypeName s ++ "' into '" ++
      pyTypeName d ++ "'"))

/-- `haven.api.update`: encode, merge, decode into a fresh instance. -/
def update (cls : Ty) (dc : PyVal) (overrides : PyVal) : Except Err PyVal :=
  match encode dc with
  | .error e => .error e
  | .ok p =>
    match pytreeMergeTop p overrides with
    | .error e => .error e
    | .ok merged => decodeTy cls merged

/-- `haven.api.update_from_dotlist`: parse the dotlist into an override
pytree, then `update`. -/
def updateFromDotlist (ps : String → PyVal) (cls : Ty) (dc : PyVal)
    (dotlist : List String) : Except Err PyVal :=
  match encodeDotlist ps dotlist with
  | .error e => .error e
  | .ok tree => update cls dc tree

/-- Reading a nested pytree at a dot-path. -/
def pathLookup : PyVal → List (List Char) → Option PyVal
  | v, [] => some v
  | .vdict d, p :: rest =>
    match dLookup d (.vstr (String.mk p)) with
    | none => none
    | some w => pathLookup w rest
  | _, _ :: _ => none

/-- Two dot-paths diverge when they differ at a position both of them
reach: neither is a (possibly improper) prefix of the other. -/
def divergeB : List (List Char) → List (List Char) → Bool
  | p :: ps, q :: qs => if p == q then divergeB ps qs else true
  | _, _ => false

/-- Whether `deflatSet` can walk this path in this tree without hitting a
non-dict. -/
def insertableB : List (PyVal × PyVal) → List (List Char) → Bool
  | _, [] => true
  | _, [_] => true
  | d, p :: rest =>
    match dLookup d (.vstr (String.mk p)) with
    | none => true
    | some (.vdict sub) => insertableB sub rest
    | some _ => false

theorem insertableB_nil : ∀ q, insertableB [] q = true := by
  intro q
  match q with
  | [] => rw [insertableB]
  | [p] => rw [insertableB]
  | p :: q1 :: qs => simp [insertableB, dLookup]

theorem splitOn_ne_nil (sep : Char) : ∀ cs : List Char, splitOn sep cs ≠ [] := by
  intro cs
  induction cs with
  | nil => rw [splitOn]; simp
  | cons c rest ih =>
    rw [splitOn]
    cases h : splitOn sep rest with
    | nil => exact absurd h ih
    | cons g gs =>
      by_cases hc : (c == sep) = true
      · simp [hc]
      · simp only [Bool.not_eq_true] at hc
        simp [hc]

theorem divergeB_self : ∀ a, divergeB a a = false := by
  intro a
  induction a with
  | nil => rfl
  | cons p ps ih => simp [divergeB, ih]

theorem divergeB_symm : ∀ a b, divergeB a b = divergeB b a := by
  intro a
  induction a with
  | nil => intro b; cases b <;> rfl
  | cons p ps ih =>
    intro b
    cases b with
    | nil => rfl
    | cons q qs =>
      by_cases hpq : p = q
      · subst hpq
        simp [divergeB, ih qs]
      · have h1 : (p == q) = false := by simpa using hpq
        have h2 : (q == p) = false := by simpa using (Ne.symm hpq)
        simp [divergeB, h1, h2]

theorem dLookup_dSet_self : ∀ {d : List (PyVal × PyVal)} (k v : PyVal),
    dLookup (dSet d k v) k = some v := by
  intro d
  induction d with
  | nil => intro k v; rw [dSet, dLookup, pyEq_refl]; rfl
  | cons p rest ih =>
    intro k v
    obtain ⟨k2, v2⟩ := p
    rw [dSet]
    cases he : pyEq k2 k with
    | true =>
      simp only [if_true]
      rw [dLookup, he]
      rfl
    | false =>
      simp only [Bool.false_eq_true, if_false]
      rw [dLookup, he]
      simp only [Bool.false_eq_true, if_false]
      exact ih k v

theorem dLookup_dSet_vstr_ne {ks qs : String} (hne : ks ≠ qs) :
    ∀ {d : List (PyVal × PyVal)} (v : PyVal),
    dLookup (dSet d (.vstr ks) v) (.vstr qs) = dLookup d (.vstr qs) := by
  intro d
  induction d with
  | nil =>
    intro v
    simp [dSet, dLookup, pyEq, show (ks == qs) = false by simpa using hne]
  | cons p rest ih =>
    intro v
    obtain ⟨k2, v2⟩ := p
    rw [dSet]
    cases he : pyEq k2 (.vstr ks) with
    | true =>
      simp only [if_true]
      have hk2 : k2 = .vstr ks := by
        match k2 with
        | .vstr s2 => rw [pyEq_vstr] at he; simp at he; rw [he]
        | .vnone | .vbool _ | .vint _ | .vlist _ | .vtuple _ | .vset _ | .vdict _
        | .venum _ _ | .vobj _ _ | .vcomp _ _ => simp [pyEq] at he
      subst hk2
      simp [dLookup, pyEq, show (ks == qs) = false by simpa using hne]
    | false =>
      simp only [Bool.false_eq_true, if_false]
      cases he2 : pyEq k2 (.vstr qs) with
      | true => simp [dLookup, he2]
      | false =>
        simp only [dLookup, he2, Bool.false_eq_true, if_false]
        exact ih v

theorem deflatSet_ok : ∀ {parts : List (List Char)} {d : List (PyVal × PyVal)} (v : PyVal),
    insertableB d parts = true → ∃ d2, deflatSet d parts v = .ok d2 := by
  intro parts
  induction parts with
  | nil => intro d v _; exact ⟨d, rfl⟩
  | cons p rest ih =>
    intro d v hins
    cases rest with
    | nil => exact ⟨_, rfl⟩
    | cons q qs =>
      simp only [insertableB] at hins
      cases hl : dLookup d (.vstr (String.mk p)) with
      | none =>
        obtain ⟨sub, hsub⟩ := ih v (insertableB_nil _)
        exact ⟨_, by simp only [deflatSet, hl, hsub]; rfl⟩
      | some w =>
        rw [hl] at hins
        match w, hins with
        | .vdict sub, hins =>
          obtain ⟨sub2, hsub2⟩ := ih v hins
          exact ⟨_, by simp only [deflatSet, hl, hsub2]; rfl⟩
        | .vnone, hins | .vbool _, hins | .vint _, hins | .vstr _, hins
        | .vlist _, hins | .vtuple _, hins | .vset _, hins
        | .venum _ _, hins | .vobj _ _, hins | .vcomp _ _, hins => simp at hins

theorem deflatSet_self : ∀ {parts : List (List Char)} {d d2 : List (PyVal × PyVal)}
    {v : PyVal}, deflatSet d parts v = .ok d2 → parts ≠ [] →
    pathLookup (.vdict d2) parts = some v := by
  intro parts
  induction parts with
  | nil => intro d d2 v _ hne; exact absurd rfl hne
  | cons p rest ih =>
    intro d d2 v h _
    cases rest with
    | nil =>
      simp only [deflatSet] at h
      cases h
      rw [pathLookup, dLookup_dSet_self]
      simp only [pathLookup]
    | cons q qs =>
      simp only [deflatSet] at h
      cases hl : dLookup d (.vstr (String.mk p)) with
      | none =>
        simp only [hl] at h
        cases hs : deflatSet [] (q :: qs) v with
        | error e => simp only [hs] at h; cases h
        | ok sub =>
          simp only [hs] at h
          cases h
          rw [pathLookup, dLookup_dSet_self]
          exact ih hs (by simp)
      | some w =>
        simp only [hl] at h
        match w, h with
        | .vdict sub, h =>
          cases hs : deflatSet sub (q :: qs) v with
          | error e => simp only [hs] at h; cases h
          | ok sub2 =>
            simp only [hs] at h
            cases h
            rw [pathLookup, dLookup_dSet_self]
            exact ih hs (by simp)
        | .vnone, h | .vbool _, h | .vint _, h | .vstr _, h
        | .vlist _, h | .vtuple _, h | .vset _, h
        | .venum _ _, h | .vobj _ _, h | .vcomp _ _, h => simp at h

theorem deflatSet_other : ∀ {parts q : List (List Char)} {d d2 : List (PyVal × PyVal)}
    {v : PyVal}, divergeB parts q = true → deflatSet d parts v = .ok d2 →
    pathLookup (.vdict d2) q = pathLookup (.vdict d) q := by
  intro parts
  induction parts with
  | nil => intro q d d2 v hdiv _; simp [divergeB] at hdiv
  | cons p rest ih =>
    intro q d d2 v hdiv h
    cases q with
    | nil => simp [divergeB] at hdiv
    | cons q0 qrest =>
      rw [divergeB] at hdiv
      by_cases hpq : p = q0
      · subst hpq
        simp only [beq_self_eq_true, if_true] at hdiv
        cases rest with
        | nil => simp [divergeB] at hdiv
        | cons r rs =>
          cases qrest with
          | nil => simp [divergeB] at hdiv
          | cons q1 q2s =>
            simp only [deflatSet] at h
            cases hl : dLookup d (.vstr (String.mk p)) with
            | none =>
              simp only [hl] at h
              cases hs : deflatSet [] (r :: rs) v with
              | error e => simp only [hs] at h; cases h
              | ok sub =>
                simp only [hs] at h
                cases h
                have h1 : pathLookup
                    (.vdict (dSet d (.vstr (String.mk p)) (.vdict sub)))
                    (p :: q1 :: q2s) = pathLookup (.vdict sub) (q1 :: q2s) := by
                  rw [pathLookup, dLookup_dSet_self]
                rw [h1, ih hdiv hs]
                simp only [pathLookup, dLookup, hl]
            | some w =>
              simp only [hl] at h
              match w, hl, h with
              | .vdict sub, hl, h =>
                cases hs : deflatSet sub (r :: rs) v with
                | error e => simp only [hs] at h; cases h
                | ok sub2 =>
                  simp only [hs] at h
                  cases h
                  have h1 : pathLookup
                      (.vdict (dSet d (.vstr (String.mk p)) (.vdict sub2)))
                      (p :: q1 :: q2s) = pathLookup (.vdict sub2) (q1 :: q2s) := by
                    rw [pathLookup, dLookup_dSet_self]
                  have h2 : pathLookup (.vdict d) (p :: q1 :: q2s) =
                      pathLookup (.vdict sub) (q1 :: q2s) := by
                    rw [pathLookup, hl]
                  rw [h1, h2]
                  exact ih hdiv hs
              | .vnone, hl, h | .vbool _, hl, h | .vint _, hl, h | .vstr _, hl, h
              | .vlist _, hl, h | .vtuple _, hl, h | .vset _, hl, h
              | .venum _ _, hl, h | .vobj _ _, hl, h | .vcomp _ _, hl, h => simp at h
      · have hne : String.mk p ≠ String.mk q0 := by
          intro hc
          exact hpq (by injection hc)
        have key : ∀ X, pathLookup (.vdict (dSet d (.vstr (String.mk p)) X))
            (q0 :: qrest) = pathLookup (.vdict d) (q0 :: qrest) := by
          intro X
          rw [pathLookup, dLookup_dSet_vstr_ne hne]
          rw [pathLookup]
        cases rest with
        | nil =>
          simp only [deflatSet] at h
          cases h
          exact key _
        | cons r rs =>
          simp only [deflatSet] at h
          cases hl : dLookup d (.vstr (String.mk p)) with
          | none =>
            simp only [hl] at h
            cases hs : deflatSet [] (r :: rs) v with
            | error e => simp only [hs] at h; cases h
            | ok sub =>
              simp only [hs] at h
              cases h
              exact key _
          | some w =>
            simp only [hl] at h
            match w, h with
            | .vdict sub, h =>
              cases hs : deflatSet sub (r :: rs) v with
              | error e => simp only [hs] at h; cases h
              | ok sub2 =>
                simp only [hs] at h
                cases h
                exact key _
            | .vnone, h | .vbool _, h | .vint _, h | .vstr _, h
            | .vlist _, h | .vtuple _, h | .vset _, h
            | .venum _ _, h | .vobj _ _, h | .vcomp _ _, h => simp at h

theorem deflatSet_insertable : ∀ {parts q : List (List Char)}
    {d d2 : List (PyVal × PyVal)} {v : PyVal},
    divergeB parts q = true → insertableB d q = true → deflatSet d parts v = .ok d2 →
    insertableB d2 q = true := by
  intro parts
  induction parts with
  | nil => intro q d d2 v hdiv _ _; simp [divergeB] at hdiv
  | cons p rest ih =>
    intro q d d2 v hdiv hq h
    cases q with
    | nil => simp [divergeB] at hdiv
    | cons q0 qrest =>
      cases qrest with
      | nil => rw [insertableB]
      | cons q1 q2s =>
        rw [divergeB] at hdiv
        by_cases hpq : p = q0
        · subst hpq
          simp only [beq_self_eq_true, if_true] at hdiv
          cases rest with
          | nil => simp [divergeB] at hdiv
          | cons r rs =>
            simp only [deflatSet] at h
            cases hl : dLookup d (.vstr (String.mk p)) with
            | none =>
              simp only [hl] at h
              cases hs : deflatSet [] (r :: rs) v with
              | error e => simp only [hs] at h; cases h
              | ok sub =>
                simp only [hs] at h
                cases h
                simp only [insertableB, dLookup_dSet_self]
                exact ih hdiv (insertableB_nil _) hs
            | some w =>
              simp only [hl] at h
              match w, hl, h with
              | .vdict sub, hl, h =>
                cases hs : deflatSet sub (r :: rs) v with
                | error e => simp only [hs] at h; cases h
                | ok sub2 =>
                  simp only [hs] at h
                  cases h
                  simp only [insertableB, hl] at hq
                  simp only [insertableB, dLookup_dSet_self]
                  exact ih hdiv hq hs
              | .vnone, hl, h | .vbool _, hl, h | .vint _, hl, h | .vstr _, hl, h
              | .vlist _, hl, h | .vtuple _, hl, h | .vset _, hl, h
              | .venum _ _, hl, h | .vobj _ _, hl, h | .vcomp _ _, hl, h => simp at h
        · have hne : String.mk p ≠ String.mk q0 := by
            intro hc
            exact hpq (by injection hc)
          have key : ∀ X, insertableB (dSet d (.vstr (String.mk p)) X) (q0 :: q1 :: q2s) =
              insertableB d (q0 :: q1 :: q2s) := by
            intro X
            simp only [insertableB, dLookup_dSet_vstr_ne hne]
          cases rest with
          | nil =>
            simp only [deflatSet] at h
            cases h
            rw [key _]
            exact hq
          | cons r rs =>
            simp only [deflatSet] at h
            cases hl : dLookup d (.vstr (String.mk p)) with
            | none =>
              simp only [hl] at h
              cases hs : deflatSet [] (r :: rs) v with
              | error e => simp only [hs] at h; cases h
              | ok sub =>
                simp only [hs] at h
                cases h
                rw [key _]
                exact hq
            | some w =>
              simp only [hl] at h
              match w, h with
              | .vdict sub, h =>
                cases hs : deflatSet sub (r :: rs) v with
                | error e => simp only [hs] at h; cases h
                | ok sub2 =>
                  simp only [hs] at h
                  cases h
                  rw [key _]
                  exact hq
              | .vnone, h | .vbool _, h | .vint _, h | .vstr _, h
              | .vlist _, h | .vtuple _, h | .vset _, h
              | .venum _ _, h | .vobj _ _, h | .vcomp _ _, h => simp at h

theorem deflattenGo_spec :
    ∀ (kv : List (String × PyVal)) (acc : List (PyVal × PyVal)),
    List.Pairwise (fun a b =>
      divergeB (splitOn '.' a.1.toList) (splitOn '.' b.1.toList) = true) kv →
    (∀ p ∈ kv, insertableB acc (splitOn '.' p.1.toList) = true) →
    ∃ tree, deflattenGo kv acc = .ok tree ∧
      (∀ p ∈ kv, pathLookup (.vdict tree) (splitOn '.' p.1.toList) = some p.2) ∧
      (∀ q, (∀ p ∈ kv, divergeB (splitOn '.' p.1.toList) q = true) →
        pathLookup (.vdict tree) q = pathLookup (.vdict acc) q) := by
  intro kv
  induction kv with
  | nil =>
    intro acc _ _
    exact ⟨acc, by rw [deflattenGo], by simp, fun q _ => rfl⟩
  | cons hd rest ih =>
    obtain ⟨k, v⟩ := hd
    intro acc hpw hins
    rw [List.pairwise_cons] at hpw
    obtain ⟨hd2, hsub⟩ := deflatSet_ok v (hins (k, v) (by simp))
    have hinsrest : ∀ p ∈ rest, insertableB hd2 (splitOn '.' p.1.toList) = true := by
      intro p hp
      exact deflatSet_insertable (hpw.1 p hp) (hins p (List.mem_cons_of_mem _ hp)) hsub
    obtain ⟨tree, htree, hself, hpres⟩ := ih hd2 hpw.2 hinsrest
    refine ⟨tree, ?_, ?_, ?_⟩
    · rw [deflattenGo]
      simp only [hsub]
      exact htree
    · intro p hp
      rcases List.mem_cons.mp hp with rfl | hp2
      · have hdivq : ∀ p2 ∈ rest,
            divergeB (splitOn '.' p2.1.toList) (splitOn '.' k.toList) = true := by
          intro p2 hp2
          rw [divergeB_symm]
          exact hpw.1 p2 hp2
        rw [hpres (splitOn '.' k.toList) hdivq]
        exact deflatSet_self hsub (splitOn_ne_nil _ _)
      · exact hself p hp2
    · intro q hq
      rw [hpres q (fun p hp => hq p (List.mem_cons_of_mem _ hp))]
      exact deflatSet_other (hq (k, v) (by simp)) hsub

theorem sSet_append {kv : List (String × PyVal)} {k : String} {v : PyVal}
    (h : ∀ p ∈ kv, p.1 ≠ k) : sSet kv k v = kv ++ [(k, v)] := by
  induction kv with
  | nil => rw [sSet]; rfl
  | cons p rest ih =>
    obtain ⟨k2, v2⟩ := p
    rw [sSet]
    have hne : (k2 == k) = false := by simpa using h (k2, v2) (by simp)
    rw [hne]
    simp only [Bool.false_eq_true, if_false, List.cons_append, List.cons.injEq, true_and]
    exact ih (fun q hq => h q (List.mem_cons_of_mem _ hq))

theorem encodeDotlistKv_err {ps : String → PyVal} :
    ∀ {dotlist : List String}, (∃ t ∈ dotlist, malformedTok t = true) →
    ∀ kv, ∃ m, encodeDotlistKv ps dotlist kv = .error (.exc "ValueError" m) := by
  intro dotlist
  induction dotlist with
  | nil => intro h; simp at h
  | cons t rest ih =>
    intro h kv
    rw [encodeDotlistKv]
    cases hf : strFind t '=' with
    | none => exact ⟨_, by simp only [hf]; rfl⟩
    | some idx =>
      by_cases h1 : (idx == t.toList.length - 1) = true
      · exact ⟨_, by simp only [hf, h1, if_true]; rfl⟩
      · have h1f : (idx == t.toList.length - 1) = false := by simpa using h1
        by_cases h2 : (idx == 0) = true
        · exact ⟨_, by simp only [hf, h1f, Bool.false_eq_true, if_false, h2, if_true]; rfl⟩
        · have h2f : (idx == 0) = false := by simpa using h2
          have hrest : ∃ u ∈ rest, malformedTok u = true := by
            rcases h with ⟨u, hu, hm⟩
            rcases List.mem_cons.mp hu with rfl | hmem
            · rw [malformedTok, hf] at hm
              simp only [h1f, h2f, Bool.or_self] at hm
              cases hm
            · exact ⟨u, hmem, hm⟩
          simp only [hf, h1f, h2f, Bool.false_eq_true, if_false]
          exact ih hrest _

theorem encodeDotlistKv_ok {ps : String → PyVal} :
    ∀ {dotlist : List String} {kv : List (String × PyVal)},
    (∀ t ∈ dotlist, malformedTok t = false) →
    List.Pairwise (fun a b => tokKey a ≠ tokKey b) dotlist →
    (∀ p ∈ kv, ∀ t ∈ dotlist, p.1 ≠ tokKey t) →
    encodeDotlistKv ps dotlist kv =
      .ok (kv ++ dotlist.map (fun t => (tokKey t, ps (tokVal t)))) := by
  intro dotlist
  induction dotlist with
  | nil => intro kv _ _ _; rw [encodeDotlistKv]; simp
  | cons t rest ih =>
    intro kv hwf hpw hfresh
    rw [List.pairwise_cons] at hpw
    have hwft := hwf t (by simp)
    rw [malformedTok] at hwft
    cases hf : strFind t '=' with
    | none => rw [hf] at hwft; cases hwft
    | some idx =>
      rw [hf] at hwft
      simp only [Bool.or_eq_false_iff] at hwft
      rw [encodeDotlistKv]
      simp only [hf, hwft.1, hwft.2, Bool.false_eq_true, if_false]
      have hkey : String.mk (t.toList.take idx) = tokKey t := by
        rw [tokKey, tokIdx, hf]
        rfl
      have hval : String.mk (t.toList.drop (idx + 1)) = tokVal t := by
        rw [tokVal, tokIdx, hf]
        rfl
      rw [hkey, hval]
      rw [sSet_append (fun p hp => hfresh p hp t (by simp))]
      rw [ih (fun u hu => hwf u (List.mem_cons_of_mem _ hu)) hpw.2 ?_]
      · simp
      · intro p hp u hu
        rcases List.mem_append.mp hp with hp2 | hp2
        · exact hfresh p hp2 u (List.mem_cons_of_mem _ hu)
        · simp at hp2
          rw [hp2]
          exact hpw.1 u hu

/-- C8: for every list of override tokens handed to the dotlist update — a
token with no `=`, an empty key (`=` first) or an empty value (`=` last) is
rejected with a `ValueError` raised before any merge into the configuration
happens (the same error for every instance and schema, since
`encode_dotlist` runs before `update`); and when every token is well formed
and the dot-paths are independent (no duplicate and no nested keys —
pairwise diverging paths), the override pytree handed to the merge carries,
at each token's dot-separated path, exactly that token's value as parsed by
the markup scalar grammar (`encode_yaml`, taken as a parameter). -/
theorem claim_C8_dotlist (ps : String → PyVal) (dotlist : List String) :
    ((∃ t ∈ dotlist, malformedTok t = true) →
      ∃ m, ∀ (cls : Ty) (dc : PyVal),
        updateFromDotlist ps cls dc dotlist = .error (.exc "ValueError" m))
    ∧ ((∀ t ∈ dotlist, malformedTok t = false) →
       List.Pairwise (fun a b =>
         divergeB (splitOn '.' (tokKey a).toList) (splitOn '.' (tokKey b).toList) = true)
         dotlist →
       ∃ tree, encodeDotlist ps dotlist = .ok (.vdict tree) ∧
         ∀ t ∈ dotlist,
           pathLookup (.vdict tree) (splitOn '.' (tokKey t).toList) =
             some (ps (tokVal t))) := by
  constructor
  · intro hmal
    obtain ⟨m, herr⟩ := encodeDotlistKv_err hmal []
    refine ⟨m, fun cls dc => ?_⟩
    rw [updateFromDotlist, encodeDotlist, herr]
  · intro hwf hpw
    have hpwk : List.Pairwise (fun a b => tokKey a ≠ tokKey b) dotlist := by
      refine hpw.imp ?_
      intro a b hdiv hc
      rw [hc, divergeB_self] at hdiv
      cases hdiv
    rw [encodeDotlist, encodeDotlistKv_ok hwf hpwk (fun p hp => by simp at hp)]
    have hpwm : List.Pairwise (fun (a b : String × PyVal) =>
        divergeB (splitOn '.' a.1.toList) (splitOn '.' b.1.toList) = true)
        (dotlist.map (fun t => (tokKey t, ps (tokVal t)))) := by
      rw [List.pairwise_map]
      exact hpw
    obtain ⟨tree, htree, hself, _⟩ :=
      deflattenGo_spec (dotlist.map (fun t => (tokKey t, ps (tokVal t)))) []
        hpwm (fun p hp => insertableB_nil _)
    refine ⟨tree, ?_, ?_⟩
    · simp only [List.nil_append, htree]
    · intro t ht
      have hmem : (tokKey t, ps (tokVal t)) ∈
          dotlist.map (fun u => (tokKey u, ps (tokVal u))) :=
        List.mem_map_of_mem _ ht
      exact hself (tokKey t, ps (tokVal t)) hmem

/-- C8 witness: the malformed token `"lr"` is rejected with the same
`ValueError` for every instance and schema, and the well-formed dotlist
`["optim.lr=0.1", "num=6"]` yields an override pytree carrying each parsed
value at its dot-path. -/
theorem claim_C8_dotlist_witness :
    (∃ m, ∀ (cls : Ty) (dc : PyVal),
      updateFromDotlist (fun s => .vstr s) cls dc ["lr"] =
        .error (.exc "ValueError" m))
    ∧ ∃ tree,
        encodeDotlist (fun s => .vstr s) ["optim.lr=0.1", "num=6"] = .ok (.vdict tree) ∧
        ∀ t ∈ ["optim.lr=0.1", "num=6"],
          pathLookup (.vdict tree) (splitOn '.' (tokKey t).toList) =
            some ((fun s => PyVal.vstr s) (tokVal t)) := by
  constructor
  · refine (claim_C8_dotlist (fun s => .vstr s) ["lr"]).1 ⟨"lr", by simp, ?_⟩
    simp [malformedTok, strFind, findIdxFrom]
  · refine (claim_C8_dotlist (fun s => .vstr s) ["optim.lr=0.1", "num=6"]).2 ?_ ?_
    · intro t ht
      rcases List.mem_cons.mp ht with rfl | ht2
      · simp [malformedTok, strFind, findIdxFrom]
      · rcases List.mem_cons.mp ht2 with rfl | ht3
        · simp [malformedTok, strFind, findIdxFrom]
        · simp at ht3
    · simp [List.pairwise_cons, divergeB, splitOn, tokKey, tokIdx, strFind, findIdxFrom]

/-- The heap model for the frame claims: Python values are immediates or
references into a store of mutable nodes (lists, tuples, sets, dicts and
dataclass instances); enum members, being immutable, are immediates. -/
inductive HVal where
  | hnone
  | hbool (b : Bool)
  | hint (n : Int)
  | hstr (s : String)
  | henum (en m : String)
  | href (a : Nat)

/-- A mutable heap node. -/
inductive HNode where
  | hlist (xs : List HVal)
  | htuple (xs : List HVal)
  | hset (xs : List HVal)
  | hdict (kvs : List (HVal × HVal))
  | hobj (cls : String) (fs : List (String × HVal))

/-- The store: a bump allocator over an address-indexed memory. -/
structure Store where
  next : Nat
  mem : Nat → Option HNode

/-- Allocate a fresh node. -/
def Store.alloc (σ : Store) (n : HNode) : Nat × Store :=
  (σ.next, ⟨σ.next + 1, fun a => if a = σ.next then some n else σ.mem a⟩)

/-- Overwrite the node at an (allocated) address — the model of in-place
mutation such as `dict.pop` and `dict.__setitem__`. -/
def Store.set (σ : Store) (w : Nat) (n : HNode) : Store :=
  ⟨σ.next, fun a => if a = w then some n else σ.mem a⟩

/-- The child values held directly by a node. -/
def nodeVals : HNode → List HVal
  | .hlist xs => xs
  | .htuple xs => xs
  | .hset xs => xs
  | .hdict kvs => kvs.foldr (fun kv acc => kv.1 :: kv.2 :: acc) []
  | .hobj _ fs => fs.map Prod.snd

/-- A value's reference is at or above the watermark. -/
def refGE (w : Nat) : HVal → Prop
  | .href a => w ≤ a
  | _ => True

/-- Every node stored at or above the watermark points only at or above
it (new structures never point into the old heap region in the phase where
this is tracked). -/
def NoDown (σ : Store) (w : Nat) : Prop :=
  ∀ a, w ≤ a → ∀ n, σ.mem a = some n → ∀ x ∈ nodeVals n, refGE w x

/-- Every stored node points strictly below the allocation frontier. -/
def Closed (σ : Store) : Prop :=
  ∀ a n, σ.mem a = some n → ∀ x ∈ nodeVals n, ∀ b, x = .href b → b < σ.next

/-- Addresses at or above the frontier are unallocated. -/
def WfNext (σ : Store) : Prop :=
  ∀ a, σ.next ≤ a → σ.mem a = none

/-- The frame relation: the callee has only allocated — every address that
existed on entry holds the same node on exit. -/
def Frame (σ σ2 : Store) : Prop :=
  σ.next ≤ σ2.next ∧ ∀ a, a < σ.next → σ2.mem a = σ.mem a

/-- The frame relation below an outer watermark (for code that mutates
nodes it — or its caller — allocated after the watermark). -/
def FrameW (w : Nat) (σ σ2 : Store) : Prop :=
  σ.next ≤ σ2.next ∧ ∀ a, a < w → σ2.mem a = σ.mem a

/-- Python `==` restricted to immediates, with references comparing by
address (scalar dict keys are the modeled pytree case). -/
def hEqImm : HVal → HVal → Bool
  | .hnone, .hnone => true
  | .hbool a, .hbool b => a == b
  | .hint a, .hint b => a == b
  | .hstr a, .hstr b => a == b
  | .henum a b, .henum c d => a == c && b == d
  | .href a, .href b => a == b
  | _, _ => false

def hDLookup : List (HVal × HVal) → HVal → Option HVal
  | [], _ => none
  | (k2, v) :: rest, k => if hEqImm k2 k then some v else hDLookup rest k

def hSet : List (HVal × HVal) → HVal → HVal → List (HVal × HVal)
  | [], k, v => [(k, v)]
  | (k2, v2) :: rest, k, v =>
    if hEqImm k2 k then (k2, v) :: rest else (k2, v2) :: hSet rest k v

def hRemove (kvs : List (HVal × HVal)) (k : HVal) : List (HVal × HVal) :=
  kvs.filter (fun kv => !(hEqImm kv.1 k))

def hSLookup : List (String × HVal) → String → Option HVal
  | [], _ => none
  | (n, v) :: rest, s => if n == s then some v else hSLookup rest s

/-- The runtime type name seen through the store. -/
def hTypeName (σ : Store) : HVal → String
  | .hnone => "NoneType"
  | .hbool _ => "bool"
  | .hint _ => "int"
  | .hstr _ => "str"
  | .henum e _ => e
  | .href a =>
    match σ.mem a with
    | some (.hlist _) => "list"
    | some (.htuple _) => "tuple"
    | some (.hset _) => "set"
    | some (.hdict _) => "dict"
    | some (.hobj c _) => c
    | none => "object"

/-- Python truthiness through the store. -/
def hTruth (σ : Store) : HVal → Bool
  | .hnone => false
  | .hbool b => b
  | .hint n => n != 0
  | .hstr s => s != ""
  | .henum _ _ => true
  | .href a =>
    match σ.mem a with
    | some (.hlist xs) => !xs.isEmpty
    | some (.htuple xs) => !xs.isEmpty
    | some (.hset xs) => !xs.isEmpty
    | some (.hdict kvs) => !kvs.isEmpty
    | some (.hobj _ _) => true
    | none => true

/-- `repr` through the store, fueled against heap cycles (read-only). -/
def hRepr (σ : Store) : Nat → HVal → String
  | _, .hnone => "None"
  | _, .hbool b => if b then "True" else "False"
  | _, .hint n => toString n
  | _, .hstr s => "'" ++ s ++ "'"
  | _, .henum e m => "<" ++ e ++ "." ++ m ++ ">"
  | 0, .href _ => "..."
  | f + 1, .href a =>
    match σ.mem a with
    | none => "<dangling>"
    | some (.hlist xs) => "[" ++ String.intercalate ", " (xs.map (fun x => hRepr σ f x)) ++ "]"
    | some (.htuple [x]) => "(" ++ hRepr σ f x ++ ",)"
    | some (.htuple xs) => "(" ++ String.intercalate ", " (xs.map (fun x => hRepr σ f x)) ++ ")"
    | some (.hset []) => "set()"
    | some (.hset xs) => "\x7b" ++ String.intercalate ", " (xs.map (fun x => hRepr σ f x)) ++ "\x7d"
    | some (.hdict kvs) => "\x7b" ++ String.intercalate ", "
        (kvs.map (fun kv => hRepr σ f kv.1 ++ ": " ++ hRepr σ f kv.2)) ++ "\x7d"
    | some (.hobj c fs) => c ++ "(" ++ String.intercalate ", "
        (fs.map (fun nv => nv.1 ++ "=" ++ hRepr σ f nv.2)) ++ ")"
termination_by f v => f

/-- `str()` through the store. -/
def hStr (σ : Store) (f : Nat) : HVal → String
  | .hstr s => s
  | v => hRepr σ f v

/-- The `int` constructor on heap values. -/
def hIntFn (σ : Store) : HVal → Except Err HVal
  | .hint n => .ok (.hint n)
  | .hbool b => .ok (.hint (if b then 1 else 0))
  | .hstr s =>
    match parseIntStr s with
    | some n => .ok (.hint n)
    | none => .error (.exc "ValueError" ("invalid literal for int() with base 10: '" ++ s ++ "'"))
  | v => .error (.exc "TypeError" ("int() argument must be a string or a number, not " ++
      hTypeName σ v))

/-- `isinstance(x, Hashable)` through the store. -/
def hHashable (σ : Store) : HVal → Bool
  | .href a =>
    match σ.mem a with
    | some (.htuple _) => true
    | some _ => false
    | none => true
  | _ => true

/-- Python iteration through the store (read-only). -/
def hIterate (σ : Store) : HVal → Except Err (List HVal)
  | .href a =>
    match σ.mem a with
    | some (.hlist xs) => .ok xs
    | some (.htuple xs) => .ok xs
    | some (.hset xs) => .ok xs
    | some (.hdict kvs) => .ok (kvs.map Prod.fst)
    | _ => .error (.exc "TypeError" "argument is not iterable")
  | .hstr s => .ok (s.toList.map (fun c => .hstr (String.mk [c])))
  | v => .error (.exc "TypeError" ("argument of type " ++ hTypeName σ v ++ " is not iterable"))

/-- `for k, v in items` unpacking through the store (read-only). -/
def hUnpack2 (σ : Store) : HVal → Except Err (HVal × HVal)
  | .href a =>
    match σ.mem a with
    | some (.htuple [x, y]) => .ok (x, y)
    | some (.hlist [x, y]) => .ok (x, y)
    | _ => .error (.exc "ValueError" "cannot unpack into a key-value pair")
  | _ => .error (.exc "ValueError" "cannot unpack into a key-value pair")

def hUnpackAll (σ : Store) : List HVal → Except Err (List (HVal × HVal))
  | [] => .ok []
  | x :: xs =>
    match hUnpack2 σ x with
    | .error e => .error e
    | .ok p =>
      match hUnpackAll σ xs with
      | .error e => .error e
      | .ok ps => .ok (p :: ps)

/-- `set(...)` deduplication on the modeled (immediate-key) equality. -/
def hDedup : List HVal → List HVal
  | [] => []
  | x :: xs => x :: hDedup (xs.filter (fun y => !(hEqImm y x)))
termination_by xs => xs.length
decreasing_by simp_wf <;> exact Nat.lt_succ_of_le (List.length_filter_le _ _)

def scalarToH : Scalar → HVal
  | .snone => .hnone
  | .sbool b => .hbool b
  | .sint n => .hint n
  | .sstr s => .hstr s

/-- `cls(**init_args)` + non-init assignment on heap field values (pure:
only the resulting attribute list is computed; the instance node is
allocated by the caller). -/
def constructFldsH (rn : String) :
    List Fld → List (String × HVal) → List (String × HVal) →
    Except Err (List (String × HVal))
  | [], _, _ => .ok []
  | .mk name _ fdef finit _ :: rest, initArgs, nonInitArgs =>
    match constructFldsH rn rest initArgs nonInitArgs with
    | .error e => .error e
    | .ok tailFs =>
      if finit then
        match hSLookup initArgs name with
        | some v => .ok ((name, v) :: tailFs)
        | none =>
          match fdef with
          | some sc => .ok ((name, scalarToH sc) :: tailFs)
          | none =>
            .error (.parsing ("Couldn't instantiate class " ++ rn ++
              " using the given arguments.\n\t Underlying error: __init__ missing required argument: '" ++
              name ++ "'"))
      else
        match hSLookup nonInitArgs name with
        | some v => .ok ((name, v) :: tailFs)
        | none =>
          match fdef with
          | some sc => .ok ((name, scalarToH sc) :: tailFs)
          | none => .ok tailFs

/-- Allocate one 2-tuple node per (already encoded) pair — the
unhashable-key fallback of `encode` for mappings. -/
def allocPairTuples : List (HVal × HVal) → Store → List HVal × Store
  | [], σ => ([], σ)
  | (k, v) :: rest, σ =>
    match allocPairTuples rest (σ.alloc (.htuple [k, v])).2 with
    | (ys, σ3) => (.href σ.next :: ys, σ3)

mutual

/-- `haven.encoding.encode` on the heap: reads the instance, allocating a
fresh pytree; the input is never written (fueled against heap cycles).
A `Component` value never occurs in the heap fragment. -/
def encodeH : Nat → HVal → Store → (Except Err HVal) × Store
  | 0, _, σ => (.error (.exc "RecursionError" "maximum recursion depth exceeded"), σ)
  | f + 1, v, σ =>
    match v with
    | .hnone => (.ok .hnone, σ)
    | .hbool b => (.ok (.hbool b), σ)
    | .hint n => (.ok (.hint n), σ)
    | .hstr s => (.ok (.hstr s), σ)
    | .henum _ m => (.ok (.hstr m), σ)
    | .href a =>
      match σ.mem a with
      | none => (.error (.exc "RuntimeError" "dangling reference"), σ)
      | some (.hlist xs) =>
        match encodeLH f xs σ with
        | (.error e, σ2) => (.error e, σ2)
        | (.ok ys, σ2) => (.ok (.href σ2.next), (σ2.alloc (.hlist ys)).2)
      | some (.htuple xs) =>
        match encodeLH f xs σ with
        | (.error e, σ2) => (.error e, σ2)
        | (.ok ys, σ2) => (.ok (.href σ2.next), (σ2.alloc (.hlist ys)).2)
      | some (.hset xs) =>
        match encodeLH f xs σ with
        | (.error e, σ2) => (.error e, σ2)
        | (.ok ys, σ2) => (.ok (.href σ2.next), (σ2.alloc (.hlist ys)).2)
      | some (.hdict kvs) =>
        match encodePairsH f kvs σ with
        | (.error e, σ2) => (.error e, σ2)
        | (.ok prs, σ2) =>
          if prs.all (fun p => hHashable σ2 p.1) then
            (.ok (.href σ2.next),
              (σ2.alloc (.hdict (prs.foldl (fun acc p => hSet acc p.1 p.2) []))).2)
          else
            match allocPairTuples prs σ2 with
            | (ys, σ3) => (.ok (.href σ3.next), (σ3.alloc (.hlist ys)).2)
      | some (.hobj _ fsv) =>
        match encodeFsH f fsv σ with
        | (.error e, σ2) => (.error e, σ2)
        | (.ok prs, σ2) => (.ok (.href σ2.next), (σ2.alloc (.hdict prs)).2)
termination_by f v σ => (f, 0)
decreasing_by all_goals (simp_wf; (try simp [Prod.lex_iff]); (try omega))

def encodeLH : Nat → List HVal → Store → (Except Err (List HVal)) × Store
  | _, [], σ => (.ok [], σ)
  | f, x :: xs, σ =>
    match encodeH f x σ with
    | (.error e, σ2) => (.error e, σ2)
    | (.ok y, σ2) =>
      match encodeLH f xs σ2 with
      | (.error e, σ3) => (.error e, σ3)
      | (.ok ys, σ3) => (.ok (y :: ys), σ3)
termination_by f xs σ => (f, xs.length + 1)
decreasing_by all_goals (simp_wf; (try simp [Prod.lex_iff]); (try omega))

def encodePairsH : Nat → List (HVal × HVal) → Store → (Except Err (List (HVal × HVal))) × Store
  | _, [], σ => (.ok [], σ)
  | f, (k, v) :: rest, σ =>
    match encodeH f k σ with
    | (.error e, σ2) => (.error e, σ2)
    | (.ok k2, σ2) =>
      match encodeH f v σ2 with
      | (.error e, σ3) => (.error e, σ3)
      | (.ok v2, σ3) =>
        match encodePairsH f rest σ3 with
        | (.error e, σ4) => (.error e, σ4)
        | (.ok ps, σ4) => (.ok ((k2, v2) :: ps), σ4)
termination_by f kvs σ => (f, kvs.length + 1)
decreasing_by all_goals (simp_wf; (try simp [Prod.lex_iff]); (try omega))

def encodeFsH : Nat → List (String × HVal) → Store → (Except Err (List (HVal × HVal))) × Store
  | _, [], σ => (.ok [], σ)
  | f, (n, v) :: rest, σ =>
    match encodeH f v σ with
    | (.error e, σ2) => (.error e, σ2)
    | (.ok v2, σ2) =>
      match encodeFsH f rest σ2 with
      | (.error e, σ3) => (.error e, σ3)
      | (.ok ps, σ3) => (.ok ((.hstr n, v2) :: ps), σ3)
termination_by f fs σ => (f, fs.length + 1)
decreasing_by all_goals (simp_wf; (try simp [Prod.lex_iff]); (try omega))

end

mutual

/-- `copy.deepcopy` on the heap: fresh copies all the way down, the source
only read (fueled against cycles; Python's memo for shared structure is
dropped — frame-irrelevant). -/
def deepcopyH : Nat → HVal → Store → (Except Err HVal) × Store
  | 0, _, σ => (.error (.exc "RecursionError" "maximum recursion depth exceeded"), σ)
  | f + 1, v, σ =>
    match v with
    | .href a =>
      match σ.mem a with
      | none => (.error (.exc "RuntimeError" "dangling reference"), σ)
      | some (.hlist xs) =>
        match deepcopyLH f xs σ with
        | (.error e, σ2) => (.error e, σ2)
        | (.ok ys, σ2) => (.ok (.href σ2.next), (σ2.alloc (.hlist ys)).2)
      | some (.htuple xs) =>
        match deepcopyLH f xs σ with
        | (.error e, σ2) => (.error e, σ2)
        | (.ok ys, σ2) => (.ok (.href σ2.next), (σ2.alloc (.htuple ys)).2)
      | some (.hset xs) =>
        match deepcopyLH f xs σ with
        | (.error e, σ2) => (.error e, σ2)
        | (.ok ys, σ2) => (.ok (.href σ2.next), (σ2.alloc (.hset ys)).2)
      | some (.hdict kvs) =>
        match deepcopyPairsH f kvs σ with
        | (.error e, σ2) => (.error e, σ2)
        | (.ok ps, σ2) => (.ok (.href σ2.next), (σ2.alloc (.hdict ps)).2)
      | some (.hobj c fs) =>
        match deepcopyFsH f fs σ with
        | (.error e, σ2) => (.error e, σ2)
        | (.ok fs2, σ2) => (.ok (.href σ2.next), (σ2.alloc (.hobj c fs2)).2)
    | w => (.ok w, σ)
termination_by f v σ => (f, 0)
decreasing_by all_goals (simp_wf; (try simp [Prod.lex_iff]); (try omega))

def deepcopyLH : Nat → List HVal → Store → (Except Err (List HVal)) × Store
  | _, [], σ => (.ok [], σ)
  | f, x :: xs, σ =>
    match deepcopyH f x σ with
    | (.error e, σ2) => (.error e, σ2)
    | (.ok y, σ2) =>
      match deepcopyLH f xs σ2 with
      | (.error e, σ3) => (.error e, σ3)
      | (.ok ys, σ3) => (.ok (y :: ys), σ3)
termination_by f xs σ => (f, xs.length + 1)
decreasing_by all_goals (simp_wf; (try simp [Prod.lex_iff]); (try omega))

def deepcopyPairsH : Nat → List (HVal × HVal) → Store →
    (Except Err (List (HVal × HVal))) × Store
  | _, [], σ => (.ok [], σ)
  | f, (k, v) :: rest, σ =>
    match deepcopyH f k σ with
    | (.error e, σ2) => (.error e, σ2)
    | (.ok k2, σ2) =>
      match deepcopyH f v σ2 with
      | (.error e, σ3) => (.error e, σ3)
      | (.ok v2, σ3) =>
        match deepcopyPairsH f rest σ3 with
        | (.error e, σ4) => (.error e, σ4)
        | (.ok ps, σ4) => (.ok ((k2, v2) :: ps), σ4)
termination_by f kvs σ => (f, kvs.length + 1)
decreasing_by all_goals (simp_wf; (try simp [Prod.lex_iff]); (try omega))

def deepcopyFsH : Nat → List (String × HVal) → Store →
    (Except Err (List (String × HVal))) × Store
  | _, [], σ => (.ok [], σ)
  | f, (n, v) :: rest, σ =>
    match deepcopyH f v σ with
    | (.error e, σ2) => (.error e, σ2)
    | (.ok v2, σ2) =>
      match deepcopyFsH f rest σ2 with
      | (.error e, σ3) => (.error e, σ3)
      | (.ok fs2, σ3) => (.ok ((n, v2) :: fs2), σ3)
termination_by f fs σ => (f, fs.length + 1)
decreasing_by all_goals (simp_wf; (try simp [Prod.lex_iff]); (try omega))

end

/-- Whether `pytree_merge` recurses for this source entry: the key is
present in the destination and both values are mappings; on success the
destination sub-dict address and source sub-pairs are returned. -/
def mergeTarget (σ : Store) (dkvs : List (HVal × HVal)) (k v : HVal) :
    Option (Nat × List (HVal × HVal)) :=
  match hDLookup dkvs k, v with
  | some (.href dA2), .href sA =>
    match σ.mem dA2, σ.mem sA with
    | some (.hdict _), some (.hdict skvs) => some (dA2, skvs)
    | _, _ => none
  | _, _ => none

/-- `pytree_merge(dest, src)` on the heap: iterate the source items,
recursing when both sides are mappings and otherwise writing a deep copy
of the source value into the destination node (the only mutation). -/
def mergeListH : Nat → Nat → List (HVal × HVal) → Store → (Except Err Unit) × Store
  | 0, _, _, σ => (.error (.exc "RecursionError" "maximum recursion depth exceeded"), σ)
  | _ + 1, _, [], σ => (.ok (), σ)
  | f + 1, dA, (k, v) :: rest, σ =>
    match σ.mem dA with
    | some (.hdict dkvs) =>
      match mergeTarget σ dkvs k v with
      | some (dA2, skvs) =>
        match mergeListH f dA2 skvs σ with
        | (.error e, σ2) => (.error e, σ2)
        | (.ok _, σ2) => mergeListH f dA rest σ2
      | none =>
        match deepcopyH f v σ with
        | (.error e, σ2) => (.error e, σ2)
        | (.ok cp, σ2) =>
          mergeListH f dA rest (σ2.set dA (.hdict (hSet dkvs k cp)))
    | _ => (.error (.exc "TypeError" "destination is not a mapping"), σ)

mutual

/-- `decode` / `get_decoding_fn` on the heap: same dispatch as `decodeTy`,
with the store threaded through and fuel against heap cycles. The only
mutation in the whole family is the field loop popping keys off the shallow
copy that `decode_dataclass` makes of its input dict. -/
def decodeH : Nat → Ty → HVal → Store → (Except Err HVal) × Store
  | 0, _, _, σ => (.error (.exc "RecursionError" "maximum recursion depth exceeded"), σ)
  | f + 1, t, v, σ =>
    match t with
    | .tstr => (.ok (.hstr (hStr σ f v)), σ)
    | .tint => (hIntFn σ v, σ)
    | .tbool => (.ok (.hbool (hTruth σ v)), σ)
    | .trec rn fs => decodeRecH f rn fs v σ
    | .tany => (.ok v, σ)
    | .tdict kt vt => decodeDictH f kt vt v σ
    | .tset t2 => decodeSetH f t2 v σ
    | .ttuple ts => decodeTupleFixedH f ts v σ
    | .ttupleEll t2 => decodeTupleVariadicH f t2 v σ
    | .tlist t2 =>
      match decodeListH f t2 v σ with
      | (.error e, σ2) => (.error e, σ2)
      | (.ok ys, σ2) => (.ok (.href σ2.next), (σ2.alloc (.hlist ys)).2)
    | .tunion ms => decodeUnionGoH f (ms.any isTNone) ms v σ
    | .tenum en ms =>
      match v with
      | .hstr s2 =>
        if ms.contains s2 then (.ok (.henum en s2), σ)
        else (.error (.exc "KeyError" s2), σ)
      | _ => (.error (.exc "KeyError" (hStr σ f v)), σ)
    | .tnone =>
      (.error (.parsing "No decoding function for type NoneType, consider using haven.decode.register"), σ)
    | .tcomp _ =>
      (.error (.parsing "No decoding function for type Component, consider using haven.decode.register"), σ)
termination_by f t v σ => f
decreasing_by all_goals (simp_wf; (try omega))

/-- `decode_dataclass` on the heap: shallow-copy the input dict into a
fresh node, run the field loop popping from that copy, reject leftovers,
then allocate the instance. -/
def decodeRecH : Nat → String → List Fld → HVal → Store → (Except Err HVal) × Store
  | 0, _, _, _, σ => (.error (.exc "RecursionError" "maximum recursion depth exceeded"), σ)
  | f + 1, rn, fs, v, σ =>
    match v with
    | .href a =>
      match σ.mem a with
      | some (.hdict kvs) =>
        match decodeFldsGoH f rn fs σ.next [] [] (σ.alloc (.hdict kvs)).2 with
        | (.error e, σ2) => (.error e, σ2)
        | (.ok (ia, na), σ2) =>
          match σ2.mem σ.next with
          | some (.hdict extra) =>
            if extra.isEmpty then
              match constructFldsH rn fs ia na with
              | .error e => (.error e, σ2)
              | .ok outFs => (.ok (.href σ2.next), (σ2.alloc (.hobj rn outFs)).2)
            else
              (.error (.exc "Exception" ("The fields " ++
                hRepr σ2 f (.href σ.next) ++ " do not belong to the class")), σ2)
          | _ => (.error (.exc "RuntimeError" "lost working dict"), σ2)
      | _ =>
        (.error (.exc "TypeError" ("cannot decode a dataclass from the non-dict value " ++
          hRepr σ f v)), σ)
    | _ =>
      (.error (.exc "TypeError" ("cannot decode a dataclass from the non-dict value " ++
        hRepr σ f v)), σ)
termination_by f rn fs v σ => f
decreasing_by all_goals (simp_wf; (try omega))

/-- The field loop of `decode_dataclass` on the heap, popping each
consumed key off the working copy (the only `Store.set` in the decode
family); choice metadata is outside the heap fragment (its resolution
reuses this same record path and adds no storage primitive). -/
def decodeFldsGoH : Nat → String → List Fld → Nat →
    List (String × HVal) → List (String × HVal) → Store →
    (Except Err (List (String × HVal) × List (String × HVal))) × Store
  | 0, _, _, _, _, _, σ => (.error (.exc "RecursionError" "maximum recursion depth exceeded"), σ)
  | _ + 1, _, [], _, initArgs, nonInitArgs, σ => (.ok (initArgs, nonInitArgs), σ)
  | f + 1, rn, .mk name fty _ finit fmeta :: rest, objA, initArgs, nonInitArgs, σ =>
    match fmeta with
    | some _ => (.error (.parsing "choice fields are outside the heap fragment"), σ)
    | none =>
      match σ.mem objA with
      | some (.hdict kvs) =>
        match hDLookup kvs (.hstr name) with
        | none => decodeFldsGoH f rn rest objA initArgs nonInitArgs σ
        | some raw =>
          match (σ.set objA (.hdict (hRemove kvs (.hstr name))) : Store) with
          | σ1 =>
            match decodeH f fty raw σ1 with
            | (.ok fv, σ2) =>
              if finit then
                decodeFldsGoH f rn rest objA (initArgs ++ [(name, fv)]) nonInitArgs σ2
              else
                decodeFldsGoH f rn rest objA initArgs (nonInitArgs ++ [(name, fv)]) σ2
            | (.error e, σ2) =>
              if e.isParsing then (.error e, σ2)
              else
                (.error (.parsing ("Failed when parsing value='" ++ hStr σ2 f raw ++
                  "' into field \"" ++ rn ++ "." ++ name ++
                  "\".\n\tUnderlying error is \"" ++ formatErr e ++ "\"")), σ2)
      | _ => (.error (.exc "RuntimeError" "lost working dict"), σ)
termination_by f rn fs objA ia na σ => f
decreasing_by all_goals (simp_wf; (try omega))

/-- `_decode_list` on the heap: a fresh element list for a list input. -/
def decodeListH : Nat → Ty → HVal → Store → (Except Err (List HVal)) × Store
  | 0, _, _, σ => (.error (.exc "RecursionError" "maximum recursion depth exceeded"), σ)
  | f + 1, t, v, σ =>
    match v with
    | .href a =>
      match σ.mem a with
      | some (.hlist xs) => decodeEachH f t xs σ
      | _ => (.error (.parsing ("The given value='" ++ hStr σ f v ++ "' is not of a valid input")), σ)
    | _ => (.error (.parsing ("The given value='" ++ hStr σ f v ++ "' is not of a valid input")), σ)
termination_by f t v σ => f
decreasing_by all_goals (simp_wf; (try omega))

def decodeEachH : Nat → Ty → List HVal → Store → (Except Err (List HVal)) × Store
  | 0, _, _, σ => (.error (.exc "RecursionError" "maximum recursion depth exceeded"), σ)
  | _ + 1, _, [], σ => (.ok [], σ)
  | f + 1, t, x :: rest, σ =>
    match decodeH f t x σ with
    | (.error e, σ2) => (.error e, σ2)
    | (.ok y, σ2) =>
      match decodeEachH f t rest σ2 with
      | (.error e, σ3) => (.error e, σ3)
      | (.ok ys, σ3) => (.ok (y :: ys), σ3)
termination_by f t xs σ => f
decreasing_by all_goals (simp_wf; (try omega))

/-- `decode_set` on the heap: decode as a list, collapse into a fresh set
node. -/
def decodeSetH : Nat → Ty → HVal → Store → (Except Err HVal) × Store
  | 0, _, _, σ => (.error (.exc "RecursionError" "maximum recursion depth exceeded"), σ)
  | f + 1, t, v, σ =>
    match decodeListH f t v σ with
    | (.error e, σ2) => (.error e, σ2)
    | (.ok ys, σ2) => (.ok (.href σ2.next), (σ2.alloc (.hset (hDedup ys))).2)
termination_by f t v σ => f
decreasing_by all_goals (simp_wf; (try omega))

/-- `_decode_dict` on the heap: read the items, decode them, and build a
fresh dict node (Python allocates `{}` first and then writes only into
that fresh node — collected here and allocated at the end). -/
def decodeDictH : Nat → Ty → Ty → HVal → Store → (Except Err HVal) × Store
  | 0, _, _, _, σ => (.error (.exc "RecursionError" "maximum recursion depth exceeded"), σ)
  | f + 1, kt, vt, v, σ =>
    match v with
    | .href a =>
      match σ.mem a with
      | some (.hlist items) =>
        match hUnpackAll σ items with
        | .error e => (.error e, σ)
        | .ok prs => decodeDictGoH f kt vt prs [] σ
      | some (.hdict kvs) => decodeDictGoH f kt vt kvs [] σ
      | _ => (.error (.exc "AttributeError" ("'" ++ hTypeName σ v ++ "' object has no attribute 'items'")), σ)
    | _ => (.error (.exc "AttributeError" ("'" ++ hTypeName σ v ++ "' object has no attribute 'items'")), σ)
termination_by f kt vt v σ => f
decreasing_by all_goals (simp_wf; (try omega))

def decodeDictGoH : Nat → Ty → Ty → List (HVal × HVal) → List (HVal × HVal) → Store →
    (Except Err HVal) × Store
  | 0, _, _, _, _, σ => (.error (.exc "RecursionError" "maximum recursion depth exceeded"), σ)
  | _ + 1, _, _, [], acc, σ => (.ok (.href σ.next), (σ.alloc (.hdict acc)).2)
  | f + 1, kt, vt, (k, v) :: rest, acc, σ =>
    match decodeH f kt k σ with
    | (.error e, σ2) => (.error e, σ2)
    | (.ok k2, σ2) =>
      match decodeH f vt v σ2 with
      | (.error e, σ3) => (.error e, σ3)
      | (.ok v2, σ3) => decodeDictGoH f kt vt rest (hSet acc k2 v2) σ3
termination_by f kt vt prs acc σ => f
decreasing_by all_goals (simp_wf; (try omega))

/-- `decode_tuple` (fixed arity) on the heap: iterate, check the arity,
decode positionally, allocate a fresh tuple node. -/
def decodeTupleFixedH : Nat → List Ty → HVal → Store → (Except Err HVal) × Store
  | 0, _, _, σ => (.error (.exc "RecursionError" "maximum recursion depth exceeded"), σ)
  | f + 1, ts, v, σ =>
    match v with
    | .hnone => (.error (.exc "TypeError" "Value must not be None for conversion to a tuple"), σ)
    | _ =>
      match hIterate σ v with
      | .error e => (.error e, σ)
      | .ok items =>
        match ts with
        | [] => (.ok (.href σ.next), (σ.alloc (.htuple items)).2)
        | t0 :: tsRest =>
          if items.length ≠ (t0 :: tsRest).length then
            (.error (.parsing ("Trying to decode " ++ toString items.length ++
              " values for a predfined " ++ toString (t0 :: tsRest).length ++ "-Tuple")), σ)
          else
            match decodeZipH f (t0 :: tsRest) items σ with
            | (.error e, σ2) => (.error e, σ2)
            | (.ok ys, σ2) => (.ok (.href σ2.next), (σ2.alloc (.htuple ys)).2)
termination_by f ts v σ => f
decreasing_by all_goals (simp_wf; (try omega))

def decodeZipH : Nat → List Ty → List HVal → Store → (Except Err (List HVal)) × Store
  | 0, _, _, σ => (.error (.exc "RecursionError" "maximum recursion depth exceeded"), σ)
  | _ + 1, [], _, σ => (.ok [], σ)
  | _ + 1, _ :: _, [], σ => (.ok [], σ)
  | f + 1, t :: ts, x :: xs, σ =>
    match decodeH f t x σ with
    | (.error e, σ2) => (.error e, σ2)
    | (.ok y, σ2) =>
      match decodeZipH f ts xs σ2 with
      | (.error e, σ3) => (.error e, σ3)
      | (.ok ys, σ3) => (.ok (y :: ys), σ3)
termination_by f ts xs σ => f
decreasing_by all_goals (simp_wf; (try omega))

/-- `decode_tuple` for `tuple[t, ...]` on the heap. -/
def decodeTupleVariadicH : Nat → Ty → HVal → Store → (Except Err HVal) × Store
  | 0, _, _, σ => (.error (.exc "RecursionError" "maximum recursion depth exceeded"), σ)
  | f + 1, t, v, σ =>
    match v with
    | .hnone => (.error (.exc "TypeError" "Value must not be None for conversion to a tuple"), σ)
    | _ =>
      match hIterate σ v with
      | .error e => (.error e, σ)
      | .ok items =>
        match decodeEachH f t items σ with
        | (.error e, σ2) => (.error e, σ2)
        | (.ok ys, σ2) => (.ok (.href σ2.next), (σ2.alloc (.htuple ys)).2)
termination_by f t v σ => f
decreasing_by all_goals (simp_wf; (try omega))

/-- `decode_optional` on the heap. -/
def decodeOptionalH : Nat → Ty → HVal → Store → (Except Err HVal) × Store
  | 0, _, _, σ => (.error (.exc "RecursionError" "maximum recursion depth exceeded"), σ)
  | f + 1, t, v, σ =>
    match v with
    | .hnone => (.ok .hnone, σ)
    | _ => decodeH f t v σ
termination_by f t v σ => f
decreasing_by all_goals (simp_wf; (try omega))

/-- `decode_union` + `try_functions` on the heap: attempts run in order,
allocations from failed attempts persist (Python catches the exception and
moves on). -/
def decodeUnionGoH : Nat → Bool → List Ty → HVal → Store → (Except Err HVal) × Store
  | 0, _, _, _, σ => (.error (.exc "RecursionError" "maximum recursion depth exceeded"), σ)
  | f + 1, optional, ts, v, σ =>
    match ts with
    | [] => (.error (.parsing ("No valid parsing for value " ++ hStr σ f v)), σ)
    | t :: rest =>
      if isTNone t then decodeUnionGoH f optional rest v σ
      else
        match (if optional then decodeOptionalH f t v σ else decodeH f t v σ) with
        | (.ok r, σ2) => (.ok r, σ2)
        | (.error _, σ2) => decodeUnionGoH f optional rest v σ2
termination_by f optional ts v σ => f
decreasing_by all_goals (simp_wf; (try omega))

end

mutual

/-- Pure readback of a heap value as a `PyVal` tree (fueled against
cycles) — the observation by which "the input is unchanged" is stated. -/
def readback : Store → Nat → HVal → Option PyVal
  | _, _, .hnone => some .vnone
  | _, _, .hbool b => some (.vbool b)
  | _, _, .hint n => some (.vint n)
  | _, _, .hstr s => some (.vstr s)
  | _, _, .henum e m => some (.venum e m)
  | _, 0, .href _ => none
  | σ, f + 1, .href a =>
    match σ.mem a with
    | none => none
    | some (.hlist xs) => (readbackL σ f xs).map .vlist
    | some (.htuple xs) => (readbackL σ f xs).map .vtuple
    | some (.hset xs) => (readbackL σ f xs).map .vset
    | some (.hdict kvs) => (readbackPairs σ f kvs).map .vdict
    | some (.hobj c fs) => (readbackFs σ f fs).map (.vobj c)
termination_by σ f v => (f, 0)
decreasing_by all_goals (simp_wf; (try simp [Prod.lex_iff]); (try omega))

def readbackL : Store → Nat → List HVal → Option (List PyVal)
  | _, _, [] => some []
  | σ, f, x :: xs =>
    match readback σ f x with
    | none => none
    | some y =>
      match readbackL σ f xs with
      | none => none
      | some ys => some (y :: ys)
termination_by σ f xs => (f, xs.length + 1)
decreasing_by all_goals (simp_wf; (try simp [Prod.lex_iff]); (try omega))

def readbackPairs : Store → Nat → List (HVal × HVal) → Option (List (PyVal × PyVal))
  | _, _, [] => some []
  | σ, f, (k, v) :: rest =>
    match readback σ f k with
    | none => none
    | some k2 =>
      match readback σ f v with
      | none => none
      | some v2 =>
        match readbackPairs σ f rest with
        | none => none
        | some ps => some ((k2, v2) :: ps)
termination_by σ f kvs => (f, kvs.length + 1)
decreasing_by all_goals (simp_wf; (try simp [Prod.lex_iff]); (try omega))

def readbackFs : Store → Nat → List (String × HVal) → Option (List (String × PyVal))
  | _, _, [] => some []
  | σ, f, (n, v) :: rest =>
    match readback σ f v with
    | none => none
    | some v2 =>
      match readbackFs σ f rest with
      | none => none
      | some fs2 => some ((n, v2) :: fs2)
termination_by σ f fs => (f, fs.length + 1)
decreasing_by all_goals (simp_wf; (try simp [Prod.lex_iff]); (try omega))

end

/-- `haven.api.update` on the heap: encode the instance into a fresh
pytree, merge the overrides into that fresh tree, decode a new instance. -/
def updateH (fuel : Nat) (cls : Ty) (dc ov : HVal) (σ : Store) :
    (Except Err HVal) × Store :=
  match encodeH fuel dc σ with
  | (.error e, σ1) => (.error e, σ1)
  | (.ok p, σ1) =>
    match p, ov with
    | .href pA, .href oA =>
      match σ1.mem oA with
      | some (.hdict skvs) =>
        match mergeListH fuel pA skvs σ1 with
        | (.error e, σ2) => (.error e, σ2)
        | (.ok _, σ2) => decodeH fuel cls p σ2
      | _ => (.error (.exc "AttributeError" "overrides have no .items()"), σ1)
    | _, _ => (.error (.exc "TypeError" "pytree_merge expects mappings"), σ1)

/-- Values reachable one step through dict entries of nodes above the
watermark are above it too (the invariant `pytree_merge` needs of its
destination: it recurses only through dict values). -/
def MergeInv (σ : Store) (w : Nat) : Prop :=
  ∀ a, w ≤ a → ∀ kvs, σ.mem a = some (.hdict kvs) → ∀ kv ∈ kvs, refGE w kv.2

/-- The frame relation, allowing one designated (freshly allocated)
address to change. -/
def FrameEx (x : Nat) (σ σ2 : Store) : Prop :=
  σ.next ≤ σ2.next ∧ ∀ a, a < σ.next → a ≠ x → σ2.mem a = σ.mem a

theorem frame_refl {σ : Store} : Frame σ σ :=
  ⟨Nat.le_refl _, fun _ _ => Eq.refl _⟩

theorem frame_trans {σ1 σ2 σ3 : Store} (h1 : Frame σ1 σ2) (h2 : Frame σ2 σ3) :
    Frame σ1 σ3 :=
  ⟨Nat.le_trans h1.1 h2.1, fun a ha => by
    rw [h2.2 a (Nat.lt_of_lt_of_le ha h1.1), h1.2 a ha]⟩

theorem Frame.alloc {σ : Store} {n : HNode} : Frame σ (σ.alloc n).2 := by
  refine ⟨by simp [Store.alloc], fun a ha => ?_⟩
  simp only [Store.alloc]
  rw [if_neg (by omega)]

theorem frameEx_refl {x : Nat} {σ : Store} : FrameEx x σ σ :=
  ⟨Nat.le_refl _, fun _ _ _ => Eq.refl _⟩

theorem FrameEx.of_frame {x : Nat} {σ σ2 : Store} (h : Frame σ σ2) : FrameEx x σ σ2 :=
  ⟨h.1, fun a ha _ => h.2 a ha⟩

theorem frameEx_trans {x : Nat} {σ1 σ2 σ3 : Store} (h1 : FrameEx x σ1 σ2)
    (h2 : FrameEx x σ2 σ3) : FrameEx x σ1 σ3 :=
  ⟨Nat.le_trans h1.1 h2.1, fun a ha hx => by
    rw [h2.2 a (Nat.lt_of_lt_of_le ha h1.1) hx, h1.2 a ha hx]⟩

theorem FrameEx.set_self {x : Nat} {σ : Store} {n : HNode} : FrameEx x σ (σ.set x n) :=
  ⟨Nat.le_refl _, fun a _ hx => by simp only [Store.set]; rw [if_neg hx]⟩

theorem frame_of_frameEx {x : Nat} {σ σ2 : Store} (hx : σ.next ≤ x)
    (h : FrameEx x σ σ2) : Frame σ σ2 :=
  ⟨h.1, fun a ha => h.2 a ha (by omega)⟩

theorem refGE_mono {w w2 : Nat} {v : HVal} (hle : w ≤ w2) (h : refGE w2 v) : refGE w v := by
  match v with
  | .href a => exact Nat.le_trans hle h
  | .hnone | .hbool _ | .hint _ | .hstr _ | .henum _ _ => trivial

theorem MergeInv_alloc {σ : Store} {w : Nat} {n : HNode} (hw : w ≤ σ.next)
    (hσ : MergeInv σ w) (hn : ∀ kvs, n = .hdict kvs → ∀ kv ∈ kvs, refGE w kv.2) :
    MergeInv (σ.alloc n).2 w := by
  intro a ha kvs hmem kv hkv
  simp only [Store.alloc] at hmem
  by_cases hax : a = σ.next
  · rw [if_pos hax] at hmem
    cases hmem
    exact hn kvs rfl kv hkv
  · rw [if_neg hax] at hmem
    exact hσ a ha kvs hmem kv hkv

theorem MergeInv_set {σ : Store} {w x : Nat} {n : HNode}
    (hσ : MergeInv σ w) (hn : ∀ kvs, n = .hdict kvs → ∀ kv ∈ kvs, refGE w kv.2) :
    MergeInv (σ.set x n) w := by
  intro a ha kvs hmem kv hkv
  simp only [Store.set] at hmem
  by_cases hax : a = x
  · rw [if_pos hax] at hmem
    cases hmem
    exact hn kvs rfl kv hkv
  · rw [if_neg hax] at hmem
    exact hσ a ha kvs hmem kv hkv

theorem hSet_vals : ∀ {kvs : List (HVal × HVal)} {k v : HVal} {kv : HVal × HVal},
    kv ∈ hSet kvs k v → kv.2 = v ∨ ∃ kv2 ∈ kvs, kv.2 = kv2.2 := by
  intro kvs
  induction kvs with
  | nil =>
    intro k v kv h
    rw [hSet] at h
    simp at h
    left
    rw [h]
  | cons p rest ih =>
    intro k v kv h
    obtain ⟨k2, v2⟩ := p
    rw [hSet] at h
    by_cases he : hEqImm k2 k = true
    · rw [if_pos he] at h
      rcases List.mem_cons.mp h with rfl | h2
      · left; rfl
      · right; exact ⟨kv, List.mem_cons_of_mem _ h2, rfl⟩
    · rw [if_neg he] at h
      rcases List.mem_cons.mp h with rfl | h2
      · right; exact ⟨(k2, v2), by simp, rfl⟩
      · rcases ih h2 with hv | ⟨kv2, hkv2, hv⟩
        · left; exact hv
        · right; exact ⟨kv2, List.mem_cons_of_mem _ hkv2, hv⟩

theorem foldl_hSet_vals :
    ∀ {prs acc : List (HVal × HVal)} {kv : HVal × HVal},
    kv ∈ prs.foldl (fun a p => hSet a p.1 p.2) acc →
    (∃ kv2 ∈ acc, kv.2 = kv2.2) ∨ (∃ p ∈ prs, kv.2 = p.2) := by
  intro prs
  induction prs with
  | nil => intro acc kv h; simp at h; exact .inl ⟨kv, h, rfl⟩
  | cons p rest ih =>
    intro acc kv h
    rw [List.foldl_cons] at h
    rcases ih h with ⟨kv2, hkv2, hv⟩ | ⟨p2, hp2, hv⟩
    · rcases hSet_vals hkv2 with hv2 | ⟨kv3, hkv3, hv2⟩
      · right
        exact ⟨p, by simp, by rw [hv, hv2]⟩
      · left
        exact ⟨kv3, hkv3, by rw [hv, hv2]⟩
    · right
      exact ⟨p2, List.mem_cons_of_mem _ hp2, hv⟩

theorem allocPairTuples_frame : ∀ (prs : List (HVal × HVal)) (σ : Store),
    Frame σ (allocPairTuples prs σ).2 ∧
    (∀ w, w ≤ σ.next → MergeInv σ w → MergeInv (allocPairTuples prs σ).2 w) := by
  intro prs
  induction prs with
  | nil => intro σ; exact ⟨frame_refl, fun _ _ h => h⟩
  | cons p rest ih =>
    intro σ
    obtain ⟨k, v⟩ := p
    rw [allocPairTuples]
    cases hr : allocPairTuples rest (σ.alloc (.htuple [k, v])).2 with
    | mk ys σ3 =>
      have h2 := ih (σ.alloc (.htuple [k, v])).2
      rw [hr] at h2
      constructor
      · exact frame_trans Frame.alloc h2.1
      · intro w hw hinv
        refine h2.2 w ?_ ?_
        · exact Nat.le_trans hw Frame.alloc.1
        · exact MergeInv_alloc hw hinv (fun kvs h => by cases h)

/-- The induction package for `encodeH`: frame, freshness of the result,
and preservation of the merge invariant. -/
def EncPred (f : Nat) : Prop :=
  ∀ v σ, Frame σ (encodeH f v σ).2
    ∧ (∀ r, (encodeH f v σ).1 = .ok r → refGE σ.next r)
    ∧ (∀ w, w ≤ σ.next → MergeInv σ w → MergeInv (encodeH f v σ).2 w)

theorem encodeLH_frame_of {f : Nat} (hE : EncPred f) :
    ∀ xs σ, Frame σ (encodeLH f xs σ).2
      ∧ (∀ ys, (encodeLH f xs σ).1 = .ok ys → ∀ y ∈ ys, refGE σ.next y)
      ∧ (∀ w, w ≤ σ.next → MergeInv σ w → MergeInv (encodeLH f xs σ).2 w) := by
  intro xs
  induction xs with
  | nil =>
    intro σ
    simp only [encodeLH]
    refine ⟨frame_refl, ?_, fun _ _ h => h⟩
    intro ys h
    cases h
    intro y hy
    simp at hy
  | cons x rest ih =>
    intro σ
    rcases hx : encodeH f x σ with ⟨rx, σ2⟩
    have hEx := hE x σ
    rw [hx] at hEx
    cases rx with
    | error e =>
      simp only [encodeLH, hx]
      refine ⟨hEx.1, ?_, fun w hw hm => hEx.2.2 w hw hm⟩
      intro ys h
      cases h
    | ok y =>
      rcases hr : encodeLH f rest σ2 with ⟨rr, σ3⟩
      have hih := ih σ2
      rw [hr] at hih
      cases rr with
      | error e =>
        simp only [encodeLH, hx, hr]
        refine ⟨frame_trans hEx.1 hih.1, ?_, ?_⟩
        · intro ys h
          cases h
        · intro w hw hm
          exact hih.2.2 w (Nat.le_trans hw hEx.1.1) (hEx.2.2 w hw hm)
      | ok ys =>
        simp only [encodeLH, hx, hr]
        refine ⟨frame_trans hEx.1 hih.1, ?_, ?_⟩
        · intro zs h
          cases h
          intro z hz
          rcases List.mem_cons.mp hz with rfl | hz2
          · exact hEx.2.1 z rfl
          · exact refGE_mono hEx.1.1 (hih.2.1 ys rfl z hz2)
        · intro w hw hm
          exact hih.2.2 w (Nat.le_trans hw hEx.1.1) (hEx.2.2 w hw hm)

theorem encodePairsH_frame_of {f : Nat} (hE : EncPred f) :
    ∀ kvs σ, Frame σ (encodePairsH f kvs σ).2
      ∧ (∀ prs, (encodePairsH f kvs σ).1 = .ok prs →
          ∀ p ∈ prs, refGE σ.next p.1 ∧ refGE σ.next p.2)
      ∧ (∀ w, w ≤ σ.next → MergeInv σ w → MergeInv (encodePairsH f kvs σ).2 w) := by
  intro kvs
  induction kvs with
  | nil =>
    intro σ
    simp only [encodePairsH]
    refine ⟨frame_refl, ?_, fun _ _ h => h⟩
    intro prs h
    cases h
    intro p hp
    simp at hp
  | cons q rest ih =>
    intro σ
    obtain ⟨k, v⟩ := q
    rcases hk : encodeH f k σ with ⟨rk, σ2⟩
    have hEk := hE k σ
    rw [hk] at hEk
    cases rk with
    | error e =>
      simp only [encodePairsH, hk]
      refine ⟨hEk.1, ?_, fun w hw hm => hEk.2.2 w hw hm⟩
      intro prs h
      cases h
    | ok k2 =>
      rcases hv : encodeH f v σ2 with ⟨rv, σ3⟩
      have hEv := hE v σ2
      rw [hv] at hEv
      cases rv with
      | error e =>
        simp only [encodePairsH, hk, hv]
        refine ⟨frame_trans hEk.1 hEv.1, ?_, ?_⟩
        · intro prs h
          cases h
        · intro w hw hm
          exact hEv.2.2 w (Nat.le_trans hw hEk.1.1) (hEk.2.2 w hw hm)
      | ok v2 =>
        rcases hr : encodePairsH f rest σ3 with ⟨rr, σ4⟩
        have hih := ih σ3
        rw [hr] at hih
        cases rr with
        | error e =>
          simp only [encodePairsH, hk, hv, hr]
          refine ⟨frame_trans hEk.1 (frame_trans hEv.1 hih.1), ?_, ?_⟩
          · intro prs h
            cases h
          · intro w hw hm
            exact hih.2.2 w (Nat.le_trans hw (Nat.le_trans hEk.1.1 hEv.1.1))
              (hEv.2.2 w (Nat.le_trans hw hEk.1.1) (hEk.2.2 w hw hm))
        | ok ps =>
          simp only [encodePairsH, hk, hv, hr]
          refine ⟨frame_trans hEk.1 (frame_trans hEv.1 hih.1), ?_, ?_⟩
          · intro prs h
            cases h
            intro p hp
            rcases List.mem_cons.mp hp with rfl | hp2
            · exact ⟨hEk.2.1 k2 rfl, refGE_mono hEk.1.1 (hEv.2.1 v2 rfl)⟩
            · have := hih.2.1 ps rfl p hp2
              exact ⟨refGE_mono (Nat.le_trans hEk.1.1 hEv.1.1) this.1,
                refGE_mono (Nat.le_trans hEk.1.1 hEv.1.1) this.2⟩
          · intro w hw hm
            exact hih.2.2 w (Nat.le_trans hw (Nat.le_trans hEk.1.1 hEv.1.1))
              (hEv.2.2 w (Nat.le_trans hw hEk.1.1) (hEk.2.2 w hw hm))

theorem encodeFsH_frame_of {f : Nat} (hE : EncPred f) :
    ∀ fs σ, Frame σ (encodeFsH f fs σ).2
      ∧ (∀ prs, (encodeFsH f fs σ).1 = .ok prs → ∀ p ∈ prs, refGE σ.next p.2)
      ∧ (∀ w, w ≤ σ.next → MergeInv σ w → MergeInv (encodeFsH f fs σ).2 w) := by
  intro fs
  induction fs with
  | nil =>
    intro σ
    simp only [encodeFsH]
    refine ⟨frame_refl, ?_, fun _ _ h => h⟩
    intro prs h
    cases h
    intro p hp
    simp at hp
  | cons q rest ih =>
    intro σ
    obtain ⟨n, v⟩ := q
    rcases hv : encodeH f v σ with ⟨rv, σ2⟩
    have hEv := hE v σ
    rw [hv] at hEv
    cases rv with
    | error e =>
      simp only [encodeFsH, hv]
      refine ⟨hEv.1, ?_, fun w hw hm => hEv.2.2 w hw hm⟩
      intro prs h
      cases h
    | ok v2 =>
      rcases hr : encodeFsH f rest σ2 with ⟨rr, σ3⟩
      have hih := ih σ2
      rw [hr] at hih
      cases rr with
      | error e =>
        simp only [encodeFsH, hv, hr]
        refine ⟨frame_trans hEv.1 hih.1, ?_, ?_⟩
        · intro prs h
          cases h
        · intro w hw hm
          exact hih.2.2 w (Nat.le_trans hw hEv.1.1) (hEv.2.2 w hw hm)
      | ok ps =>
        simp only [encodeFsH, hv, hr]
        refine ⟨frame_trans hEv.1 hih.1, ?_, ?_⟩
        · intro prs h
          cases h
          intro p hp
          rcases List.mem_cons.mp hp with rfl | hp2
          · exact hEv.2.1 v2 rfl
          · exact refGE_mono hEv.1.1 (hih.2.1 ps rfl p hp2)
        · intro w hw hm
          exact hih.2.2 w (Nat.le_trans hw hEv.1.1) (hEv.2.2 w hw hm)

theorem encodeH_frame : ∀ f, EncPred f := by
  intro f
  induction f with
  | zero =>
    intro v σ
    simp only [encodeH]
    refine ⟨frame_refl, ?_, fun _ _ h => h⟩
    intro r h
    cases h
  | succ f ih =>
    intro v σ
    match v with
    | .hnone =>
      simp only [encodeH]
      exact ⟨frame_refl, fun r h => by cases h; trivial, fun _ _ h => h⟩
    | .hbool b =>
      simp only [encodeH]
      exact ⟨frame_refl, fun r h => by cases h; trivial, fun _ _ h => h⟩
    | .hint n =>
      simp only [encodeH]
      exact ⟨frame_refl, fun r h => by cases h; trivial, fun _ _ h => h⟩
    | .hstr st =>
      simp only [encodeH]
      exact ⟨frame_refl, fun r h => by cases h; trivial, fun _ _ h => h⟩
    | .henum en m =>
      simp only [encodeH]
      exact ⟨frame_refl, fun r h => by cases h; trivial, fun _ _ h => h⟩
    | .href a =>
      cases hmem : σ.mem a with
      | none =>
        simp only [encodeH, hmem]
        refine ⟨frame_refl, ?_, fun _ _ h => h⟩
        intro r h
        cases h
      | some node =>
        cases node with
        | hlist xs =>
          rcases hl : encodeLH f xs σ with ⟨rl, σ2⟩
          have hL := encodeLH_frame_of ih xs σ
          rw [hl] at hL
          cases rl with
          | error e =>
            simp only [encodeH, hmem, hl]
            refine ⟨hL.1, ?_, fun w hw hm => hL.2.2 w hw hm⟩
            intro r h
            cases h
          | ok ys =>
            simp only [encodeH, hmem, hl]
            refine ⟨frame_trans hL.1 Frame.alloc, ?_, ?_⟩
            · intro r h
              cases h
              exact hL.1.1
            · intro w hw hm
              refine MergeInv_alloc (Nat.le_trans hw hL.1.1) (hL.2.2 w hw hm) ?_
              intro kvs2 h
              cases h
        | htuple xs =>
          rcases hl : encodeLH f xs σ with ⟨rl, σ2⟩
          have hL := encodeLH_frame_of ih xs σ
          rw [hl] at hL
          cases rl with
          | error e =>
            simp only [encodeH, hmem, hl]
            refine ⟨hL.1, ?_, fun w hw hm => hL.2.2 w hw hm⟩
            intro r h
            cases h
          | ok ys =>
            simp only [encodeH, hmem, hl]
            refine ⟨frame_trans hL.1 Frame.alloc, ?_, ?_⟩
            · intro r h
              cases h
              exact hL.1.1
            · intro w hw hm
              refine MergeInv_alloc (Nat.le_trans hw hL.1.1) (hL.2.2 w hw hm) ?_
              intro kvs2 h
              cases h
        | hset xs =>
          rcases hl : encodeLH f xs σ with ⟨rl, σ2⟩
          have hL := encodeLH_frame_of ih xs σ
          rw [hl] at hL
          cases rl with
          | error e =>
            simp only [encodeH, hmem, hl]
            refine ⟨hL.1, ?_, fun w hw hm => hL.2.2 w hw hm⟩
            intro r h
            cases h
          | ok ys =>
            simp only [encodeH, hmem, hl]
            refine ⟨frame_trans hL.1 Frame.alloc, ?_, ?_⟩
            · intro r h
              cases h
              exact hL.1.1
            · intro w hw hm
              refine MergeInv_alloc (Nat.le_trans hw hL.1.1) (hL.2.2 w hw hm) ?_
              intro kvs2 h
              cases h
        | hdict kvs =>
          rcases hp : encodePairsH f kvs σ with ⟨rp, σ2⟩
          have hP := encodePairsH_frame_of ih kvs σ
          rw [hp] at hP
          cases rp with
          | error e =>
            simp only [encodeH, hmem, hp]
            refine ⟨hP.1, ?_, fun w hw hm => hP.2.2 w hw hm⟩
            intro r h
            cases h
          | ok prs =>
            cases hall : prs.all (fun p => hHashable σ2 p.1) with
            | true =>
              simp only [encodeH, hmem, hp, hall, if_true]
              refine ⟨frame_trans hP.1 Frame.alloc, ?_, ?_⟩
              · intro r h
                cases h
                exact hP.1.1
              · intro w hw hm
                refine MergeInv_alloc (Nat.le_trans hw hP.1.1) (hP.2.2 w hw hm) ?_
                intro kvs2 h kv hkv
                cases h
                rcases foldl_hSet_vals hkv with ⟨kv2, hkv2, _⟩ | ⟨p, hp2, hv⟩
                · simp at hkv2
                · rw [hv]
                  exact refGE_mono hw (hP.2.1 prs rfl p hp2).2
            | false =>
              rcases hapt : allocPairTuples prs σ2 with ⟨ys, σ3⟩
              have hA := allocPairTuples_frame prs σ2
              rw [hapt] at hA
              simp only [encodeH, hmem, hp, hall, Bool.false_eq_true, if_false, hapt]
              refine ⟨frame_trans hP.1 (frame_trans hA.1 Frame.alloc), ?_, ?_⟩
              · intro r h
                cases h
                exact Nat.le_trans hP.1.1 hA.1.1
              · intro w hw hm
                refine MergeInv_alloc (Nat.le_trans hw (Nat.le_trans hP.1.1 hA.1.1))
                  (hA.2 w (Nat.le_trans hw hP.1.1) (hP.2.2 w hw hm)) ?_
                intro kvs2 h
                cases h
        | hobj c fsv =>
          rcases hfs : encodeFsH f fsv σ with ⟨rf, σ2⟩
          have hFs := encodeFsH_frame_of ih fsv σ
          rw [hfs] at hFs
          cases rf with
          | error e =>
            simp only [encodeH, hmem, hfs]
            refine ⟨hFs.1, ?_, fun w hw hm => hFs.2.2 w hw hm⟩
            intro r h
            cases h
          | ok prs =>
            simp only [encodeH, hmem, hfs]
            refine ⟨frame_trans hFs.1 Frame.alloc, ?_, ?_⟩
            · intro r h
              cases h
              exact hFs.1.1
            · intro w hw hm
              refine MergeInv_alloc (Nat.le_trans hw hFs.1.1) (hFs.2.2 w hw hm) ?_
              intro kvs2 h kv hkv
              cases h
              exact refGE_mono hw (hFs.2.1 prs rfl kv hkv)

/-- The induction package for `deepcopyH`. -/
def CopyPred (f : Nat) : Prop :=
  ∀ v σ, Frame σ (deepcopyH f v σ).2
    ∧ (∀ r, (deepcopyH f v σ).1 = .ok r → refGE σ.next r)
    ∧ (∀ w, w ≤ σ.next → MergeInv σ w → MergeInv (deepcopyH f v σ).2 w)

theorem deepcopyLH_frame_of {f : Nat} (hE : CopyPred f) :
    ∀ xs σ, Frame σ (deepcopyLH f xs σ).2
      ∧ (∀ w, w ≤ σ.next → MergeInv σ w → MergeInv (deepcopyLH f xs σ).2 w) := by
  intro xs
  induction xs with
  | nil =>
    intro σ
    simp only [deepcopyLH]
    exact ⟨frame_refl, fun _ _ h => h⟩
  | cons x rest ih =>
    intro σ
    rcases hx : deepcopyH f x σ with ⟨rx, σ2⟩
    have hEx := hE x σ
    rw [hx] at hEx
    cases rx with
    | error e =>
      simp only [deepcopyLH, hx]
      exact ⟨hEx.1, fun w hw hm => hEx.2.2 w hw hm⟩
    | ok y =>
      rcases hr : deepcopyLH f rest σ2 with ⟨rr, σ3⟩
      have hih := ih σ2
      rw [hr] at hih
      cases rr with
      | error e =>
        simp only [deepcopyLH, hx, hr]
        exact ⟨frame_trans hEx.1 hih.1,
          fun w hw hm => hih.2 w (Nat.le_trans hw hEx.1.1) (hEx.2.2 w hw hm)⟩
      | ok ys =>
        simp only [deepcopyLH, hx, hr]
        exact ⟨frame_trans hEx.1 hih.1,
          fun w hw hm => hih.2 w (Nat.le_trans hw hEx.1.1) (hEx.2.2 w hw hm)⟩

theorem deepcopyPairsH_frame_of {f : Nat} (hE : CopyPred f) :
    ∀ kvs σ, Frame σ (deepcopyPairsH f kvs σ).2
      ∧ (∀ ps, (deepcopyPairsH f kvs σ).1 = .ok ps → ∀ p ∈ ps, refGE σ.next p.2)
      ∧ (∀ w, w ≤ σ.next → MergeInv σ w → MergeInv (deepcopyPairsH f kvs σ).2 w) := by
  intro kvs
  induction kvs with
  | nil =>
    intro σ
    simp only [deepcopyPairsH]
    refine ⟨frame_refl, ?_, fun _ _ h => h⟩
    intro ps h
    cases h
    intro p hp
    simp at hp
  | cons q rest ih =>
    intro σ
    obtain ⟨k, v⟩ := q
    rcases hk : deepcopyH f k σ with ⟨rk, σ2⟩
    have hEk := hE k σ
    rw [hk] at hEk
    cases rk with
    | error e =>
      simp only [deepcopyPairsH, hk]
      refine ⟨hEk.1, ?_, fun w hw hm => hEk.2.2 w hw hm⟩
      intro ps h
      cases h
    | ok k2 =>
      rcases hv : deepcopyH f v σ2 with ⟨rv, σ3⟩
      have hEv := hE v σ2
      rw [hv] at hEv
      cases rv with
      | error e =>
        simp only [deepcopyPairsH, hk, hv]
        refine ⟨frame_trans hEk.1 hEv.1, ?_, ?_⟩
        · intro ps h
          cases h
        · intro w hw hm
          exact hEv.2.2 w (Nat.le_trans hw hEk.1.1) (hEk.2.2 w hw hm)
      | ok v2 =>
        rcases hr : deepcopyPairsH f rest σ3 with ⟨rr, σ4⟩
        have hih := ih σ3
        rw [hr] at hih
        cases rr with
        | error e =>
          simp only [deepcopyPairsH, hk, hv, hr]
          refine ⟨frame_trans hEk.1 (frame_trans hEv.1 hih.1), ?_, ?_⟩
          · intro ps h
            cases h
          · intro w hw hm
            exact hih.2.2 w (Nat.le_trans hw (Nat.le_trans hEk.1.1 hEv.1.1))
              (hEv.2.2 w (Nat.le_trans hw hEk.1.1) (hEk.2.2 w hw hm))
        | ok ps =>
          simp only [deepcopyPairsH, hk, hv, hr]
          refine ⟨frame_trans hEk.1 (frame_trans hEv.1 hih.1), ?_, ?_⟩
          · intro ps2 h
            cases h
            intro p hp
            rcases List.mem_cons.mp hp with rfl | hp2
            · exact refGE_mono hEk.1.1 (hEv.2.1 v2 rfl)
            · exact refGE_mono (Nat.le_trans hEk.1.1 hEv.1.1) (hih.2.1 ps rfl p hp2)
          · intro w hw hm
            exact hih.2.2 w (Nat.le_trans hw (Nat.le_trans hEk.1.1 hEv.1.1))
              (hEv.2.2 w (Nat.le_trans hw hEk.1.1) (hEk.2.2 w hw hm))

theorem deepcopyFsH_frame_of {f : Nat} (hE : CopyPred f) :
    ∀ fs σ, Frame σ (deepcopyFsH f fs σ).2
      ∧ (∀ w, w ≤ σ.next → MergeInv σ w → MergeInv (deepcopyFsH f fs σ).2 w) := by
  intro fs
  induction fs with
  | nil =>
    intro σ
    simp only [deepcopyFsH]
    exact ⟨frame_refl, fun _ _ h => h⟩
  | cons q rest ih =>
    intro σ
    obtain ⟨n, v⟩ := q
    rcases hv : deepcopyH f v σ with ⟨rv, σ2⟩
    have hEv := hE v σ
    rw [hv] at hEv
    cases rv with
    | error e =>
      simp only [deepcopyFsH, hv]
      exact ⟨hEv.1, fun w hw hm => hEv.2.2 w hw hm⟩
    | ok v2 =>
      rcases hr : deepcopyFsH f rest σ2 with ⟨rr, σ3⟩
      have hih := ih σ2
      rw [hr] at hih
      cases rr with
      | error e =>
        simp only [deepcopyFsH, hv, hr]
        exact ⟨frame_trans hEv.1 hih.1,
          fun w hw hm => hih.2 w (Nat.le_trans hw hEv.1.1) (hEv.2.2 w hw hm)⟩
      | ok fs2 =>
        simp only [deepcopyFsH, hv, hr]
        exact ⟨frame_trans hEv.1 hih.1,
          fun w hw hm => hih.2 w (Nat.le_trans hw hEv.1.1) (hEv.2.2 w hw hm)⟩

theorem deepcopyH_frame : ∀ f, CopyPred f := by
  intro f
  induction f with
  | zero =>
    intro v σ
    simp only [deepcopyH]
    refine ⟨frame_refl, ?_, fun _ _ h => h⟩
    intro r h
    cases h
  | succ f ih =>
    intro v σ
    match v with
    | .hnone =>
      simp only [deepcopyH]
      exact ⟨frame_refl, fun r h => by cases h; trivial, fun _ _ h => h⟩
    | .hbool b =>
      simp only [deepcopyH]
      exact ⟨frame_refl, fun r h => by cases h; trivial, fun _ _ h => h⟩
    | .hint n =>
      simp only [deepcopyH]
      exact ⟨frame_refl, fun r h => by cases h; trivial, fun _ _ h => h⟩
    | .hstr st =>
      simp only [deepcopyH]
      exact ⟨frame_refl, fun r h => by cases h; trivial, fun _ _ h => h⟩
    | .henum en m =>
      simp only [deepcopyH]
      exact ⟨frame_refl, fun r h => by cases h; trivial, fun _ _ h => h⟩
    | .href a =>
      cases hmem : σ.mem a with
      | none =>
        simp only [deepcopyH, hmem]
        refine ⟨frame_refl, ?_, fun _ _ h => h⟩
        intro r h
        cases h
      | some node =>
        cases node with
        | hlist xs =>
          rcases hl : deepcopyLH f xs σ with ⟨rl, σ2⟩
          have hL := deepcopyLH_frame_of ih xs σ
          rw [hl] at hL
          cases rl with
          | error e =>
            simp only [deepcopyH, hmem, hl]
            refine ⟨hL.1, ?_, fun w hw hm => hL.2 w hw hm⟩
            intro r h
            cases h
          | ok ys =>
            simp only [deepcopyH, hmem, hl]
            refine ⟨frame_trans hL.1 Frame.alloc, ?_, ?_⟩
            · intro r h
              cases h
              exact hL.1.1
            · intro w hw hm
              refine MergeInv_alloc (Nat.le_trans hw hL.1.1) (hL.2 w hw hm) ?_
              intro kvs2 h
              cases h
        | htuple xs =>
          rcases hl : deepcopyLH f xs σ with ⟨rl, σ2⟩
          have hL := deepcopyLH_frame_of ih xs σ
          rw [hl] at hL
          cases rl with
          | error e =>
            simp only [deepcopyH, hmem, hl]
            refine ⟨hL.1, ?_, fun w hw hm => hL.2 w hw hm⟩
            intro r h
            cases h
          | ok ys =>
            simp only [deepcopyH, hmem, hl]
            refine ⟨frame_trans hL.1 Frame.alloc, ?_, ?_⟩
            · intro r h
              cases h
              exact hL.1.1
            · intro w hw hm
              refine MergeInv_alloc (Nat.le_trans hw hL.1.1) (hL.2 w hw hm) ?_
              intro kvs2 h
              cases h
        | hset xs =>
          rcases hl : deepcopyLH f xs σ with ⟨rl, σ2⟩
          have hL := deepcopyLH_frame_of ih xs σ
          rw [hl] at hL
          cases rl with
          | error e =>
            simp only [deepcopyH, hmem, hl]
            refine ⟨hL.1, ?_, fun w hw hm => hL.2 w hw hm⟩
            intro r h
            cases h
          | ok ys =>
            simp only [deepcopyH, hmem, hl]
            refine ⟨frame_trans hL.1 Frame.alloc, ?_, ?_⟩
            · intro r h
              cases h
              exact hL.1.1
            · intro w hw hm
              refine MergeInv_alloc (Nat.le_trans hw hL.1.1) (hL.2 w hw hm) ?_
              intro kvs2 h
              cases h
        | hdict kvs =>
          rcases hp : deepcopyPairsH f kvs σ with ⟨rp, σ2⟩
          have hP := deepcopyPairsH_frame_of ih kvs σ
          rw [hp] at hP
          cases rp with
          | error e =>
            simp only [deepcopyH, hmem, hp]
            refine ⟨hP.1, ?_, fun w hw hm => hP.2.2 w hw hm⟩
            intro r h
            cases h
          | ok ps =>
            simp only [deepcopyH, hmem, hp]
            refine ⟨frame_trans hP.1 Frame.alloc, ?_, ?_⟩
            · intro r h
              cases h
              exact hP.1.1
            · intro w hw hm
              refine MergeInv_alloc (Nat.le_trans hw hP.1.1) (hP.2.2 w hw hm) ?_
              intro kvs2 h kv hkv
              cases h
              exact refGE_mono hw (hP.2.1 ps rfl kv hkv)
        | hobj c fsv =>
          rcases hfs : deepcopyFsH f fsv σ with ⟨rf, σ2⟩
          have hFs := deepcopyFsH_frame_of ih fsv σ
          rw [hfs] at hFs
          cases rf with
          | error e =>
            simp only [deepcopyH, hmem, hfs]
            refine ⟨hFs.1, ?_, fun w hw hm => hFs.2 w hw hm⟩
            intro r h
            cases h
          | ok fs2 =>
            simp only [deepcopyH, hmem, hfs]
            refine ⟨frame_trans hFs.1 Frame.alloc, ?_, ?_⟩
            · intro r h
              cases h
              exact hFs.1.1
            · intro w hw hm
              refine MergeInv_alloc (Nat.le_trans hw hFs.1.1) (hFs.2 w hw hm) ?_
              intro kvs2 h
              cases h

theorem frameW_refl {w : Nat} {σ : Store} : FrameW w σ σ :=
  ⟨Nat.le_refl _, fun _ _ => Eq.refl _⟩

theorem frameW_trans {w : Nat} {σ1 σ2 σ3 : Store} (h1 : FrameW w σ1 σ2)
    (h2 : FrameW w σ2 σ3) : FrameW w σ1 σ3 :=
  ⟨Nat.le_trans h1.1 h2.1, fun a ha => by rw [h2.2 a ha, h1.2 a ha]⟩

theorem frameW_of_frame {w : Nat} {σ σ2 : Store} (hw : w ≤ σ.next)
    (h : Frame σ σ2) : FrameW w σ σ2 :=
  ⟨h.1, fun a ha => h.2 a (Nat.lt_of_lt_of_le ha hw)⟩

theorem hDLookup_mem : ∀ {kvs : List (HVal × HVal)} {k v : HVal},
    hDLookup kvs k = some v → ∃ kv ∈ kvs, kv.2 = v := by
  intro kvs
  induction kvs with
  | nil =>
    intro k v h
    rw [hDLookup] at h
    cases h
  | cons p rest ih =>
    intro k v h
    obtain ⟨k2, v2⟩ := p
    rw [hDLookup] at h
    by_cases he : hEqImm k2 k = true
    · rw [if_pos he] at h
      simp only [Option.some.injEq] at h
      subst h
      exact ⟨(k2, v2), by simp, rfl⟩
    · rw [if_neg he] at h
      rcases ih h with ⟨kv, hkv, hv⟩
      exact ⟨kv, List.mem_cons_of_mem _ hkv, hv⟩

theorem mergeTarget_some {σ : Store} {dkvs : List (HVal × HVal)} {k v : HVal}
    {dA2 : Nat} {skvs : List (HVal × HVal)}
    (h : mergeTarget σ dkvs k v = some (dA2, skvs)) :
    hDLookup dkvs k = some (.href dA2) := by
  cases hl : hDLookup dkvs k with
  | none =>
    cases v <;> (simp only [mergeTarget, hl] at h; cases h)
  | some dv =>
    cases dv with
    | hnone => cases v <;> (simp only [mergeTarget, hl] at h; cases h)
    | hbool b => cases v <;> (simp only [mergeTarget, hl] at h; cases h)
    | hint n => cases v <;> (simp only [mergeTarget, hl] at h; cases h)
    | hstr s2 => cases v <;> (simp only [mergeTarget, hl] at h; cases h)
    | henum e m => cases v <;> (simp only [mergeTarget, hl] at h; cases h)
    | href a =>
      cases v with
      | hnone => simp only [mergeTarget, hl] at h; cases h
      | hbool b => simp only [mergeTarget, hl] at h; cases h
      | hint n => simp only [mergeTarget, hl] at h; cases h
      | hstr s2 => simp only [mergeTarget, hl] at h; cases h
      | henum e m => simp only [mergeTarget, hl] at h; cases h
      | href sA =>
        simp only [mergeTarget, hl] at h
        cases hma : σ.mem a with
        | none => rw [hma] at h; simp at h
        | some na =>
          cases hsa : σ.mem sA with
          | none => rw [hma, hsa] at h; cases na <;> simp at h
          | some ns =>
            rw [hma, hsa] at h
            cases na <;> cases ns <;> simp at h
            rw [h.1]

theorem mergeListH_frame : ∀ (f dA : Nat) (src : List (HVal × HVal)) (σ : Store) (w : Nat),
    w ≤ σ.next → MergeInv σ w → w ≤ dA →
    FrameW w σ (mergeListH f dA src σ).2 ∧ MergeInv (mergeListH f dA src σ).2 w := by
  intro f
  induction f with
  | zero =>
    intro dA src σ w hw hm hdA
    simp only [mergeListH]
    exact ⟨frameW_refl, hm⟩
  | succ f ih =>
    intro dA src σ w hw hm hdA
    cases src with
    | nil =>
      simp only [mergeListH]
      exact ⟨frameW_refl, hm⟩
    | cons q rest =>
      obtain ⟨k, v⟩ := q
      cases hd : σ.mem dA with
      | none =>
        simp only [mergeListH, hd]
        exact ⟨frameW_refl, hm⟩
      | some node =>
        cases node with
        | hlist xs =>
          simp only [mergeListH, hd]
          exact ⟨frameW_refl, hm⟩
        | htuple xs =>
          simp only [mergeListH, hd]
          exact ⟨frameW_refl, hm⟩
        | hset xs =>
          simp only [mergeListH, hd]
          exact ⟨frameW_refl, hm⟩
        | hobj c fsv =>
          simp only [mergeListH, hd]
          exact ⟨frameW_refl, hm⟩
        | hdict dkvs =>
          cases ht : mergeTarget σ dkvs k v with
          | some pr =>
            obtain ⟨dA2, skvs⟩ := pr
            have hl := mergeTarget_some ht
            have hv2 : w ≤ dA2 := by
              rcases hDLookup_mem hl with ⟨kv, hkv, hkv2⟩
              have hr := hm dA hdA dkvs hd kv hkv
              rw [hkv2] at hr
              exact hr
            rcases h1 : mergeListH f dA2 skvs σ with ⟨r1, σ2⟩
            have hrec := ih dA2 skvs σ w hw hm hv2
            rw [h1] at hrec
            cases r1 with
            | error e =>
              simp only [mergeListH, hd, ht, h1]
              exact hrec
            | ok u =>
              simp only [mergeListH, hd, ht, h1]
              have hrec2 := ih dA rest σ2 w (Nat.le_trans hw hrec.1.1) hrec.2 hdA
              exact ⟨frameW_trans hrec.1 hrec2.1, hrec2.2⟩
          | none =>
            rcases hc : deepcopyH f v σ with ⟨rc, σ2⟩
            have hdc := deepcopyH_frame f v σ
            rw [hc] at hdc
            cases rc with
            | error e =>
              simp only [mergeListH, hd, ht, hc]
              exact ⟨frameW_of_frame hw hdc.1, hdc.2.2 w hw hm⟩
            | ok cp =>
              simp only [mergeListH, hd, ht, hc]
              have hm2 : MergeInv σ2 w := hdc.2.2 w hw hm
              have hcp : refGE w cp := refGE_mono hw (hdc.2.1 cp rfl)
              have hm3 : MergeInv (σ2.set dA (.hdict (hSet dkvs k cp))) w := by
                refine MergeInv_set hm2 ?_
                intro kvs2 h kv hkv
                cases h
                rcases hSet_vals hkv with hv | ⟨kv2, hkv2, hv⟩
                · rw [hv]
                  exact hcp
                · rw [hv]
                  exact hm dA hdA dkvs hd kv2 hkv2
              have hfw3 : FrameW w σ (σ2.set dA (.hdict (hSet dkvs k cp))) := by
                refine ⟨hdc.1.1, fun a ha => ?_⟩
                simp only [Store.set]
                rw [if_neg (by omega)]
                exact hdc.1.2 a (by omega)
              have hrec := ih dA rest _ w (Nat.le_trans hw hfw3.1) hm3 hdA
              exact ⟨frameW_trans hfw3 hrec.1, hrec.2⟩

theorem frame_of_alloc_frameEx {σ : Store} {n : HNode} {σ2 : Store}
    (h : FrameEx σ.next (σ.alloc n).2 σ2) : Frame σ σ2 := by
  have h1 : (σ.alloc n).2.next = σ.next + 1 := rfl
  refine ⟨?_, fun a ha => ?_⟩
  · have h2 := h.1
    rw [h1] at h2
    omega
  · rw [h.2 a (by rw [h1]; omega) (by omega)]
    simp only [Store.alloc]
    rw [if_neg (by omega)]

/-- The induction package for the decode family: every function of the
family only allocates — except the field loop, which additionally mutates
the designated working-copy address it is given. -/
def DecFrame (f : Nat) : Prop :=
  (∀ t v σ, Frame σ (decodeH f t v σ).2)
  ∧ (∀ rn fs v σ, Frame σ (decodeRecH f rn fs v σ).2)
  ∧ (∀ rn fs objA ia na σ, FrameEx objA σ (decodeFldsGoH f rn fs objA ia na σ).2)
  ∧ (∀ t v σ, Frame σ (decodeListH f t v σ).2)
  ∧ (∀ t xs σ, Frame σ (decodeEachH f t xs σ).2)
  ∧ (∀ t v σ, Frame σ (decodeSetH f t v σ).2)
  ∧ (∀ kt vt v σ, Frame σ (decodeDictH f kt vt v σ).2)
  ∧ (∀ kt vt prs acc σ, Frame σ (decodeDictGoH f kt vt prs acc σ).2)
  ∧ (∀ ts v σ, Frame σ (decodeTupleFixedH f ts v σ).2)
  ∧ (∀ ts xs σ, Frame σ (decodeZipH f ts xs σ).2)
  ∧ (∀ t v σ, Frame σ (decodeTupleVariadicH f t v σ).2)
  ∧ (∀ t v σ, Frame σ (decodeOptionalH f t v σ).2)
  ∧ (∀ o ts v σ, Frame σ (decodeUnionGoH f o ts v σ).2)

theorem decode_frame : ∀ f, DecFrame f := by
  intro f
  induction f with
  | zero =>
    refine ⟨fun t v σ => ?_, fun rn fs v σ => ?_, fun rn fs objA ia na σ => ?_,
      fun t v σ => ?_, fun t xs σ => ?_, fun t v σ => ?_, fun kt vt v σ => ?_,
      fun kt vt prs acc σ => ?_, fun ts v σ => ?_, fun ts xs σ => ?_,
      fun t v σ => ?_, fun t v σ => ?_, fun o ts v σ => ?_⟩
    · simp only [decodeH]; exact frame_refl
    · simp only [decodeRecH]; exact frame_refl
    · simp only [decodeFldsGoH]; exact frameEx_refl
    · simp only [decodeListH]; exact frame_refl
    · simp only [decodeEachH]; exact frame_refl
    · simp only [decodeSetH]; exact frame_refl
    · simp only [decodeDictH]; exact frame_refl
    · simp only [decodeDictGoH]; exact frame_refl
    · simp only [decodeTupleFixedH]; exact frame_refl
    · simp only [decodeZipH]; exact frame_refl
    · simp only [decodeTupleVariadicH]; exact frame_refl
    · simp only [decodeOptionalH]; exact frame_refl
    · simp only [decodeUnionGoH]; exact frame_refl
  | succ f ih =>
    obtain ⟨ihD, ihR, ihF, ihL, ihE, ihS, ihDi, ihDg, ihTf, ihZ, ihTv, ihO, ihU⟩ := ih
    refine ⟨fun t v σ => ?_, fun rn fs v σ => ?_, fun rn fs objA ia na σ => ?_,
      fun t v σ => ?_, fun t xs σ => ?_, fun t v σ => ?_, fun kt vt v σ => ?_,
      fun kt vt prs acc σ => ?_, fun ts v σ => ?_, fun ts xs σ => ?_,
      fun t v σ => ?_, fun t v σ => ?_, fun o ts v σ => ?_⟩
    · cases t with
      | tstr => simp only [decodeH]; exact frame_refl
      | tint => simp only [decodeH]; exact frame_refl
      | tbool => simp only [decodeH]; exact frame_refl
      | tany => simp only [decodeH]; exact frame_refl
      | tnone => simp only [decodeH]; exact frame_refl
      | tcomp c => simp only [decodeH]; exact frame_refl
      | trec rn fs => simp only [decodeH]; exact ihR rn fs v σ
      | tdict kt vt => simp only [decodeH]; exact ihDi kt vt v σ
      | tset t2 => simp only [decodeH]; exact ihS t2 v σ
      | ttuple ts => simp only [decodeH]; exact ihTf ts v σ
      | ttupleEll t2 => simp only [decodeH]; exact ihTv t2 v σ
      | tunion ms => simp only [decodeH]; exact ihU (ms.any isTNone) ms v σ
      | tenum en ms =>
        cases v with
        | hstr s2 =>
          by_cases hc : ms.contains s2 = true
          · simp only [decodeH, if_pos hc]
            exact frame_refl
          · simp only [decodeH, if_neg hc]
            exact frame_refl
        | hnone => simp only [decodeH]; exact frame_refl
        | hbool b => simp only [decodeH]; exact frame_refl
        | hint n => simp only [decodeH]; exact frame_refl
        | henum e2 m2 => simp only [decodeH]; exact frame_refl
        | href a => simp only [decodeH]; exact frame_refl
      | tlist t2 =>
        rcases hl : decodeListH f t2 v σ with ⟨rl, σ2⟩
        have hL := ihL t2 v σ
        rw [hl] at hL
        cases rl with
        | error e => simp only [decodeH, hl]; exact hL
        | ok ys => simp only [decodeH, hl]; exact frame_trans hL Frame.alloc
    · cases v with
      | href a =>
        cases hmem : σ.mem a with
        | none => simp only [decodeRecH, hmem]; exact frame_refl
        | some node =>
          cases node with
          | hlist xs => simp only [decodeRecH, hmem]; exact frame_refl
          | htuple xs => simp only [decodeRecH, hmem]; exact frame_refl
          | hset xs => simp only [decodeRecH, hmem]; exact frame_refl
          | hobj c fsv => simp only [decodeRecH, hmem]; exact frame_refl
          | hdict kvs =>
            rcases hfl : decodeFldsGoH f rn fs σ.next [] [] ((σ.alloc (.hdict kvs)).2)
              with ⟨rf, σ2⟩
            have hF := ihF rn fs σ.next [] [] ((σ.alloc (.hdict kvs)).2)
            rw [hfl] at hF
            have hFr : Frame σ σ2 := frame_of_alloc_frameEx hF
            cases rf with
            | error e => simp only [decodeRecH, hmem, hfl]; exact hFr
            | ok pr =>
              obtain ⟨ia, na⟩ := pr
              cases hm2 : σ2.mem σ.next with
              | none => simp only [decodeRecH, hmem, hfl, hm2]; exact hFr
              | some node2 =>
                cases node2 with
                | hlist xs => simp only [decodeRecH, hmem, hfl, hm2]; exact hFr
                | htuple xs => simp only [decodeRecH, hmem, hfl, hm2]; exact hFr
                | hset xs => simp only [decodeRecH, hmem, hfl, hm2]; exact hFr
                | hobj c fsv => simp only [decodeRecH, hmem, hfl, hm2]; exact hFr
                | hdict extra =>
                  simp only [decodeRecH, hmem, hfl, hm2]
                  by_cases he : extra.isEmpty = true
                  · rw [if_pos he]
                    cases hcf : constructFldsH rn fs ia na with
                    | error e => simp only [hcf]; exact hFr
                    | ok outFs => simp only [hcf]; exact frame_trans hFr Frame.alloc
                  · rw [if_neg he]
                    exact hFr
      | hnone => simp only [decodeRecH]; exact frame_refl
      | hbool b => simp only [decodeRecH]; exact frame_refl
      | hint n => simp only [decodeRecH]; exact frame_refl
      | hstr s2 => simp only [decodeRecH]; exact frame_refl
      | henum e m => simp only [decodeRecH]; exact frame_refl
    · cases fs with
      | nil => simp only [decodeFldsGoH]; exact frameEx_refl
      | cons fld rest =>
        obtain ⟨name, fty, fdef, finit, fmeta⟩ := fld
        cases fmeta with
        | some m => simp only [decodeFldsGoH]; exact frameEx_refl
        | none =>
          cases hmo : σ.mem objA with
          | none => simp only [decodeFldsGoH, hmo]; exact frameEx_refl
          | some node =>
            cases node with
            | hlist xs => simp only [decodeFldsGoH, hmo]; exact frameEx_refl
            | htuple xs => simp only [decodeFldsGoH, hmo]; exact frameEx_refl
            | hset xs => simp only [decodeFldsGoH, hmo]; exact frameEx_refl
            | hobj c fsv => simp only [decodeFldsGoH, hmo]; exact frameEx_refl
            | hdict kvs =>
              cases hlk : hDLookup kvs (.hstr name) with
              | none =>
                simp only [decodeFldsGoH, hmo, hlk]
                exact ihF rn rest objA ia na σ
              | some raw =>
                have hst : FrameEx objA σ (σ.set objA (.hdict (hRemove kvs (.hstr name)))) :=
                  FrameEx.set_self
                rcases hdec : decodeH f fty raw (σ.set objA (.hdict (hRemove kvs (.hstr name))))
                  with ⟨rd, σ2⟩
                have hD := ihD fty raw (σ.set objA (.hdict (hRemove kvs (.hstr name))))
                rw [hdec] at hD
                have hto2 : FrameEx objA σ σ2 := frameEx_trans hst (FrameEx.of_frame hD)
                cases rd with
                | ok fv =>
                  simp only [decodeFldsGoH, hmo, hlk, hdec]
                  by_cases hi : finit = true
                  · rw [if_pos hi]
                    exact frameEx_trans hto2 (ihF rn rest objA (ia ++ [(name, fv)]) na σ2)
                  · rw [if_neg hi]
                    exact frameEx_trans hto2 (ihF rn rest objA ia (na ++ [(name, fv)]) σ2)
                | error e =>
                  simp only [decodeFldsGoH, hmo, hlk, hdec]
                  by_cases hp : e.isParsing = true
                  · rw [if_pos hp]
                    exact hto2
                  · rw [if_neg hp]
                    exact hto2
    · cases v with
      | href a =>
        cases hmem : σ.mem a with
        | none => simp only [decodeListH, hmem]; exact frame_refl
        | some node =>
          cases node with
          | hlist xs => simp only [decodeListH, hmem]; exact ihE t xs σ
          | htuple xs => simp only [decodeListH, hmem]; exact frame_refl
          | hset xs => simp only [decodeListH, hmem]; exact frame_refl
          | hdict kvs => simp only [decodeListH, hmem]; exact frame_refl
          | hobj c fsv => simp only [decodeListH, hmem]; exact frame_refl
      | hnone => simp only [decodeListH]; exact frame_refl
      | hbool b => simp only [decodeListH]; exact frame_refl
      | hint n => simp only [decodeListH]; exact frame_refl
      | hstr s2 => simp only [decodeListH]; exact frame_refl
      | henum e m => simp only [decodeListH]; exact frame_refl
    · cases xs with
      | nil => simp only [decodeEachH]; exact frame_refl
      | cons x rest =>
        rcases hx : decodeH f t x σ with ⟨rx, σ2⟩
        have hX := ihD t x σ
        rw [hx] at hX
        cases rx with
        | error e => simp only [decodeEachH, hx]; exact hX
        | ok y =>
          rcases hr : decodeEachH f t rest σ2 with ⟨rr, σ3⟩
          have hR := ihE t rest σ2
          rw [hr] at hR
          cases rr with
          | error e => simp only [decodeEachH, hx, hr]; exact frame_trans hX hR
          | ok ys => simp only [decodeEachH, hx, hr]; exact frame_trans hX hR
    · rcases hl : decodeListH f t v σ with ⟨rl, σ2⟩
      have hL := ihL t v σ
      rw [hl] at hL
      cases rl with
      | error e => simp only [decodeSetH, hl]; exact hL
      | ok ys => simp only [decodeSetH, hl]; exact frame_trans hL Frame.alloc
    · cases v with
      | href a =>
        cases hmem : σ.mem a with
        | none => simp only [decodeDictH, hmem]; exact frame_refl
        | some node =>
          cases node with
          | hlist items =>
            cases hup : hUnpackAll σ items with
            | error e => simp only [decodeDictH, hmem, hup]; exact frame_refl
            | ok prs => simp only [decodeDictH, hmem, hup]; exact ihDg kt vt prs [] σ
          | hdict kvs => simp only [decodeDictH, hmem]; exact ihDg kt vt kvs [] σ
          | htuple xs => simp only [decodeDictH, hmem]; exact frame_refl
          | hset xs => simp only [decodeDictH, hmem]; exact frame_refl
          | hobj c fsv => simp only [decodeDictH, hmem]; exact frame_refl
      | hnone => simp only [decodeDictH]; exact frame_refl
      | hbool b => simp only [decodeDictH]; exact frame_refl
      | hint n => simp only [decodeDictH]; exact frame_refl
      | hstr s2 => simp only [decodeDictH]; exact frame_refl
      | henum e m => simp only [decodeDictH]; exact frame_refl
    · cases prs with
      | nil => simp only [decodeDictGoH]; exact Frame.alloc
      | cons q rest =>
        obtain ⟨k, v⟩ := q
        rcases hk : decodeH f kt k σ with ⟨rk, σ2⟩
        have hK := ihD kt k σ
        rw [hk] at hK
        cases rk with
        | error e => simp only [decodeDictGoH, hk]; exact hK
        | ok k2 =>
          rcases hv : decodeH f vt v σ2 with ⟨rv, σ3⟩
          have hV := ihD vt v σ2
          rw [hv] at hV
          cases rv with
          | error e => simp only [decodeDictGoH, hk, hv]; exact frame_trans hK hV
          | ok v2 =>
            simp only [decodeDictGoH, hk, hv]
            exact frame_trans hK (frame_trans hV (ihDg kt vt rest (hSet acc k2 v2) σ3))
    · cases v with
        | hnone => simp only [decodeTupleFixedH]; exact frame_refl
        | hbool b =>
          cases hit : hIterate σ (.hbool b) with
          | error e => simp only [decodeTupleFixedH, hit]; exact frame_refl
          | ok items =>
            cases ts with
            | nil => simp only [decodeTupleFixedH, hit]; exact Frame.alloc
            | cons t0 tsRest =>
              by_cases hne : items.length ≠ (t0 :: tsRest).length
              · simp only [decodeTupleFixedH, hit, if_pos hne]
                exact frame_refl
              · rcases hz : decodeZipH f (t0 :: tsRest) items σ with ⟨rz, σ2⟩
                have hZ := ihZ (t0 :: tsRest) items σ
                rw [hz] at hZ
                cases rz with
                | error e =>
                  simp only [decodeTupleFixedH, hit, if_neg hne, hz]
                  exact hZ
                | ok ys =>
                  simp only [decodeTupleFixedH, hit, if_neg hne, hz]
                  exact frame_trans hZ Frame.alloc
        | hint n =>
          cases hit : hIterate σ (.hint n) with
          | error e => simp only [decodeTupleFixedH, hit]; exact frame_refl
          | ok items =>
            cases ts with
            | nil => simp only [decodeTupleFixedH, hit]; exact Frame.alloc
            | cons t0 tsRest =>
              by_cases hne : items.length ≠ (t0 :: tsRest).length
              · simp only [decodeTupleFixedH, hit, if_pos hne]
                exact frame_refl
              · rcases hz : decodeZipH f (t0 :: tsRest) items σ with ⟨rz, σ2⟩
                have hZ := ihZ (t0 :: tsRest) items σ
                rw [hz] at hZ
                cases rz with
                | error e =>
                  simp only [decodeTupleFixedH, hit, if_neg hne, hz]
                  exact hZ
                | ok ys =>
                  simp only [decodeTupleFixedH, hit, if_neg hne, hz]
                  exact frame_trans hZ Frame.alloc
        | hstr s2 =>
          cases hit : hIterate σ (.hstr s2) with
          | error e => simp only [decodeTupleFixedH, hit]; exact frame_refl
          | ok items =>
            cases ts with
            | nil => simp only [decodeTupleFixedH, hit]; exact Frame.alloc
            | cons t0 tsRest =>
              by_cases hne : items.length ≠ (t0 :: tsRest).length
              · simp only [decodeTupleFixedH, hit, if_pos hne]
                exact frame_refl
              · rcases hz : decodeZipH f (t0 :: tsRest) items σ with ⟨rz, σ2⟩
                have hZ := ihZ (t0 :: tsRest) items σ
                rw [hz] at hZ
                cases rz with
                | error e =>
                  simp only [decodeTupleFixedH, hit, if_neg hne, hz]
                  exact hZ
                | ok ys =>
                  simp only [decodeTupleFixedH, hit, if_neg hne, hz]
                  exact frame_trans hZ Frame.alloc
        | henum e2 m2 =>
          cases hit : hIterate σ (.henum e2 m2) with
          | error e => simp only [decodeTupleFixedH, hit]; exact frame_refl
          | ok items =>
            cases ts with
            | nil => simp only [decodeTupleFixedH, hit]; exact Frame.alloc
            | cons t0 tsRest =>
              by_cases hne : items.length ≠ (t0 :: tsRest).length
              · simp only [decodeTupleFixedH, hit, if_pos hne]
                exact frame_refl
              · rcases hz : decodeZipH f (t0 :: tsRest) items σ with ⟨rz, σ2⟩
                have hZ := ihZ (t0 :: tsRest) items σ
                rw [hz] at hZ
                cases rz with
                | error e =>
                  simp only [decodeTupleFixedH, hit, if_neg hne, hz]
                  exact hZ
                | ok ys =>
                  simp only [decodeTupleFixedH, hit, if_neg hne, hz]
                  exact frame_trans hZ Frame.alloc
        | href a =>
          cases hit : hIterate σ (.href a) with
          | error e => simp only [decodeTupleFixedH, hit]; exact frame_refl
          | ok items =>
            cases ts with
            | nil => simp only [decodeTupleFixedH, hit]; exact Frame.alloc
            | cons t0 tsRest =>
              by_cases hne : items.length ≠ (t0 :: tsRest).length
              · simp only [decodeTupleFixedH, hit, if_pos hne]
                exact frame_refl
              · rcases hz : decodeZipH f (t0 :: tsRest) items σ with ⟨rz, σ2⟩
                have hZ := ihZ (t0 :: tsRest) items σ
                rw [hz] at hZ
                cases rz with
                | error e =>
                  simp only [decodeTupleFixedH, hit, if_neg hne, hz]
                  exact hZ
                | ok ys =>
                  simp only [decodeTupleFixedH, hit, if_neg hne, hz]
                  exact frame_trans hZ Frame.alloc
    · cases ts with
      | nil => simp only [decodeZipH]; exact frame_refl
      | cons t tsR =>
        cases xs with
        | nil => simp only [decodeZipH]; exact frame_refl
        | cons x xsR =>
          rcases hx : decodeH f t x σ with ⟨rx, σ2⟩
          have hX := ihD t x σ
          rw [hx] at hX
          cases rx with
          | error e => simp only [decodeZipH, hx]; exact hX
          | ok y =>
            rcases hr : decodeZipH f tsR xsR σ2 with ⟨rr, σ3⟩
            have hR := ihZ tsR xsR σ2
            rw [hr] at hR
            cases rr with
            | error e => simp only [decodeZipH, hx, hr]; exact frame_trans hX hR
            | ok ys => simp only [decodeZipH, hx, hr]; exact frame_trans hX hR
    · cases v with
        | hnone => simp only [decodeTupleVariadicH]; exact frame_refl
        | hbool b =>
          cases hit : hIterate σ (.hbool b) with
          | error e => simp only [decodeTupleVariadicH, hit]; exact frame_refl
          | ok items =>
            rcases he2 : decodeEachH f t items σ with ⟨re2, σ2⟩
            have hE2 := ihE t items σ
            rw [he2] at hE2
            cases re2 with
            | error e =>
              simp only [decodeTupleVariadicH, hit, he2]
              exact hE2
            | ok ys =>
              simp only [decodeTupleVariadicH, hit, he2]
              exact frame_trans hE2 Frame.alloc
        | hint n =>
          cases hit : hIterate σ (.hint n) with
          | error e => simp only [decodeTupleVariadicH, hit]; exact frame_refl
          | ok items =>
            rcases he2 : decodeEachH f t items σ with ⟨re2, σ2⟩
            have hE2 := ihE t items σ
            rw [he2] at hE2
            cases re2 with
            | error e =>
              simp only [decodeTupleVariadicH, hit, he2]
              exact hE2
            | ok ys =>
              simp only [decodeTupleVariadicH, hit, he2]
              exact frame_trans hE2 Frame.alloc
        | hstr s2 =>
          cases hit : hIterate σ (.hstr s2) with
          | error e => simp only [decodeTupleVariadicH, hit]; exact frame_refl
          | ok items =>
            rcases he2 : decodeEachH f t items σ with ⟨re2, σ2⟩
            have hE2 := ihE t items σ
            rw [he2] at hE2
            cases re2 with
            | error e =>
              simp only [decodeTupleVariadicH, hit, he2]
              exact hE2
            | ok ys =>
              simp only [decodeTupleVariadicH, hit, he2]
              exact frame_trans hE2 Frame.alloc
        | henum e2 m2 =>
          cases hit : hIterate σ (.henum e2 m2) with
          | error e => simp only [decodeTupleVariadicH, hit]; exact frame_refl
          | ok items =>
            rcases he2 : decodeEachH f t items σ with ⟨re2, σ2⟩
            have hE2 := ihE t items σ
            rw [he2] at hE2
            cases re2 with
            | error e =>
              simp only [decodeTupleVariadicH, hit, he2]
              exact hE2
            | ok ys =>
              simp only [decodeTupleVariadicH, hit, he2]
              exact frame_trans hE2 Frame.alloc
        | href a =>
          cases hit : hIterate σ (.href a) with
          | error e => simp only [decodeTupleVariadicH, hit]; exact frame_refl
          | ok items =>
            rcases he2 : decodeEachH f t items σ with ⟨re2, σ2⟩
            have hE2 := ihE t items σ
            rw [he2] at hE2
            cases re2 with
            | error e =>
              simp only [decodeTupleVariadicH, hit, he2]
              exact hE2
            | ok ys =>
              simp only [decodeTupleVariadicH, hit, he2]
              exact frame_trans hE2 Frame.alloc
    · cases v with
      | hnone => simp only [decodeOptionalH]; exact frame_refl
      | hbool b => simp only [decodeOptionalH]; exact ihD t (.hbool b) σ
      | hint n => simp only [decodeOptionalH]; exact ihD t (.hint n) σ
      | hstr s2 => simp only [decodeOptionalH]; exact ihD t (.hstr s2) σ
      | henum e2 m2 => simp only [decodeOptionalH]; exact ihD t (.henum e2 m2) σ
      | href a => simp only [decodeOptionalH]; exact ihD t (.href a) σ
    · cases ts with
      | nil => simp only [decodeUnionGoH]; exact frame_refl
      | cons t rest =>
        by_cases hn : isTNone t = true
        · simp only [decodeUnionGoH, if_pos hn]
          exact ihU o rest v σ
        · cases o with
          | true =>
            rcases hc : decodeOptionalH f t v σ with ⟨rc, σ2⟩
            have hC := ihO t v σ
            rw [hc] at hC
            cases rc with
            | ok r =>
              simp only [decodeUnionGoH, if_neg hn, if_true, hc]
              exact hC
            | error e =>
              simp only [decodeUnionGoH, if_neg hn, if_true, hc]
              exact frame_trans hC (ihU true rest v σ2)
          | false =>
            rcases hc : decodeH f t v σ with ⟨rc, σ2⟩
            have hC := ihD t v σ
            rw [hc] at hC
            cases rc with
            | ok r =>
              simp only [decodeUnionGoH, if_neg hn, Bool.false_eq_true, if_false, hc]
              exact hC
            | error e =>
              simp only [decodeUnionGoH, if_neg hn, Bool.false_eq_true, if_false, hc]
              exact frame_trans hC (ihU false rest v σ2)

/-- A value whose reference (if any) lies strictly below the frontier —
the values that denote objects existing before a call. -/
def refLT (w : Nat) : HVal → Prop
  | .href a => a < w
  | _ => True

theorem closed_children {σ : Store} (hc : Closed σ) {a : Nat} {n : HNode}
    (hmem : σ.mem a = some n) : ∀ x ∈ nodeVals n, refLT σ.next x := by
  intro x hx
  match x with
  | .href b => exact hc a n hmem (.href b) hx b rfl
  | .hnone | .hbool _ | .hint _ | .hstr _ | .henum _ _ => trivial

theorem nodeVals_dict_mem : ∀ {kvs : List (HVal × HVal)} {kv : HVal × HVal}, kv ∈ kvs →
    kv.1 ∈ nodeVals (.hdict kvs) ∧ kv.2 ∈ nodeVals (.hdict kvs) := by
  intro kvs
  induction kvs with
  | nil =>
    intro kv h
    simp at h
  | cons p rest ih =>
    intro kv h
    have hfold : nodeVals (.hdict (p :: rest)) = p.1 :: p.2 :: nodeVals (.hdict rest) := rfl
    rw [hfold]
    rcases List.mem_cons.mp h with rfl | h2
    · exact ⟨by simp, by simp⟩
    · have hr := ih h2
      exact ⟨List.mem_cons_of_mem _ (List.mem_cons_of_mem _ hr.1),
        List.mem_cons_of_mem _ (List.mem_cons_of_mem _ hr.2)⟩

/-- Readback only looks below the frontier of a closed store, so it is
unchanged under the frame relation. -/
theorem readback_frame : ∀ (f : Nat) (σ σ2 : Store), Closed σ → Frame σ σ2 →
    (∀ v, refLT σ.next v → readback σ2 f v = readback σ f v)
    ∧ (∀ xs, (∀ x ∈ xs, refLT σ.next x) → readbackL σ2 f xs = readbackL σ f xs)
    ∧ (∀ kvs, (∀ kv ∈ kvs, refLT σ.next kv.1 ∧ refLT σ.next kv.2) →
        readbackPairs σ2 f kvs = readbackPairs σ f kvs)
    ∧ (∀ fsv, (∀ p ∈ fsv, refLT σ.next p.2) → readbackFs σ2 f fsv = readbackFs σ f fsv) := by
  intro f
  induction f with
  | zero =>
    intro σ σ2 hc hF
    have hv : ∀ v, refLT σ.next v → readback σ2 0 v = readback σ 0 v := by
      intro v hlt
      cases v <;> simp only [readback]
    refine ⟨hv, ?_, ?_, ?_⟩
    · intro xs hxs
      induction xs with
      | nil => simp only [readbackL]
      | cons x rest ih2 =>
        simp only [readbackL]
        rw [hv x (hxs x (by simp)), ih2 (fun y hy => hxs y (List.mem_cons_of_mem _ hy))]
    · intro kvs hkvs
      induction kvs with
      | nil => simp only [readbackPairs]
      | cons p rest ih2 =>
        obtain ⟨k, v⟩ := p
        simp only [readbackPairs]
        rw [hv k (hkvs (k, v) (by simp)).1, hv v (hkvs (k, v) (by simp)).2,
          ih2 (fun q hq => hkvs q (List.mem_cons_of_mem _ hq))]
    · intro fsv hfs
      induction fsv with
      | nil => simp only [readbackFs]
      | cons p rest ih2 =>
        obtain ⟨n, v⟩ := p
        simp only [readbackFs]
        rw [hv v (hfs (n, v) (by simp)), ih2 (fun q hq => hfs q (List.mem_cons_of_mem _ hq))]
  | succ f ih =>
    intro σ σ2 hc hF
    have ihp := ih σ σ2 hc hF
    have hv : ∀ v, refLT σ.next v → readback σ2 (f + 1) v = readback σ (f + 1) v := by
      intro v hlt
      cases v with
      | hnone => simp only [readback]
      | hbool b => simp only [readback]
      | hint n => simp only [readback]
      | hstr s2 => simp only [readback]
      | henum e m => simp only [readback]
      | href a =>
        have ha : a < σ.next := hlt
        have hmm : σ2.mem a = σ.mem a := hF.2 a ha
        cases hmem : σ.mem a with
        | none => simp only [readback, hmm, hmem]
        | some n =>
          have hch := closed_children hc hmem
          cases n with
          | hlist xs =>
            simp only [readback, hmm, hmem]
            rw [ihp.2.1 xs (fun x hx => hch x hx)]
          | htuple xs =>
            simp only [readback, hmm, hmem]
            rw [ihp.2.1 xs (fun x hx => hch x hx)]
          | hset xs =>
            simp only [readback, hmm, hmem]
            rw [ihp.2.1 xs (fun x hx => hch x hx)]
          | hdict kvs =>
            simp only [readback, hmm, hmem]
            rw [ihp.2.2.1 kvs (fun kv hkv =>
              ⟨hch kv.1 (nodeVals_dict_mem hkv).1, hch kv.2 (nodeVals_dict_mem hkv).2⟩)]
          | hobj c fsv =>
            simp only [readback, hmm, hmem]
            rw [ihp.2.2.2 fsv (fun p hp => hch p.2 (List.mem_map_of_mem _ hp))]
    refine ⟨hv, ?_, ?_, ?_⟩
    · intro xs hxs
      induction xs with
      | nil => simp only [readbackL]
      | cons x rest ih2 =>
        simp only [readbackL]
        rw [hv x (hxs x (by simp)), ih2 (fun y hy => hxs y (List.mem_cons_of_mem _ hy))]
    · intro kvs hkvs
      induction kvs with
      | nil => simp only [readbackPairs]
      | cons p rest ih2 =>
        obtain ⟨k, v⟩ := p
        simp only [readbackPairs]
        rw [hv k (hkvs (k, v) (by simp)).1, hv v (hkvs (k, v) (by simp)).2,
          ih2 (fun q hq => hkvs q (List.mem_cons_of_mem _ hq))]
    · intro fsv hfs
      induction fsv with
      | nil => simp only [readbackFs]
      | cons p rest ih2 =>
        obtain ⟨n, v⟩ := p
        simp only [readbackFs]
        rw [hv v (hfs (n, v) (by simp)), ih2 (fun q hq => hfs q (List.mem_cons_of_mem _ hq))]

/-- On success, `decode_dataclass` returns a reference to the freshly
allocated instance — an address at or above the entry frontier. -/
theorem decodeRecH_fresh : ∀ {f : Nat} {rn : String} {fs : List Fld} {v : HVal} {σ : Store}
    {r : HVal} {σ2 : Store}, decodeRecH f rn fs v σ = (.ok r, σ2) →
    ∃ a, r = .href a ∧ σ.next ≤ a := by
  intro f rn fs v σ r σ2 h
  match f with
  | 0 =>
    simp only [decodeRecH, Prod.mk.injEq] at h
    cases h.1
  | f + 1 =>
    match v with
    | .hnone | .hbool _ | .hint _ | .hstr _ | .henum _ _ =>
      simp only [decodeRecH, Prod.mk.injEq] at h
      cases h.1
    | .href a0 =>
      cases hmem : σ.mem a0 with
      | none =>
        simp only [decodeRecH, hmem, Prod.mk.injEq] at h
        cases h.1
      | some node =>
        cases node with
        | hlist xs =>
          simp only [decodeRecH, hmem, Prod.mk.injEq] at h
          cases h.1
        | htuple xs =>
          simp only [decodeRecH, hmem, Prod.mk.injEq] at h
          cases h.1
        | hset xs =>
          simp only [decodeRecH, hmem, Prod.mk.injEq] at h
          cases h.1
        | hobj c fsv =>
          simp only [decodeRecH, hmem, Prod.mk.injEq] at h
          cases h.1
        | hdict kvs =>
          rcases hfl : decodeFldsGoH f rn fs σ.next [] [] ((σ.alloc (.hdict kvs)).2)
            with ⟨rf, σf⟩
          have hF := (decode_frame f).2.2.1 rn fs σ.next [] [] ((σ.alloc (.hdict kvs)).2)
          rw [hfl] at hF
          have hle : σ.next ≤ σf.next := by
            have h1 : (σ.alloc (.hdict kvs)).2.next = σ.next + 1 := rfl
            have h2 : σ.next + 1 ≤ σf.next := by
              have h3 := hF.1
              rw [h1] at h3
              exact h3
            omega
          cases rf with
          | error e =>
            simp only [decodeRecH, hmem, hfl, Prod.mk.injEq] at h
            cases h.1
          | ok pr =>
            obtain ⟨ia, na⟩ := pr
            cases hm2 : σf.mem σ.next with
            | none =>
              simp only [decodeRecH, hmem, hfl, hm2, Prod.mk.injEq] at h
              cases h.1
            | some node2 =>
              cases node2 with
              | hlist xs =>
                simp only [decodeRecH, hmem, hfl, hm2, Prod.mk.injEq] at h
                cases h.1
              | htuple xs =>
                simp only [decodeRecH, hmem, hfl, hm2, Prod.mk.injEq] at h
                cases h.1
              | hset xs =>
                simp only [decodeRecH, hmem, hfl, hm2, Prod.mk.injEq] at h
                cases h.1
              | hobj c fsv =>
                simp only [decodeRecH, hmem, hfl, hm2, Prod.mk.injEq] at h
                cases h.1
              | hdict extra =>
                simp only [decodeRecH, hmem, hfl, hm2] at h
                by_cases he : extra.isEmpty = true
                · rw [if_pos he] at h
                  cases hcf : constructFldsH rn fs ia na with
                  | error e =>
                    rw [hcf] at h
                    simp only [Prod.mk.injEq] at h
                    cases h.1
                  | ok outFs =>
                    rw [hcf] at h
                    simp only [Prod.mk.injEq] at h
                    rcases h with ⟨h1, h2⟩
                    cases h1
                    exact ⟨σf.next, rfl, hle⟩
                · rw [if_neg he] at h
                  simp only [Prod.mk.injEq] at h
                  cases h.1

theorem decodeH_rec_fresh {f : Nat} {rn : String} {fs : List Fld} {v : HVal} {σ : Store}
    {r : HVal} {σ2 : Store} (h : decodeH f (.trec rn fs) v σ = (.ok r, σ2)) :
    ∃ a, r = .href a ∧ σ.next ≤ a := by
  match f with
  | 0 =>
    simp only [decodeH, Prod.mk.injEq] at h
    cases h.1
  | f + 1 =>
    simp only [decodeH] at h
    exact decodeRecH_fresh h

/-- The C10 heap fixture: address 0 holds the nested map, address 1 the
input pytree with one key "opt" whose value is that nested map. -/
def c10σ : Store :=
  ⟨2, fun a =>
    if a = 0 then some (.hdict [(.hstr "lr", .hint 1)])
    else if a = 1 then some (.hdict [(.hstr "opt", .href 0)])
    else none⟩

def c10ty : Ty := .trec "Cfg" [.mk "opt" (.tdict .tstr .tint) none true none]

/-- C10: decoding never mutates its input pytree. Every function of the
decode family only allocates — `decode_dataclass` pops keys off a fresh
shallow copy of its input map, the container decoders build fresh nodes —
so every address existing before the call holds the same node after it,
and the readback of the input value (including its nested maps and
sequences) is the same after `decode` as before. -/
theorem claim_C10_decode_frame (f : Nat) (t : Ty) (v : HVal) (σ : Store)
    (hcl : Closed σ) (hv : refLT σ.next v) :
    Frame σ (decodeH f t v σ).2
    ∧ (∀ g, readback (decodeH f t v σ).2 g v = readback σ g v) := by
  have hFr := (decode_frame f).1 t v σ
  exact ⟨hFr, fun g => (readback_frame g σ (decodeH f t v σ).2 hcl hFr).1 v hv⟩

theorem claim_C10_decode_frame_witness :
    Frame c10σ (decodeH 9 c10ty (.href 1) c10σ).2
    ∧ (∀ g, readback (decodeH 9 c10ty (.href 1) c10σ).2 g (.href 1) =
        readback c10σ g (.href 1)) :=
  claim_C10_decode_frame 9 c10ty (.href 1) c10σ
    (by
      intro a n hmem x hx b hxb
      have hmem2 : (if a = 0 then some (HNode.hdict [(.hstr "lr", .hint 1)])
          else if a = 1 then some (HNode.hdict [(.hstr "opt", .href 0)])
          else none) = some n := hmem
      show b < 2
      by_cases h0 : a = 0
      · rw [if_pos h0] at hmem2
        cases hmem2
        simp [nodeVals] at hx
        rcases hx with rfl | rfl <;> cases hxb
      · rw [if_neg h0] at hmem2
        by_cases h1 : a = 1
        · rw [if_pos h1] at hmem2
          cases hmem2
          simp [nodeVals] at hx
          rcases hx with rfl | rfl
          · cases hxb
          · cases hxb
            omega
        · rw [if_neg h1] at hmem2
          cases hmem2)
    (by
      show (1 : Nat) < 2
      decide)

/-- The C9 heap fixture: address 0 holds the original instance
Cfg(x = 1), address 1 the override pytree mapping "x" to 2. -/
def c9σ : Store :=
  ⟨2, fun a =>
    if a = 0 then some (.hobj "Cfg" [("x", .hint 1)])
    else if a = 1 then some (.hdict [(.hstr "x", .hint 2)])
    else none⟩

def c9fs : List Fld := [.mk "x" .tint none true none]

/-- C9: `update(instance, overrides)` encodes the instance into a fresh
pytree, merges the overrides into that fresh tree only, and decodes a new
instance from it. Every address existing before the call holds the same
node after it — so every field of the original instance reads back
unchanged — and a successful result is a reference to a freshly allocated
object, an address unallocated before the call, never the input instance. -/
theorem claim_C9_update_fresh (fuel : Nat) (rn : String) (fs : List Fld)
    (dc ov : HVal) (σ : Store) (hwf : WfNext σ) (hcl : Closed σ)
    (hdc : refLT σ.next dc) :
    Frame σ (updateH fuel (.trec rn fs) dc ov σ).2
    ∧ (∀ g, readback (updateH fuel (.trec rn fs) dc ov σ).2 g dc = readback σ g dc)
    ∧ (∀ r, (updateH fuel (.trec rn fs) dc ov σ).1 = .ok r →
        ∃ a, r = .href a ∧ σ.next ≤ a ∧ σ.mem a = none) := by
  rcases he : encodeH fuel dc σ with ⟨re, σ1⟩
  have hE := encodeH_frame fuel dc σ
  rw [he] at hE
  cases re with
  | error e =>
    simp only [updateH, he]
    refine ⟨hE.1, fun g => (readback_frame g σ σ1 hcl hE.1).1 dc hdc, ?_⟩
    intro r h
    cases h
  | ok p =>
    cases p with
    | hnone =>
      cases ov <;>
        (simp only [updateH, he];
         refine ⟨hE.1, fun g => (readback_frame g σ σ1 hcl hE.1).1 dc hdc, ?_⟩;
         intro r h; cases h)
    | hbool b =>
      cases ov <;>
        (simp only [updateH, he];
         refine ⟨hE.1, fun g => (readback_frame g σ σ1 hcl hE.1).1 dc hdc, ?_⟩;
         intro r h; cases h)
    | hint n =>
      cases ov <;>
        (simp only [updateH, he];
         refine ⟨hE.1, fun g => (readback_frame g σ σ1 hcl hE.1).1 dc hdc, ?_⟩;
         intro r h; cases h)
    | hstr s2 =>
      cases ov <;>
        (simp only [updateH, he];
         refine ⟨hE.1, fun g => (readback_frame g σ σ1 hcl hE.1).1 dc hdc, ?_⟩;
         intro r h; cases h)
    | henum e m =>
      cases ov <;>
        (simp only [updateH, he];
         refine ⟨hE.1, fun g => (readback_frame g σ σ1 hcl hE.1).1 dc hdc, ?_⟩;
         intro r h; cases h)
    | href pA =>
      cases ov with
      | hnone =>
        simp only [updateH, he]
        refine ⟨hE.1, fun g => (readback_frame g σ σ1 hcl hE.1).1 dc hdc, ?_⟩
        intro r h
        cases h
      | hbool b =>
        simp only [updateH, he]
        refine ⟨hE.1, fun g => (readback_frame g σ σ1 hcl hE.1).1 dc hdc, ?_⟩
        intro r h
        cases h
      | hint n =>
        simp only [updateH, he]
        refine ⟨hE.1, fun g => (readback_frame g σ σ1 hcl hE.1).1 dc hdc, ?_⟩
        intro r h
        cases h
      | hstr s2 =>
        simp only [updateH, he]
        refine ⟨hE.1, fun g => (readback_frame g σ σ1 hcl hE.1).1 dc hdc, ?_⟩
        intro r h
        cases h
      | henum e m =>
        simp only [updateH, he]
        refine ⟨hE.1, fun g => (readback_frame g σ σ1 hcl hE.1).1 dc hdc, ?_⟩
        intro r h
        cases h
      | href oA =>
        cases hoa : σ1.mem oA with
        | none =>
          simp only [updateH, he, hoa]
          refine ⟨hE.1, fun g => (readback_frame g σ σ1 hcl hE.1).1 dc hdc, ?_⟩
          intro r h
          cases h
        | some node =>
          cases node with
          | hlist xs =>
            simp only [updateH, he, hoa]
            refine ⟨hE.1, fun g => (readback_frame g σ σ1 hcl hE.1).1 dc hdc, ?_⟩
            intro r h
            cases h
          | htuple xs =>
            simp only [updateH, he, hoa]
            refine ⟨hE.1, fun g => (readback_frame g σ σ1 hcl hE.1).1 dc hdc, ?_⟩
            intro r h
            cases h
          | hset xs =>
            simp only [updateH, he, hoa]
            refine ⟨hE.1, fun g => (readback_frame g σ σ1 hcl hE.1).1 dc hdc, ?_⟩
            intro r h
            cases h
          | hobj c fsv =>
            simp only [updateH, he, hoa]
            refine ⟨hE.1, fun g => (readback_frame g σ σ1 hcl hE.1).1 dc hdc, ?_⟩
            intro r h
            cases h
          | hdict skvs =>
            rcases hm : mergeListH fuel pA skvs σ1 with ⟨rm, σ2⟩
            have hMI0 : MergeInv σ σ.next := by
              intro a ha kvs hmem
              rw [hwf a ha] at hmem
              cases hmem
            have hMI1 : MergeInv σ1 σ.next := hE.2.2 σ.next (Nat.le_refl _) hMI0
            have hpA : σ.next ≤ pA := hE.2.1 (.href pA) rfl
            have hMF := mergeListH_frame fuel pA skvs σ1 σ.next hE.1.1 hMI1 hpA
            rw [hm] at hMF
            have hF2 : Frame σ σ2 := ⟨Nat.le_trans hE.1.1 hMF.1.1, fun a ha => by
              rw [hMF.1.2 a ha, hE.1.2 a ha]⟩
            cases rm with
            | error e =>
              simp only [updateH, he, hoa, hm]
              refine ⟨hF2, fun g => (readback_frame g σ σ2 hcl hF2).1 dc hdc, ?_⟩
              intro r h
              cases h
            | ok u =>
              rcases hd : decodeH fuel (.trec rn fs) (.href pA) σ2 with ⟨rd, σ3⟩
              have hD := (decode_frame fuel).1 (.trec rn fs) (.href pA) σ2
              rw [hd] at hD
              have hF3 : Frame σ σ3 := frame_trans hF2 hD
              simp only [updateH, he, hoa, hm, hd]
              refine ⟨hF3, fun g => (readback_frame g σ σ3 hcl hF3).1 dc hdc, ?_⟩
              intro r h
              cases rd with
              | error e => cases h
              | ok w =>
                cases h
                rcases decodeH_rec_fresh hd with ⟨a, rfl, ha⟩
                have hge : σ.next ≤ a := Nat.le_trans hF2.1 ha
                exact ⟨a, rfl, hge, hwf a hge⟩

theorem claim_C9_update_fresh_witness :
    Frame c9σ (updateH 9 (.trec "Cfg" c9fs) (.href 0) (.href 1) c9σ).2
    ∧ (∀ g, readback (updateH 9 (.trec "Cfg" c9fs) (.href 0) (.href 1) c9σ).2 g (.href 0) =
        readback c9σ g (.href 0))
    ∧ (∀ r, (updateH 9 (.trec "Cfg" c9fs) (.href 0) (.href 1) c9σ).1 = .ok r →
        ∃ a, r = .href a ∧ c9σ.next ≤ a ∧ c9σ.mem a = none) :=
  claim_C9_update_fresh 9 "Cfg" c9fs (.href 0) (.href 1) c9σ
    (by
      intro a ha
      have h2 : (2 : Nat) ≤ a := ha
      show (if a = 0 then some (HNode.hobj "Cfg" [("x", .hint 1)])
        else if a = 1 then some (HNode.hdict [(.hstr "x", .hint 2)])
        else none) = none
      rw [if_neg (by omega), if_neg (by omega)])
    (by
      intro a n hmem x hx b hxb
      have hmem2 : (if a = 0 then some (HNode.hobj "Cfg" [("x", .hint 1)])
          else if a = 1 then some (HNode.hdict [(.hstr "x", .hint 2)])
          else none) = some n := hmem
      show b < 2
      by_cases h0 : a = 0
      · rw [if_pos h0] at hmem2
        cases hmem2
        simp [nodeVals] at hx
        subst hx
        cases hxb
      · rw [if_neg h0] at hmem2
        by_cases h1 : a = 1
        · rw [if_pos h1] at hmem2
          cases hmem2
          simp [nodeVals] at hx
          rcases hx with rfl | rfl <;> cases hxb
        · rw [if_neg h1] at hmem2
          cases hmem2)
    (by
      show (0 : Nat) < 2
      decide)

end Haven
